import Mathlib

/-!
# A verification model of the `fdict` flattened-dictionary library

This file gives a shallow embedding of `src/fdict/fdict.py` (the class
`fdict`): a flattened hierarchical key-value container storing a nested
mapping as a single flat dict keyed by delimiter-joined path strings,
with three operating modes (default, fastview, nodel).

## Embedding conventions

* A Python key string such as `"a/b"` (a leaf path) or `"a/b/"` (a node
  path, suffixed with the delimiter) is represented by `FKey`: the list
  of its delimiter-separated segments together with a flag telling
  whether the string ends with the delimiter.  The embedding covers the
  well-formed keys actually manipulated by the library: segments are
  non-empty strings not containing the delimiter, so the translation
  between strings and `FKey` is a bijection and every string operation
  of the source (`rfind`, `startswith`, slicing, concatenating the
  delimiter) has an exact segment-level counterpart, used below.
* The backing dict `self.d` is `FMap α`: an association list with
  unique keys, in insertion order, mirroring CPython dicts (assignment
  of an existing key keeps its position, new keys are appended,
  `popitem` pops the most recently inserted entry).
* Python `set` objects used as fastview node markers are modelled as
  duplicate-free `List FKey` with extensional operations; the iteration
  order of a Python set is unspecified, and no semantic result below
  depends on the model's list order.
* Leaf payloads are an opaque type `α` with decidable equality.  A
  stored value (`FVal`) is a leaf payload, a fastview child-set marker,
  or the nodel `None` marker.
* Mutating methods return the new map together with an error flag
  (`true` = the Python call raised, e.g. `KeyError`); the map component
  is the state at the moment the exception escaped, matching in-place
  mutation semantics.
-/

namespace Fdict

/-- A key of the internal flat dict: the list of path segments, plus
whether the Python string ends with the delimiter (`node`) or not
(`leaf`).  `fdict._build_path` composes paths by joining segments. -/
inductive FKey where
  | leaf (segs : List String)
  | node (segs : List String)
deriving DecidableEq, Repr

namespace FKey

/-- The segment list of a key (the string with the trailing delimiter,
if any, removed, split on the delimiter). -/
def segs : FKey → List String
  | .leaf s => s
  | .node s => s

/-- Whether the key string ends with the delimiter (`k[-1:] == delimiter`
in the source). -/
def isNode : FKey → Bool
  | .leaf _ => false
  | .node _ => true

/-- Prepend a rootpath: `fdict._build_path(key)` joins
`rootpath` and `key` with the delimiter. -/
def addRoot (root : List String) : FKey → FKey
  | .leaf s => .leaf (root ++ s)
  | .node s => .node (root ++ s)

/-- Drop the first `n` segments: the slicing `k[lpattern:]` used by the
view methods to return paths relative to the rootpath. -/
def dropSegs (n : Nat) : FKey → FKey
  | .leaf s => .leaf (s.drop n)
  | .node s => .node (s.drop n)

end FKey

/-- A stored value: a leaf payload, a fastview node marker (a Python
`set` of the node's immediate children's full keys), or the nodel node
marker (`None`). -/
inductive FVal (α : Type) where
  | leafV (a : α)
  | setV (s : List FKey)
  | noneV
deriving DecidableEq, Repr

/-- The internal flat dict `self.d`: an insertion-ordered association
list with unique keys (a CPython dict). -/
def FMap (α : Type) : Type := List (FKey × FVal α)

namespace FMap

variable {α : Type}

/-- Dict lookup (`d[k]` / `d.get(k)`). -/
def get? : FMap α → FKey → Option (FVal α)
  | [], _ => none
  | (k, v) :: t, q => if k = q then some v else get? t q

/-- Dict membership (`k in d`). -/
def hasKey (d : FMap α) (q : FKey) : Bool :=
  (d.get? q).isSome

/-- Dict assignment (`d[k] = v`): replace in place if the key exists,
else append, as CPython does. -/
def setk : FMap α → FKey → FVal α → FMap α
  | [], q, v => [(q, v)]
  | (k, w) :: t, q, v => if k = q then (k, v) :: t else (k, w) :: setk t q v

/-- Dict deletion of a present key (`del d[k]`); on an absent key this
returns the map unchanged, and callers model the `KeyError` separately. -/
def erase : FMap α → FKey → FMap α
  | [], _ => []
  | (k, w) :: t, q => if k = q then t else (k, w) :: erase t q

/-- The list of keys, in insertion order (`d.keys()`). -/
def keysList (d : FMap α) : List FKey :=
  d.map Prod.fst

/-- Number of entries (`len(d)`). -/
def size (d : FMap α) : Nat :=
  d.length

/-- Filter entries (models a Python generator filtering `d.items()`). -/
def filter (p : FKey × FVal α → Bool) (d : FMap α) : FMap α :=
  List.filter p d

/-- Transform entries (models a Python generator mapping `d.items()`). -/
def mapEnt (f : FKey × FVal α → FKey × FVal α) (d : FMap α) : FMap α :=
  List.map f d

end FMap

/-! ## Path helpers (`fdict` static methods, segment level) -/

/-- Worker for `parentNodes`, structurally recursive on a fuel that
the wrapper instantiates with the path length (each step drops the last
segment, so the length is always enough fuel and the 0 case is never
the deciding one). -/
def parentNodesGo : Nat → List String → List (List String)
  | 0, _ => []
  | n + 1, s =>
    match s.dropLast with
    | [] => []
    | p :: ps => (p :: ps) :: parentNodesGo n (p :: ps)

/-- `fdict._get_all_parent_nodes(path)`: the node paths of all proper
non-empty prefixes of a path, nearest (deepest) first.  For the string
`'a/b/c'` this yields `'a/b/'` then `'a/'`. -/
def parentNodes (s : List String) : List (List String) :=
  parentNodesGo s.length s

/-- The fuel of `parentNodesGo` is irrelevant as soon as it reaches
the path length. -/
theorem parentNodesGo_irrel :
    ∀ (n m : Nat) (s : List String), s.length ≤ n → s.length ≤ m →
      parentNodesGo n s = parentNodesGo m s := by
  intro n
  induction n with
  | zero =>
    intro m s hn _
    have : s = [] := List.length_eq_zero.mp (Nat.le_zero.mp hn)
    subst this
    cases m <;> simp [parentNodesGo]
  | succ n ih =>
    intro m s hn hm
    cases m with
    | zero =>
      have : s = [] := List.length_eq_zero.mp (Nat.le_zero.mp hm)
      subst this
      simp [parentNodesGo]
    | succ m =>
      show parentNodesGo (n + 1) s = parentNodesGo (m + 1) s
      unfold parentNodesGo
      cases hd : s.dropLast with
      | nil => rfl
      | cons p ps =>
        have hlen : (p :: ps).length + 1 = s.length := by
          have h1 := List.length_dropLast s
          have h2 : s ≠ [] := by
            intro h; rw [h] at hd; simp at hd
          have h3 : 0 < s.length := List.length_pos.mpr h2
          rw [hd] at h1
          omega
        dsimp only
        rw [ih m (p :: ps) (by omega) (by omega)]

/-- The defining recursion of `parentNodes`. -/
theorem parentNodes_eq (s : List String) :
    parentNodes s =
      match s.dropLast with
      | [] => []
      | p :: ps => (p :: ps) :: parentNodes (p :: ps) := by
  unfold parentNodes
  cases s with
  | nil => rfl
  | cons a t =>
    show parentNodesGo (t.length + 1) (a :: t) = _
    unfold parentNodesGo
    cases hd : (a :: t).dropLast with
    | nil => rfl
    | cons p ps =>
      have hlen : (p :: ps).length = t.length := by
        have := List.length_dropLast (a :: t)
        rw [hd] at this
        simpa using this
      dsimp only
      rw [parentNodesGo_irrel t.length (p :: ps).length (p :: ps) (by omega) (by omega)]
      rfl

/-- `fdict._get_all_parent_nodes_nested(path)`: the relative segment
names from the root down to the leaf's direct parent, i.e. all segments
but the last. -/
def parentsNested (s : List String) : List String :=
  s.dropLast

/-- `fdict._get_parent_node(path)`: the direct parent node path, or
`none` when the result is the empty (falsy) string.  The source strips a
trailing delimiter first, so leaf and node forms of the same path have
the same parent. -/
def parentOf (s : List String) : Option (List String) :=
  if s.dropLast.isEmpty then none else some s.dropLast

/-- Segment-level prefix test (`l` is a prefix of `s`). -/
def segPrefix : List String → List String → Bool
  | [], _ => true
  | _ :: _, [] => false
  | a :: as, b :: bs => a = b && segPrefix as bs

/-- The string test `str(k).startswith(str_of_path(p) ++ delimiter)`,
at segment level: `p` is a proper prefix of `k`'s segments, or `k` is
the node form of `p` itself. -/
def startsWithDir (p : List String) (k : FKey) : Bool :=
  segPrefix p k.segs && (decide (k.segs ≠ p) || k.isNode)

/-! ## Nested dictionaries

Plain Python nested dicts, as accepted by `fdict.__init__`, by
`__setitem__` with a mapping value, by `update`, and produced by
`to_dict_nested`.  Keys are single segments (the embedding covers keys
not containing the delimiter). -/

mutual
/-- A value inside a nested dict: an opaque leaf payload or a sub-dict
(`isinstance(v, collections.Mapping)` in the source). -/
inductive NVal (α : Type) where
  | leaf (a : α)
  | sub (m : NDict α)

/-- A plain nested dict: insertion-ordered entries with unique keys. -/
inductive NDict (α : Type) where
  | nil
  | cons (k : String) (v : NVal α) (rest : NDict α)
end

/-- Size of a nested dict (a fuel bound for the flattening worklist:
it dominates the number of mappings in the tree). -/
def NDict.sz {α : Type} : NDict α → Nat
  | .nil => 1
  | .cons _ (.leaf _) rest => rest.sz + 2
  | .cons _ (.sub m) rest => m.sz + rest.sz + 2

/-- The flat dict built by `fdict.flatkeys`: path segments to payload,
insertion-ordered with unique keys. -/
def FlatD (α : Type) : Type := List (List String × α)

instance {α : Type} [DecidableEq α] : DecidableEq (FlatD α) :=
  inferInstanceAs (DecidableEq (List (List String × α)))

/-- Dict assignment on the flat dict being built (`flat[k_] = v`). -/
def FlatD.upd {α : Type} : FlatD α → List String → α → FlatD α
  | [], q, v => [(q, v)]
  | (k, w) :: t, q, v => if k = q then (k, v) :: t else (k, w) :: FlatD.upd t q v

/-- One pass of the inner `for k, v in d.items()` loop of
`fdict.flatkeys`: leaves are written to `flat` under `prefix + key`,
sub-dicts are appended (in encounter order) to the worklist. -/
def itemsPass {α : Type} (pre : List String) :
    NDict α → FlatD α → FlatD α × List (List String × NDict α)
  | .nil, flat => (flat, [])
  | .cons k v rest, flat =>
    match v with
    | .leaf a => itemsPass pre rest (flat.upd (pre ++ [k]) a)
    | .sub mm =>
      let (f', ps) := itemsPass pre rest flat
      (f', (pre ++ [k], mm) :: ps)

/-- The worklist loop of `fdict.flatkeys`.  The source pops from the
end of the Python list; the stack is kept reversed here, so popping the
end becomes taking the head and `append` becomes prepending the
reversed block of pushes.  The loop runs until the stack empties; the
structural fuel (one unit per processed dict) is instantiated by the
wrapper with the tree size, which always suffices. -/
def flatkeysGo {α : Type} : Nat → List (List String × NDict α) → FlatD α → FlatD α
  | 0, _, flat => flat
  | _ + 1, [], flat => flat
  | n + 1, (pre, m) :: rest, flat =>
    let r := itemsPass pre m flat
    flatkeysGo n (r.2.reverse ++ rest) r.1

/-- `fdict.flatkeys(d)`: flatten a nested dict into a flat dict with
delimiter-joined keys. -/
def flatkeys {α : Type} (m : NDict α) : FlatD α :=
  flatkeysGo m.sz [([], m)] []

/-! ## Metadata builders -/

variable {α : Type} [DecidableEq α]

/-- The inner loop of `fdict._build_metadata` for one leaf `fullkey`:
walk the parent chain nearest-first, adding `lastparent` to each
parent's child set, creating the marker entry when absent. -/
def buildMetaChain : FMap α → FKey → List (List String) → FMap α
  | d, _, [] => d
  | d, lastparent, p :: ps =>
    match d.get? (.node p) with
    | some (.setV s) =>
        buildMetaChain (d.setk (.node p) (.setV (s.insert lastparent))) (.node p) ps
    | some _ =>
        -- a non-set value at a node key: `set.add` would raise in the
        -- source; node keys always hold sets in well-formed states
        buildMetaChain d (.node p) ps
    | none =>
        buildMetaChain (d.setk (.node p) (.setV [lastparent])) (.node p) ps

/-- `fdict._build_metadata` for a single full key (keys ending with the
delimiter are skipped by the source's guard). -/
def buildMeta1 (d : FMap α) (k : FKey) : FMap α :=
  if k.isNode then d else buildMetaChain d k (parentNodes k.segs)

/-- `fdict._build_metadata(fullkeys)`: fastview metadata for a list of
full keys. -/
def buildMetaList (d : FMap α) (ks : List FKey) : FMap α :=
  ks.foldl buildMeta1 d

/-- `fdict._build_metadata_nodel` for a single full key: create a
`None`-valued marker for each missing ancestor. -/
def buildMetaNodel1 (d : FMap α) (k : FKey) : FMap α :=
  if k.isNode then d
  else (parentNodes k.segs).foldl
    (fun dd p => if dd.hasKey (.node p) then dd else dd.setk (.node p) .noneV) d

/-- `fdict._build_metadata_nodel(fullkeys)`. -/
def buildMetaNodelList (d : FMap α) (ks : List FKey) : FMap α :=
  ks.foldl buildMetaNodel1 d

/-! ## Configuration and view methods -/

/-- The per-instance parameters of an `fdict` handle: its rootpath (a
scope; `[]` for a root store) and the two mode flags, fixed at
construction. -/
structure FConf where
  root : List String
  fastview : Bool
  nodel : Bool
deriving DecidableEq, Repr

/-- The fastview worklist traversal shared by `viewkeys`/`viewitems`/
`viewvalues` (and hence by the fastview branch of `__delitem__`): pop a
child; a node child has its own children pushed on the worklist.  All
visited keys are returned (full paths, nodes included); callers filter
out node keys when `nodes=False` and relativize.  The source pops from
an unordered Python `set`; the model fixes a pop order, and every
result proved below is insensitive to it.  `fuel` bounds the number of
iterations; the source loop runs until the worklist empties, and under
the fastview invariant `d.size + 1` iterations always suffice. -/
def fvCollect (d : FMap α) : Nat → List FKey → List FKey
  | 0, _ => []
  | _ + 1, [] => []
  | fuel + 1, k :: ws =>
    if k.isNode then
      match d.get? k with
      | some (.setV s) => k :: fvCollect d fuel (s ++ ws)
      | _ =>
        -- the source raises `KeyError` on a node child without an
        -- entry; unreachable in well-formed states
        k :: fvCollect d fuel ws
    else k :: fvCollect d fuel ws

/-- `fdict.viewkeys(fullpath, nodes, rootpath)`: the keys visible under
the (possibly overridden) rootpath.  `rpo = none` means no override
(the source treats an empty override as falsy and uses `self.rootpath`). -/
def fViewKeys (c : FConf) (d : FMap α) (fullpath nodes : Bool)
    (rpo : Option (List String)) : List FKey :=
  let rp := rpo.getD c.root
  if rp.isEmpty then
    if c.fastview || c.nodel then
      (d.keysList).filter (fun k => nodes || !k.isNode)
    else d.keysList
  else
    let lp := if fullpath then 0 else rp.length
    if c.fastview then
      match d.get? (.node rp) with
      | some (.setV s) =>
        ((fvCollect d (d.size + 1) s).filter (fun k => nodes || !k.isNode)).map
          (FKey.dropSegs lp)
      | _ => []
    else if c.nodel then
      ((d.keysList).filter (fun k =>
        startsWithDir rp k && (!k.isNode || (nodes && decide (k ≠ .node rp))))).map
        (FKey.dropSegs lp)
    else
      ((d.keysList).filter (fun k => startsWithDir rp k)).map (FKey.dropSegs lp)

/-- `fdict.viewitems(fullpath, nodes, rootpath)`: like `fViewKeys` but
with values; in the fastview branch a yielded node carries the
relativized copy of its child set. -/
def fViewItems (c : FConf) (d : FMap α) (fullpath nodes : Bool)
    (rpo : Option (List String)) : List (FKey × FVal α) :=
  let rp := rpo.getD c.root
  if rp.isEmpty then
    if c.fastview || c.nodel then
      d.filter (fun kv => nodes || !kv.1.isNode)
    else d
  else
    let lp := if fullpath then 0 else rp.length
    if c.fastview then
      match d.get? (.node rp) with
      | some (.setV s) =>
        ((fvCollect d (d.size + 1) s).filter (fun k => nodes || !k.isNode)).filterMap
          (fun k =>
            match d.get? k with
            | some (.setV cs) => some (k.dropSegs lp, .setV (cs.map (FKey.dropSegs lp)))
            | some v => some (k.dropSegs lp, v)
            | none => none)  -- source would raise `KeyError`; unreachable when well-formed
      | _ => []
    else if c.nodel then
      (d.filter (fun kv =>
        startsWithDir rp kv.1 &&
          (!kv.1.isNode || (nodes && decide (kv.1 ≠ .node rp))))).mapEnt
        (fun kv => (kv.1.dropSegs lp, kv.2))
    else
      (d.filter (fun kv => startsWithDir rp kv.1)).mapEnt
        (fun kv => (kv.1.dropSegs lp, kv.2))

/-- `fdict.__len__`. -/
def fLen (c : FConf) (d : FMap α) : Nat :=
  if c.root.isEmpty && (!c.fastview && !c.nodel) then d.size
  else (fViewKeys c d false false none).length

/-- `fdict.__contains__(key)`: direct leaf hit, else the node-marker lookup
(fastview/nodel) or the full prefix scan (default). -/
def fContains (c : FConf) (d : FMap α) (key : List String) : Bool :=
  let full := c.root ++ key
  if d.hasKey (.leaf full) then true
  else if c.fastview || c.nodel then d.hasKey (.node full)
  else (fViewKeys c d true false none).any (fun k => startsWithDir full k)

/-- Result of `fdict.__getitem__`: a stored leaf value, or a fresh view
(sub-`fdict` sharing the backing map) scoped to the full path. -/
inductive GetRes (α : Type) where
  | val (v : FVal α)
  | view (root : List String)
deriving DecidableEq, Repr

/-- `fdict.__getitem__(key)`. -/
def fGet (c : FConf) (d : FMap α) (key : List String) : GetRes α :=
  let full := c.root ++ key
  match d.get? (.leaf full) with
  | some v => .val v
  | none => .view full

/-! ## Deletion -/

theorem parentOf_some {s p : List String} (h : parentOf s = some p) :
    p = s.dropLast ∧ s ≠ [] ∧ p ≠ [] := by
  unfold parentOf at h
  by_cases he : s.dropLast.isEmpty
  · simp [he] at h
  · simp [he] at h
    refine ⟨h.symm, ?_, ?_⟩
    · intro hs; subst hs; simp at he
    · intro hp; rw [h, hp] at he; simp at he

theorem parentOf_length_lt {s p : List String} (h : parentOf s = some p) :
    p.length < s.length := by
  obtain ⟨hp, hs, -⟩ := parentOf_some h
  subst hp
  have := List.length_dropLast s
  have : s.length ≠ 0 := by simpa [List.length_eq_zero] using hs
  omega

/-- The `for k in keystodel: self.d.__delitem__(k)` loop: delete each
key in turn; a missing key raises `KeyError`, leaving the deletions
made so far in place. -/
def eraseAllChecked : FMap α → List FKey → FMap α × Bool
  | dd, [] => (dd, false)
  | dd, k :: t => if dd.hasKey k then eraseAllChecked (dd.erase k) t else (dd, true)

/-- The body of `fdict.__delitem__` on the resolved full key, in
default or fastview mode (the nodel no-op and the `fullpath` resolution
live in `fDel`; every recursive call of the source passes
`fullpath=True`, i.e. an already-resolved key).  The boolean result is
`true` when the Python call raises (`KeyError` from the final check,
from `del` on a missing key, or from `set.remove`); the map component
is the state when the exception escapes. -/
def fDelGoF : Nat → FConf → FMap α → FKey → FMap α × Bool
  | 0, _, d, _ => (d, true)
  | fuel + 1, c, d, full =>
    if d.hasKey full then
      -- direct hit (a leaf, or a node marker when called recursively
      -- with a delimiter-suffixed key)
      if c.fastview then
        match parentOf full.segs with
        | none =>
          -- top-level: no parent to unlink
          (d.erase full, false)
        | some p =>
          match d.get? (.node p) with
          | some (.setV s) =>
            if full ∈ s then
              let d1 := d.setk (.node p) (.setV (s.erase full))
              if (s.erase full).isEmpty then
                -- parent set now empty: recursively delete the parent
                -- node (source line 359, node-form key)
                let r := fDelGoF fuel c d1 (.node p)
                if r.2 then r else (r.1.erase full, false)
              else (d1.erase full, false)
            else (d, true)  -- `set.remove` raises KeyError
          | _ => (d, true)  -- parent marker missing or malformed
      else (d.erase full, false)
    else
      -- no direct hit: subtree deletion
      let dir : FKey := .node full.segs
      if c.fastview then
        let toDel := fViewKeys c d true true (some full.segs)
        if !d.hasKey dir then
          -- `self.d.__delitem__(dirkey)` raises before any mutation
          (d, true)
        else
          let d1 := d.erase dir
          let r2 : FMap α × Bool :=
            match parentOf full.segs with
            | none => (d1, false)
            | some p =>
              match d1.get? (.node p) with
              | some (.setV s) =>
                if dir ∈ s then
                  let d2 := d1.setk (.node p) (.setV (s.erase dir))
                  if (s.erase dir).isEmpty then
                    -- source line 379 strips the trailing delimiter, so
                    -- the recursive call goes through the leaf form
                    fDelGoF fuel c d2 (.leaf p)
                  else (d2, false)
                else (d1, true)
              | _ => (d1, true)
          if r2.2 then (r2.1, true)
          else eraseAllChecked r2.1 toDel
      else
        let toDel := (d.keysList).filter (fun k => startsWithDir full.segs k)
        let r := eraseAllChecked d toDel
        if toDel.isEmpty then (r.1, true)  -- nothing deleted: KeyError
        else r

/-- The body of `fdict.__delitem__` on the resolved full key, in
default or fastview mode (the nodel no-op and the `fullpath` resolution
live in `fDel`; every recursive call of the source passes
`fullpath=True`, i.e. an already-resolved key).  The recursion always
steps to the direct parent, whose path is one segment shorter, so the
structural fuel `depth + 1` strictly dominates every recursive call and
the fuel-exhaustion case of `fDelGoF` is unreachable. -/
def fDelGo (c : FConf) (d : FMap α) (full : FKey) : FMap α × Bool :=
  fDelGoF (full.segs.length + 1) c d full

/-- `fdict.__delitem__(key, fullpath)`: nodel mode is a silent no-op;
otherwise resolve the full key (`fullpath=False` prepends the
rootpath) and run the deletion body.  With `fullpath=True` the source
passes raw strings that may carry a trailing delimiter (node form), so
`key` is an `FKey`. -/
def fDel (c : FConf) (d : FMap α) (key : FKey) (fullpath : Bool) : FMap α × Bool :=
  if c.nodel then
    -- nodel mode: deletion disabled, silent no-op
    (d, false)
  else
    fDelGo c d (if fullpath then key else key.addRoot c.root)

/-! ## Assignment -/

/-- The value argument of `fdict.__setitem__`: either a mapping
(flatten-and-merge path) or anything else (singleton leaf path).  The
source's third case, another `fdict` instance, goes through `update`
and is not needed by the claims. -/
inductive SetVal (α : Type) where
  | leaf (a : α)
  | dict (m : NDict α)

/-- The `for parent in parents` loop of the fastview singleton branch of
`__setitem__`: delete every ancestor that currently holds a leaf.  The
deletion goes through `self.__delitem__(parentleaf)` with a *full* path
but `fullpath=False`, so the rootpath is prepended a second time — a
faithful rendering of the source. -/
def delAncestorSingletons (c : FConf) : FMap α → List (List String) → FMap α × Bool
  | d, [] => (d, false)
  | d, p :: ps =>
    if d.hasKey (.leaf p) then
      let r := fDel c d (.leaf p) false
      if r.2 then r else delAncestorSingletons c r.1 ps
    else delAncestorSingletons c d ps

/-- `fdict.__setitem__(key, value)`. -/
def fSet (c : FConf) (d : FMap α) (key : List String) (v : SetVal α) : FMap α × Bool :=
  let full := c.root ++ key
  match v with
  | .dict m =>
    -- mapping value: delete the previous entry, then flatten and merge
    let r1 : FMap α × Bool :=
      if !c.fastview then
        if d.hasKey (.leaf full) then
          -- the source deletes `key`, not `fullkey` (line 288): through
          -- a view this targets the relative path
          if d.hasKey (.leaf key) then (d.erase (.leaf key), false) else (d, true)
        else (d, false)
      else
        if fContains c d key then fDel c d (.leaf key) false else (d, false)
    if r1.2 then r1
    else
      match m with
      | .nil => (r1.1, false)  -- empty mapping: nothing to merge
      | .cons _ _ _ =>
        -- `flatkeys({self._build_path(prepend=key): value})`: one worklist
        -- round on the singleton outer dict leaves the stack at
        -- `[(prepend-path, value)]`; note `_build_path` places the
        -- prepend *before* the rootpath
        let d2 := flatkeysGo m.sz [(key ++ c.root, m)] []
        let d3 := d2.foldl (fun dd pa => dd.setk (.leaf pa.1) (.leafV pa.2)) r1.1
        if c.fastview then
          (buildMetaList d3 (d2.map (fun pa => FKey.leaf pa.1)), false)
        else if c.nodel then
          (buildMetaNodelList d3 (d2.map (fun pa => FKey.leaf pa.1)), false)
        else (d3, false)
  | .leaf a =>
    -- non-mapping value: singleton leaf
    if c.fastview then
      let r1 : FMap α × Bool :=
        if d.hasKey (.node full) then fDel c d (.leaf key) false else (d, false)
      if r1.2 then r1
      else
        let r2 := delAncestorSingletons c r1.1 (parentNodes full)
        if r2.2 then r2
        else ((buildMeta1 r2.1 (.leaf full)).setk (.leaf full) (.leafV a), false)
    else if c.nodel then
      ((buildMetaNodel1 d (.leaf full)).setk (.leaf full) (.leafV a), false)
    else (d.setk (.leaf full) (.leafV a), false)

/-- `fdict.update(d2)` for a plain-dict argument: flatten, merge each
leaf rebased on the rootpath, then rebuild metadata for the new keys.
(The `ValueError` branch for non-mapping arguments and the
`fdict`-argument branch are not needed by the claims.) -/
def fUpdate (c : FConf) (d : FMap α) (m : NDict α) : FMap α :=
  let d2 := flatkeys m
  let d' := d2.foldl (fun dd pa => dd.setk (.leaf (c.root ++ pa.1)) (.leafV pa.2)) d
  if c.fastview then buildMetaList d' (d2.map (fun pa => FKey.leaf (c.root ++ pa.1)))
  else if c.nodel then buildMetaNodelList d' (d2.map (fun pa => FKey.leaf (c.root ++ pa.1)))
  else d'

/-! ## pop / popitem -/

/-- Python truthiness of a stored value (`if res:`), with the
truthiness of the opaque payload type supplied as `t`. -/
def FVal.truthy (t : α → Bool) : FVal α → Bool
  | .leafV a => t a
  | .setV s => !s.isEmpty
  | .noneV => false

/-- What `fdict.pop` returned: a leaf's stored value, an extracted
sub-`fdict` (its backing items), the caller-supplied default, or a
propagated exception. -/
inductive PopRes (α : Type) where
  | val (v : FVal α)
  | sub (items : List (FKey × FVal α))
  | dflt
  | err
deriving DecidableEq, Repr

/-- `fdict.pop(k, d=default, fullpath)`.  `t` is payload truthiness
(the source tests `if res:`, so a falsy stored value is reported as the
default even though the leaf was removed). -/
def fPop (t : α → Bool) (c : FConf) (d : FMap α) (k : List String) (fullpath : Bool) :
    FMap α × PopRes α :=
  let full := c.root ++ k
  match d.get? (.leaf full) with
  | some v =>
    -- leaf hit
    if !c.fastview then
      (d.erase (.leaf full), if v.truthy t then .val v else .dflt)
    else
      let r := fDel c d (.leaf full) true
      (r.1, if r.2 then .err else if v.truthy t then .val v else .dflt)
  | none =>
    -- node case
    if c.fastview && !d.hasKey (.node full) then (d, .dflt)  -- res = None
    else
      let items := fViewItems { c with root := full } d fullpath false none
      if items.isEmpty then (d, .dflt)
      else
        let r := fDel c d (.leaf full) true
        (r.1, if r.2 then .err else .sub items)

/-- `fdict.popitem()`: without fastview, pop the most recently inserted
raw backing entry (CPython LIFO `dict.popitem`); with fastview, take
the first viewable leaf item and delete it.  `none` models the
`KeyError` on an empty container. -/
def fPopitem (c : FConf) (d : FMap α) : FMap α × Option (FKey × FVal α) :=
  if !c.fastview then
    match List.getLast? d with
    | none => (d, none)
    | some kv => (List.dropLast d, some kv)
  else
    match (fViewItems c d false false none).head? with
    | none => (d, none)
    | some kv =>
      let r := fDel c d kv.1 false
      (r.1, some kv)

/-! ## Equality and extraction -/

/-- Python `==` on stored values: payloads by equality, marker sets
extensionally, `None` only to itself. -/
def fvalPyEq : FVal α → FVal α → Bool
  | .leafV a, .leafV b => decide (a = b)
  | .setV s, .setV u => s.all (fun x => decide (x ∈ u)) && u.all (fun x => decide (x ∈ s))
  | .noneV, .noneV => true
  | _, _ => false

/-- Python `==` between two raw dicts (`self.d == d2.d`): same keys,
values `==`. -/
def pyDictEq (d1 d2 : FMap α) : Bool :=
  decide (d1.size = d2.size) &&
    List.all d1 (fun kv =>
      match d2.get? kv.1 with
      | some w => fvalPyEq kv.2 w
      | none => false)

/-- `fdict.__eq__(d2)` for an `fdict` argument (the plain-dict branch is
not needed by the claims): compare the internal dicts directly when
both are unscoped stores of identical modes, else (after a size
shortcut that is only consulted when the modes coincide) check that
every leaf item of `d2` is present in `self` with an equal value. -/
def fEq (c1 : FConf) (d1 : FMap α) (c2 : FConf) (d2 : FMap α) : Bool :=
  if c1.root.isEmpty && decide (c1.fastview = c2.fastview) &&
      decide (c1.nodel = c2.nodel) then
    pyDictEq d1 d2
  else
    if decide (fLen c1 d1 ≠ fLen c2 d2) && decide (c1.fastview = c2.fastview) &&
        decide (c1.nodel = c2.nodel) then
      false
    else
      (fViewItems c2 d2 false false none).all (fun kv =>
        match d1.get? (kv.1.addRoot c1.root) with
        | some w => fvalPyEq w kv.2
        | none => false)

/-! ## Nested reconstruction (`to_dict_nested`) -/

/-- Lookup in a plain nested dict. -/
def nestedGet? {α : Type} : NDict α → String → Option (NVal α)
  | .nil, _ => none
  | .cons k v r, q => if k = q then some v else nestedGet? r q

/-- Assignment in a plain nested dict (replace in place or append). -/
def nestedSet {α : Type} : NDict α → String → NVal α → NDict α
  | .nil, q, v => .cons q v .nil
  | .cons k w r, q, v => if k = q then .cons k v r else .cons k w (nestedSet r q v)

/-- The per-leaf body of `to_dict_nested`: walk the parent chain
root-first, creating `{}` nodes as needed, then set the leaf under its
last segment.  Descending into an existing non-dict entry would raise
`TypeError` in the source, modelled as `none`. -/
def insGo {α : Type} : NDict α → List String → String → α → Option (NDict α)
  | m, [], lastk, a => some (nestedSet m lastk (.leaf a))
  | m, par :: rest, lastk, a =>
    match nestedGet? m par with
    | none =>
      match insGo .nil rest lastk a with
      | some sub2 => some (nestedSet m par (.sub sub2))
      | none => none
    | some (.sub s) =>
      match insGo s rest lastk a with
      | some s2 => some (nestedSet m par (.sub s2))
      | none => none
    | some (.leaf _) => none

/-- `fdict.to_dict_nested()`: rebuild a plain nested dict from the
visible leaf items.  `none` models a `TypeError` (or a marker/ill-formed
entry, which cannot occur for the pure leaf stores the claims use). -/
def toDictNested (c : FConf) (d : FMap α) : Option (NDict α) :=
  (fViewItems c d false false none).foldl
    (fun acc kv =>
      match acc with
      | none => none
      | some m =>
        match kv.2, kv.1.segs.getLast? with
        | .leafV a, some lastk => insGo m (parentsNested kv.1.segs) lastk a
        | _, _ => none)
    (some NDict.nil)

/-! ## Nested-dict notions for the round-trip claim -/

/-- The keys of a plain nested dict, in order. -/
def NDict.keys {α : Type} : NDict α → List String
  | .nil => []
  | .cons k _ r => k :: r.keys

/-- Recursively well-formed nested dict: distinct keys at every level
(a Python dict literal cannot repeat keys). -/
def NDict.wfB {α : Type} : NDict α → Bool
  | .nil => true
  | .cons k (.leaf _) r => !(decide (k ∈ r.keys)) && r.wfB
  | .cons k (.sub m) r => !(decide (k ∈ r.keys)) && m.wfB && r.wfB

/-- Lookup along a path of keys: `m[p1][p2]...[pn]`, `none` when a
segment is missing or a non-final segment holds a leaf. -/
def pathGet? {α : Type} : NDict α → List String → Option (NVal α)
  | _, [] => none
  | m, k :: rest =>
    match nestedGet? m k, rest with
    | some v, [] => some v
    | some (.sub s), _ :: _ => pathGet? s rest
    | _, _ => none

/-- All leaf items of a nested dict, with their full paths prefixed by
`pre` (a specification-side view of the flattening). -/
def leafItems {α : Type} : List String → NDict α → List (List String × α)
  | _, .nil => []
  | pre, .cons k (.leaf a) r => (pre ++ [k], a) :: leafItems pre r
  | pre, .cons k (.sub m) r => leafItems (pre ++ [k]) m ++ leafItems pre r

/-- Drop (recursively) empty sub-mappings: the "modulo empty
sub-mappings" side condition of the round-trip property. -/
def dropEmpty {α : Type} : NDict α → NDict α
  | .nil => .nil
  | .cons k (.leaf a) r => .cons k (.leaf a) (dropEmpty r)
  | .cons k (.sub m) r =>
    match dropEmpty m with
    | .nil => dropEmpty r
    | .cons k' v' r' => .cons k (.sub (.cons k' v' r')) (dropEmpty r)

mutual
/-- Python `==` on nested values: leaves by payload equality, sub-dicts
by `ndSubB` in both directions (same key set, equal values). -/
def nvEquivB {α : Type} [DecidableEq α] : NVal α → NVal α → Bool
  | .leaf a, .leaf b => decide (a = b)
  | .sub m, .sub m' =>
    ndSubB m m' && (NDict.keys m').all (fun k => (nestedGet? m k).isSome)
  | _, _ => false

/-- Every entry of the first dict is present in the second with an
`==`-equal value. -/
def ndSubB {α : Type} [DecidableEq α] : NDict α → NDict α → Bool
  | .nil, _ => true
  | .cons k v r, m' =>
    (match nestedGet? m' k with
     | some w => nvEquivB v w
     | none => false) && ndSubB r m'
end

/-- Python `==` on nested dicts (order-insensitive). -/
def ndEquivB {α : Type} [DecidableEq α] (m m' : NDict α) : Bool :=
  ndSubB m m' && (NDict.keys m').all (fun k => (nestedGet? m k).isSome)

/-- `fdict.__init__(d)` on a plain nested dict: flatten the keys, then
build metadata for the whole dict in fastview or nodel mode. -/
def fInit (c : FConf) (m : NDict α) : FMap α :=
  let f : FMap α := (flatkeys m).map (fun pa => (FKey.leaf pa.1, FVal.leafV pa.2))
  if c.fastview then buildMetaList f (List.map Prod.fst f)
  else if c.nodel then buildMetaNodelList f (List.map Prod.fst f)
  else f

/-- A root-scope default-mode handle. -/
def confDef : FConf := ⟨[], false, false⟩

/-- A root-scope fastview-mode handle. -/
def confFv : FConf := ⟨[], true, false⟩

/-- A root-scope nodel-mode handle. -/
def confNd : FConf := ⟨[], false, true⟩

/-- `k` lies strictly below the path `p` (is a stored descendant):
`p` is a strict prefix of `k`'s segments.  The node marker at `p`
itself is *not* strictly below `p`. -/
def strictBelow (p : List String) (k : FKey) : Bool :=
  segPrefix p k.segs && decide (k.segs ≠ p)

/-! ## Basic dict lemmas -/

namespace FMap

instance : Membership (FKey × FVal α) (FMap α) :=
  inferInstanceAs (Membership (FKey × FVal α) (List (FKey × FVal α)))

instance : DecidableEq (FMap α) :=
  inferInstanceAs (DecidableEq (List (FKey × FVal α)))

@[simp] theorem get?_nil (k : FKey) : get? ([] : FMap α) k = none := rfl

@[simp] theorem get?_cons (k' : FKey) (v' : FVal α) (t : FMap α) (q : FKey) :
    get? ((k', v') :: t) q = if k' = q then some v' else get? t q := rfl

@[simp] theorem get?_setk_self (d : FMap α) (k : FKey) (v : FVal α) :
    (d.setk k v).get? k = some v := by
  induction d with
  | nil => simp [setk]
  | cons kv t ih =>
    obtain ⟨k', v'⟩ := kv
    by_cases h : k' = k
    · subst h; simp [setk]
    · simp [setk, h, ih]

theorem get?_setk_ne (d : FMap α) {k q : FKey} (v : FVal α) (h : q ≠ k) :
    (d.setk k v).get? q = d.get? q := by
  have hk : k ≠ q := fun hh => h hh.symm
  induction d with
  | nil => simp [setk, hk]
  | cons kv t ih =>
    obtain ⟨k', v'⟩ := kv
    by_cases hkk : k' = k
    · subst hkk; simp [setk, hk]
    · simp only [setk, if_neg hkk, get?_cons]
      by_cases hq : k' = q <;> simp [hq, ih]

theorem get?_erase_ne (d : FMap α) {k q : FKey} (h : q ≠ k) :
    (d.erase k).get? q = d.get? q := by
  have hk : k ≠ q := fun hh => h hh.symm
  induction d with
  | nil => simp [erase]
  | cons kv t ih =>
    obtain ⟨k', v'⟩ := kv
    by_cases hkk : k' = k
    · subst hkk; simp [erase, hk]
    · simp only [erase, if_neg hkk, get?_cons]
      by_cases hq : k' = q <;> simp [hq, ih]

theorem hasKey_setk_ne (d : FMap α) {k q : FKey} (v : FVal α) (h : q ≠ k) :
    (d.setk k v).hasKey q = d.hasKey q := by
  simp [hasKey, get?_setk_ne d v h]

theorem hasKey_erase_ne (d : FMap α) {k q : FKey} (h : q ≠ k) :
    (d.erase k).hasKey q = d.hasKey q := by
  simp [hasKey, get?_erase_ne d h]

theorem mem_of_get? {d : FMap α} {k : FKey} {v : FVal α} (h : d.get? k = some v) :
    (k, v) ∈ d := by
  induction d with
  | nil => simp [get?] at h
  | cons kv t ih =>
    obtain ⟨k', v'⟩ := kv
    by_cases hk : k' = k
    · subst hk
      simp [get?] at h
      subst h
      exact List.mem_cons_self _ _
    · simp only [get?, if_neg hk] at h
      exact List.mem_cons_of_mem _ (ih h)

theorem get?_eq_some_of_mem {d : FMap α} {k : FKey} {v : FVal α}
    (hnd : d.keysList.Nodup) (h : (k, v) ∈ d) :
    d.get? k = some v := by
  induction d with
  | nil => exact absurd h (List.not_mem_nil _)
  | cons kv t ih =>
    obtain ⟨k', v'⟩ := kv
    simp only [keysList, List.map_cons, List.nodup_cons] at hnd
    rcases List.mem_cons.mp h with h1 | h2
    · rw [← h1]; simp
    · have hk : k' ≠ k := by
        intro he; subst he
        exact hnd.1 (List.mem_map.mpr ⟨(k', v), h2, rfl⟩)
      simp only [get?_cons, if_neg hk]
      exact ih hnd.2 h2

theorem get?_isSome_of_mem_keys {d : FMap α} {k : FKey}
    (h : k ∈ d.keysList) : (d.get? k).isSome := by
  induction d with
  | nil => simp [keysList] at h
  | cons kv t ih =>
    obtain ⟨k', v'⟩ := kv
    by_cases hk : k' = k
    · subst hk; simp [get?]
    · simp only [keysList, List.map_cons, List.mem_cons] at h
      rcases h with h | h
      · exact absurd h.symm hk
      · simp only [get?, if_neg hk]
        exact ih h

theorem mem_keys_of_get? {d : FMap α} {k : FKey} (h : (d.get? k).isSome) :
    k ∈ d.keysList := by
  induction d with
  | nil => simp [get?] at h
  | cons kv t ih =>
    obtain ⟨k', v'⟩ := kv
    by_cases hk : k' = k
    · subst hk; simp [keysList]
    · simp only [get?, if_neg hk] at h
      simp only [keysList, List.map_cons, List.mem_cons]
      exact Or.inr (ih h)

end FMap

theorem fvalPyEq_refl (v : FVal α) : fvalPyEq v v = true := by
  cases v <;> simp [fvalPyEq]

@[simp] theorem addRoot_nil (k : FKey) : k.addRoot [] = k := by
  cases k <;> simp [FKey.addRoot]

theorem hasKey_setk_mono {d : FMap α} {q : FKey} (k : FKey) (v : FVal α)
    (h : d.hasKey q = true) : (d.setk k v).hasKey q = true := by
  by_cases hk : q = k
  · subst hk; simp [FMap.hasKey]
  · rwa [FMap.hasKey_setk_ne d v hk]

/-- Markers survive any sequence of leaf-key insertions. -/
theorem hasKey_node_foldl_setk_leaf {β : Type} (f : β → List String) (g : β → FVal α)
    (L : List β) (d : FMap α) (p : List String) (h : d.hasKey (.node p) = true) :
    (L.foldl (fun dd x => dd.setk (.leaf (f x)) (g x)) d).hasKey (.node p) = true := by
  induction L generalizing d with
  | nil => simpa using h
  | cons x t ih =>
    simp only [List.foldl_cons]
    exact ih _ (by rw [FMap.hasKey_setk_ne d (g x) (by simp)]; exact h)

theorem hasKey_buildMetaNodel1 {d : FMap α} {q : FKey} (k : FKey)
    (h : d.hasKey q = true) : (buildMetaNodel1 d k).hasKey q = true := by
  unfold buildMetaNodel1
  by_cases hn : k.isNode = true
  · simpa [hn] using h
  · rw [if_neg hn]
    generalize parentNodes k.segs = ps
    induction ps generalizing d with
    | nil => simpa using h
    | cons p t ih =>
      simp only [List.foldl_cons]
      by_cases hh : d.hasKey (.node p) = true
      · rw [if_pos hh]
        exact ih h
      · rw [if_neg hh]
        exact ih (hasKey_setk_mono _ _ h)

theorem hasKey_buildMetaNodelList {d : FMap α} {q : FKey} (ks : List FKey)
    (h : d.hasKey q = true) : (buildMetaNodelList d ks).hasKey q = true := by
  induction ks generalizing d with
  | nil => simpa [buildMetaNodelList] using h
  | cons k t ih =>
    simp only [buildMetaNodelList, List.foldl_cons]
    exact ih (hasKey_buildMetaNodel1 k h)

/-! ## Claim C6 -/

/-- C6: counterexample computation.  Through a sub-path view (rootpath
`a`, default mode) whose backing map holds the leaf `a/b`, assigning a
non-empty mapping at key `b` raises `KeyError` and leaves the map
unchanged — the source checks `fullkey in self.d` but then deletes the
*relative* key `b` (line 288), so the leaf at the exact target full
path is not removed and nothing is merged. -/
theorem setitemDictViewRaises :
    fSet (⟨["a"], false, false⟩ : FConf) [(FKey.leaf ["a","b"], FVal.leafV (1 : Nat))]
      ["b"] (.dict (.cons "f" (.leaf 2) .nil))
    = ([(FKey.leaf ["a","b"], FVal.leafV 1)], true) := by rfl

/-! ## Claim C7 -/

/-- C7: counterexample.  Setting an empty mapping at a path holding a
leaf is *not* a no-op: the existing leaf is deleted first (the
repository's own test asserts this emptying behaviour). -/
theorem setEmptyDictDeletesLeaf :
    fSet confDef [(FKey.leaf ["d"], FVal.leafV (7 : Nat))] ["d"] (.dict .nil)
      = ([], false) ∧
    (fSet confDef [(FKey.leaf ["d"], FVal.leafV (7 : Nat))] ["d"] (.dict .nil)).1
      ≠ [(FKey.leaf ["d"], FVal.leafV 7)] := by
  refine ⟨rfl, ?_⟩
  intro h
  exact List.cons_ne_nil _ _ h.symm

/-- C7 (amended): at root scope in default or nodel mode, setting an
empty mapping creates no entries and leaves the backing map unchanged,
except that an existing leaf at the exact target path is removed
first. -/
theorem setEmptyDictAmended (ndl : Bool) (d : FMap α) (k : List String) :
    fSet ⟨[], false, ndl⟩ d k (.dict .nil)
      = (if d.hasKey (.leaf k) then d.erase (.leaf k) else d, false) := by
  unfold fSet
  simp only [List.nil_append, Bool.not_false]
  by_cases h : d.hasKey (.leaf k) = true <;> simp [h]

/-! ## Claim C8 -/

/-- C8: counterexample.  In a nodel-mode store, `set 'a/b' = 1` creates
the marker `a/`; popping the leaf keeps it; but `popitem` then pops the
raw backing entry — the marker itself — removing it from the map. -/
theorem nodelPopitemRemovesMarker :
    (fSet confNd ([] : FMap Nat) ["a","b"] (.leaf 1)).1.hasKey (.node ["a"]) = true ∧
    ((fPop (fun n => decide (n ≠ 0)) confNd
        (fSet confNd ([] : FMap Nat) ["a","b"] (.leaf 1)).1 ["a","b"] true).1).hasKey
      (.node ["a"]) = true ∧
    fPopitem confNd
        ((fPop (fun n => decide (n ≠ 0)) confNd
          (fSet confNd ([] : FMap Nat) ["a","b"] (.leaf 1)).1 ["a","b"] true).1)
      = ([], some (.node ["a"], .noneV)) := by
  refine ⟨by rfl, by rfl, by rfl⟩

/-- C8 (amended): in a nodel-mode store the node-marker entries, once
created, are preserved by `set`, `update`, `delete` and `pop`;
`popitem`, however, pops a raw backing-map entry and can remove a
marker (see the counterexample). -/
theorem nodelMarkersPreserved (r : List String) (d : FMap α) (p : List String)
    (k : List String) (v : SetVal α) (m : NDict α) (kk : FKey) (fp : Bool)
    (t : α → Bool) (h : d.hasKey (.node p) = true) :
    (fSet ⟨r, false, true⟩ d k v).1.hasKey (.node p) = true ∧
    (fUpdate ⟨r, false, true⟩ d m).hasKey (.node p) = true ∧
    (fDel ⟨r, false, true⟩ d kk fp).1.hasKey (.node p) = true ∧
    (fPop t ⟨r, false, true⟩ d k fp).1.hasKey (.node p) = true := by
  refine ⟨?_, ?_, ?_, ?_⟩
  · -- set
    cases v with
    | dict m' =>
      unfold fSet
      simp only [Bool.not_false]
      by_cases h1 : d.hasKey (.leaf (r ++ k)) = true
      · by_cases h2 : d.hasKey (.leaf k) = true
        · simp only [h1, if_pos, h2, if_true]
          have hpres : (d.erase (.leaf k)).hasKey (.node p) = true := by
            rw [FMap.hasKey_erase_ne d (by simp)]; exact h
          cases m' with
          | nil => simpa using hpres
          | cons k' v' r' =>
            simp only
            exact hasKey_buildMetaNodelList _
              (hasKey_node_foldl_setk_leaf _ _ _ _ _ hpres)
        · simp only [h1, if_pos, h2, Bool.false_eq_true, not_false_eq_true, if_false,
            if_true]
          exact h
      · simp only [h1, Bool.false_eq_true, not_false_eq_true, if_false, if_neg]
        cases m' with
        | nil => simpa using h
        | cons k' v' r' =>
          simp only
          exact hasKey_buildMetaNodelList _
            (hasKey_node_foldl_setk_leaf _ _ _ _ _ h)
    | leaf a =>
      unfold fSet
      simp only
      exact hasKey_setk_mono _ _ (hasKey_buildMetaNodel1 _ h)
  · -- update
    unfold fUpdate
    simp only
    exact hasKey_buildMetaNodelList _ (hasKey_node_foldl_setk_leaf _ _ _ _ _ h)
  · -- delete: nodel is a silent no-op
    simpa [fDel] using h
  · -- pop
    unfold fPop
    simp only
    cases hg : d.get? (.leaf (r ++ k)) with
    | some v' =>
      simp only [Bool.not_false, if_true]
      show (d.erase (FKey.leaf (r ++ k))).hasKey (FKey.node p) = true
      rw [FMap.hasKey_erase_ne d (by simp)]
      exact h
    | none =>
      simp only [Bool.false_and]
      by_cases hi : (fViewItems { root := r ++ k, fastview := false, nodel := true }
          d fp false none).isEmpty
      · simpa [hi] using h
      · simpa [hi, fDel] using h

/-- C8: witness for the amended theorem at a concrete input. -/
theorem nodelMarkersPreservedWitness :
    (fSet (⟨[], false, true⟩ : FConf)
        [(FKey.node ["a"], FVal.noneV), (FKey.leaf ["a","b"], FVal.leafV (1 : Nat))]
        ["c"] (.leaf 2)).1.hasKey (.node ["a"]) = true :=
  (nodelMarkersPreserved [] _ ["a"] ["c"] (.leaf 2) .nil (.leaf ["x"]) false
    (fun _ => true) (by rfl)).1

/-! ## Claim C9 -/

/-- C9: counterexample.  `pop` with no explicit default on a missing
key returns the implicit default `None` instead of signalling
NotFound: no error is raised. -/
theorem popMissingNoError :
    fPop (fun n => decide (n ≠ 0)) confDef ([] : FMap Nat) ["e"] true
      = ([], .dflt) := by rfl

/-- C9 (amended): `pop` on a key with no stored leaf and no stored
descendant never raises: it returns the (implicit `None`) default, in
default, nodel and (given no marker at the path) fastview modes, and
leaves the map unchanged. -/
theorem popMissingReturnsDefault (d : FMap α) (t : α → Bool) (k : List String)
    (hk : k ≠ [])
    (hleaf : d.get? (.leaf k) = none)
    (hdesc : ∀ q ∈ d.keysList, startsWithDir k q = false) :
    fPop t confDef d k true = (d, .dflt) ∧
    fPop t confNd d k true = (d, .dflt) ∧
    (d.hasKey (.node k) = false → fPop t confFv d k true = (d, .dflt)) := by
  have hfilter : ∀ (pf : FKey × FVal α → Bool),
      (∀ kv : FKey × FVal α, kv ∈ d → pf kv = false) → d.filter pf = [] := by
    intro pf hp
    exact List.filter_eq_nil.mpr (fun kv hkv => by simp [hp kv hkv])
  refine ⟨?_, ?_, ?_⟩
  · unfold fPop
    simp only [List.nil_append, hleaf, confDef, Bool.false_and, Bool.not_false]
    have : fViewItems (⟨k, false, false⟩ : FConf) d true false none = [] := by
      unfold fViewItems
      simp only [Option.getD, List.isEmpty_eq_true, hk, if_neg]
      rw [if_neg (by simpa using hk)]
      simp only [if_neg, Bool.false_eq_true, if_false]
      rw [hfilter _ (fun kv hkv => hdesc kv.1 (List.mem_map.mpr ⟨kv, hkv, rfl⟩))]
      rfl
    simp [this]
  · unfold fPop
    simp only [List.nil_append, hleaf, confNd, Bool.false_and, Bool.not_false]
    have : fViewItems (⟨k, false, true⟩ : FConf) d true false none = [] := by
      unfold fViewItems
      rw [if_neg (by simpa using hk)]
      simp only [if_neg, Bool.false_eq_true, if_false, if_true]
      rw [hfilter _ (fun kv hkv => by simp [hdesc kv.1 (List.mem_map.mpr ⟨kv, hkv, rfl⟩)])]
      rfl
    simp [this]
  · intro hnode
    unfold fPop
    simp [List.nil_append, hleaf, confFv, hnode]

/-- C9: witness for the amended theorem at a concrete input. -/
theorem popMissingReturnsDefaultWitness :
    fPop (fun n => decide (n ≠ 0)) confDef [(FKey.leaf ["x"], FVal.leafV (5 : Nat))]
        ["e"] true
      = ([(FKey.leaf ["x"], FVal.leafV 5)], .dflt) :=
  (popMissingReturnsDefault [(FKey.leaf ["x"], FVal.leafV (5 : Nat))]
    (fun n => decide (n ≠ 0)) ["e"] (by decide) (by rfl) (by decide)).1

/-! ## Claim C10 -/

/-- C10: counterexample.  `pop` on a leaf holding a *falsy* value (here
`0`) removes the leaf but returns the default instead of the value
(`if res:` in the source). -/
theorem nodelPopFalsyLeaf :
    fPop (fun n => decide (n ≠ 0)) confNd [(FKey.leaf ["a"], FVal.leafV (0 : Nat))]
        ["a"] true
      = ([], .dflt) := by rfl

/-- C10 (amended): in a nodel-mode store, `pop` on a path holding a
leaf with a truthy value returns that value and removes the leaf entry
from the backing map, while every node-marker entry remains. -/
theorem nodelPopLeaf (d : FMap α) (t : α → Bool) (k : List String) (a : α)
    (hget : d.get? (.leaf k) = some (.leafV a)) (ht : t a = true) :
    fPop t confNd d k true = (d.erase (.leaf k), .val (.leafV a)) ∧
    ∀ p, d.hasKey (.node p) = true → (d.erase (.leaf k)).hasKey (.node p) = true := by
  constructor
  · unfold fPop
    simp [List.nil_append, hget, confNd, FVal.truthy, ht]
  · intro p h
    rw [FMap.hasKey_erase_ne d (by simp)]
    exact h

/-- C10: witness for the amended theorem at a concrete input. -/
theorem nodelPopLeafWitness :
    fPop (fun n => decide (n ≠ 0)) confNd
        [(FKey.node ["a"], FVal.noneV), (FKey.leaf ["a","b"], FVal.leafV (3 : Nat))]
        ["a","b"] true
      = ([(FKey.node ["a"], FVal.noneV)], .val (.leafV 3)) :=
  (nodelPopLeaf [(FKey.node ["a"], FVal.noneV), (FKey.leaf ["a","b"], FVal.leafV (3 : Nat))]
    (fun n => decide (n ≠ 0)) ["a","b"] 3 (by rfl) (by decide)).1

/-! ## Claim C4 -/

theorem eq_false_of_isNode_eq_false {k : FKey} (h : k.isNode = false) :
    ∃ p, k = FKey.leaf p := by
  cases k with
  | leaf p => exact ⟨p, rfl⟩
  | node p => simp [FKey.isNode] at h

/-- C4: counterexample.  A fastview store holding leaves `a, b` and a
default store holding only leaf `a` compare equal (the size shortcut in
`__eq__` is consulted only when the mode flags coincide, and only the
right-hand store's items are checked), even though their leaf entries
do not coincide.  So equality does *not* hold exactly when the leaf
entries coincide. -/
theorem eqModesSubsetCompareTrue :
    fEq confFv
        [(FKey.leaf ["a"], FVal.leafV (1 : Nat)), (FKey.leaf ["b"], FVal.leafV 2)]
        confDef [(FKey.leaf ["a"], FVal.leafV 1)] = true ∧
    FMap.get? [(FKey.leaf ["a"], FVal.leafV (1 : Nat)), (FKey.leaf ["b"], FVal.leafV 2)]
        (FKey.leaf ["b"]) = some (FVal.leafV 2) ∧
    FMap.get? [(FKey.leaf ["a"], FVal.leafV (1 : Nat))] (FKey.leaf ["b"]) = none := by
  refine ⟨by rfl, by rfl, by rfl⟩

/-- C4 (amended): a fastview-mode store and a default-mode store holding
the same leaf entries compare equal in both directions, and node-marker
entries never influence the comparison; but the converse fails — see
the counterexample, where a mode-differing pair with strictly fewer
leaves on the right still compares equal. -/
theorem eqModeInvariance (d1 d2 : FMap α)
    (hnd1 : d1.keysList.Nodup) (hnd2 : d2.keysList.Nodup)
    (hsame : ∀ p, d1.get? (.leaf p) = d2.get? (.leaf p))
    (hleaf2 : ∀ kv ∈ d2, kv.1.isNode = false) :
    fEq confFv d1 confDef d2 = true ∧ fEq confDef d2 confFv d1 = true := by
  constructor
  · unfold fEq
    simp only [confFv, confDef, List.isEmpty_nil, Bool.true_and, Bool.and_true,
      decide_eq_true_eq]
    rw [if_neg (by simp), if_neg (by simp)]
    rw [List.all_eq_true]
    intro kv hkv
    have hkv' : kv ∈ d2 := by
      have heq : fViewItems { root := [], fastview := false, nodel := false } d2 false
          false none = d2 := by
        unfold fViewItems
        rfl
      rw [heq] at hkv
      exact hkv
    obtain ⟨kk, vv⟩ := kv
    obtain ⟨p, hp⟩ := eq_false_of_isNode_eq_false (hleaf2 (kk, vv) hkv')
    subst hp
    rw [addRoot_nil, hsame p, FMap.get?_eq_some_of_mem hnd2 hkv']
    simp [fvalPyEq_refl]
  · unfold fEq
    simp only [confFv, confDef, List.isEmpty_nil, Bool.true_and, Bool.and_true,
      decide_eq_true_eq]
    rw [if_neg (by simp), if_neg (by simp)]
    rw [List.all_eq_true]
    intro kv hkv
    have hview : fViewItems { root := [], fastview := true, nodel := false } d1 false
        false none = d1.filter (fun kv => !kv.1.isNode) := by
      unfold fViewItems
      rfl
    rw [hview] at hkv
    have hmem := List.mem_filter.mp hkv
    obtain ⟨kk, vv⟩ := kv
    obtain ⟨p, hp⟩ := eq_false_of_isNode_eq_false (by simpa using hmem.2)
    subst hp
    rw [addRoot_nil, ← hsame p, FMap.get?_eq_some_of_mem hnd1 hmem.1]
    simp [fvalPyEq_refl]

/-- C4: witness for the amended theorem at a concrete input. -/
theorem eqModeInvarianceWitness :
    fEq confFv [(FKey.leaf ["a"], FVal.leafV (1 : Nat))]
      confDef [(FKey.leaf ["a"], FVal.leafV 1)] = true :=
  (eqModeInvariance [(FKey.leaf ["a"], FVal.leafV (1 : Nat))]
    [(FKey.leaf ["a"], FVal.leafV 1)] (by decide) (by decide)
    (fun p => rfl) (by decide)).1

/-! ## Claim C5 -/

/-- C5: counterexample.  From an empty fastview store, `set 'a' = 1`,
then `set 'a/b' = {'c': 2}` (a mapping assignment, which leaves the
documented singleton/node conflict in place), then `delete 'a/b'`
reach the state `{'a/': set()}`: the deletion cascade at source line
379 strips the trailing delimiter and so deletes the *leaf* `a`
instead of the emptied marker `a/`.  In the resulting store the path
`a` holds no leaf and has no stored descendant, yet `delete 'a'`
returns without raising NotFound (it silently removes the orphaned
marker). -/
theorem fvDeleteMissingNoRaise :
    (fDel confFv ((fSet confFv ((fSet confFv ([] : FMap Nat) ["a"]
          (.leaf 1)).1) ["a","b"] (.dict (.cons "c" (.leaf 2) .nil))).1)
        (.leaf ["a","b"]) false).1
      = [(FKey.node ["a"], FVal.setV [])] ∧
    FMap.hasKey ([(FKey.node ["a"], FVal.setV [])] : FMap Nat) (FKey.leaf ["a"])
      = false ∧
    (FMap.keysList ([(FKey.node ["a"], FVal.setV [])] : FMap Nat)).all
      (fun q => !strictBelow ["a"] q) = true ∧
    fDel confFv ([(FKey.node ["a"], FVal.setV [])] : FMap Nat)
        (.leaf ["a"]) false = ([], false) := by
  refine ⟨by rfl, by rfl, by rfl, by rfl⟩

/-- C5 (amended): `delete` on a path with no matching leaf and no
stored descendant raises NotFound in default mode, and in fastview
mode provided additionally no (orphaned) node-marker entry exists at
the path — a reachable buggy state can leave an empty marker there, in
which case the delete succeeds silently; the failing delete leaves the
map unchanged.  In nodel mode delete is unconditionally a silent no-op
that leaves the backing map exactly unchanged. -/
theorem deleteMissingAmended (d : FMap α) (k : List String) (key : FKey) (fp : Bool)
    (hk : k ≠ [])
    (hleaf : d.hasKey (.leaf k) = false)
    (hdesc : ∀ q ∈ d.keysList, startsWithDir k q = false) :
    fDel confDef d (.leaf k) false = (d, true) ∧
    (d.hasKey (.node k) = false → fDel confFv d (.leaf k) false = (d, true)) ∧
    fDel confNd d key fp = (d, false) := by
  have hfilter : (d.keysList).filter (fun q => startsWithDir k q) = [] :=
    List.filter_eq_nil.mpr (fun q hq => by simp [hdesc q hq])
  refine ⟨?_, ?_, ?_⟩
  · show fDelGo confDef d ((FKey.leaf k).addRoot []) = (d, true)
    rw [addRoot_nil]
    show fDelGoF (k.length + 1) confDef d (.leaf k) = (d, true)
    unfold fDelGoF
    simp only [FKey.segs, hleaf, Bool.false_eq_true, if_false, confDef]
    rw [hfilter]
    simp [eraseAllChecked]
  · intro hnode
    show fDelGo confFv d ((FKey.leaf k).addRoot []) = (d, true)
    rw [addRoot_nil]
    show fDelGoF (k.length + 1) confFv d (.leaf k) = (d, true)
    unfold fDelGoF
    simp only [FKey.segs, hleaf, Bool.false_eq_true, if_false, confFv, if_true]
    rw [hnode]
    simp
  · rfl

/-- C5: witness for the amended theorem at a concrete input. -/
theorem deleteMissingAmendedWitness :
    fDel confDef [(FKey.leaf ["x"], FVal.leafV (5 : Nat))] (.leaf ["e"]) false
      = ([(FKey.leaf ["x"], FVal.leafV 5)], true) :=
  (deleteMissingAmended [(FKey.leaf ["x"], FVal.leafV (5 : Nat))] ["e"]
    (.leaf ["e"]) false (by decide) (by rfl) (by decide)).1

/-! ## Claim C3: supporting lemmas -/

/-- Structural induction principle for `NDict` giving the inductive
hypothesis both for the tail and for a direct sub-dict. -/
@[induction_eliminator]
theorem NDict.myInduct {α : Type} {motive : NDict α → Prop}
    (nil : motive .nil)
    (consLeaf : ∀ (k : String) (a : α) (r : NDict α), motive r →
      motive (.cons k (.leaf a) r))
    (consSub : ∀ (k : String) (m r : NDict α), motive m → motive r →
      motive (.cons k (.sub m) r)) :
    ∀ m, motive m
  | .nil => nil
  | .cons k (.leaf a) r => consLeaf k a r (NDict.myInduct nil consLeaf consSub r)
  | .cons k (.sub mm) r =>
    consSub k mm r (NDict.myInduct nil consLeaf consSub mm)
      (NDict.myInduct nil consLeaf consSub r)


theorem segPrefix_iff (p q : List String) :
    segPrefix p q = true ↔ ∃ u, q = p ++ u := by
  induction p generalizing q with
  | nil => simp [segPrefix]
  | cons a as ih =>
    cases q with
    | nil =>
      simp only [segPrefix, List.cons_append]
      constructor
      · intro h; cases h
      · rintro ⟨u, hu⟩; cases hu
    | cons b bs =>
      simp only [segPrefix, Bool.and_eq_true, decide_eq_true_eq, ih, List.cons_append]
      constructor
      · rintro ⟨rfl, u, rfl⟩; exact ⟨u, rfl⟩
      · rintro ⟨u, hu⟩
        injection hu with h1 h2
        exact ⟨h1.symm, u, h2⟩

theorem segPrefix_refl (p : List String) : segPrefix p p = true := by
  rw [segPrefix_iff]; exact ⟨[], by simp⟩

/-- Entry list of a nested dict. -/
def NDict.toPairs {α : Type} : NDict α → List (String × NVal α)
  | .nil => []
  | .cons k v r => (k, v) :: r.toPairs

theorem fst_mem_keys_of_mem_toPairs {α : Type} {m : NDict α} {k : String} {v : NVal α}
    (h : (k, v) ∈ m.toPairs) : k ∈ m.keys := by
  induction m with
  | nil => exact absurd h (List.not_mem_nil _)
  | consLeaf k' a r ih =>
    rcases List.mem_cons.mp h with h1 | h2
    · rw [show k' = k from (congrArg Prod.fst h1).symm]
      simp [NDict.keys]
    · simp only [NDict.keys, List.mem_cons]
      exact Or.inr (ih h2)
  | consSub k' mm r _ ih =>
    rcases List.mem_cons.mp h with h1 | h2
    · rw [show k' = k from (congrArg Prod.fst h1).symm]
      simp [NDict.keys]
    · simp only [NDict.keys, List.mem_cons]
      exact Or.inr (ih h2)

theorem wfB_tail {α : Type} {k : String} {v : NVal α} {r : NDict α}
    (h : (NDict.cons k v r).wfB = true) : r.wfB = true ∧ k ∉ r.keys := by
  cases v with
  | leaf a =>
    simp only [NDict.wfB, Bool.and_eq_true, Bool.not_eq_true', decide_eq_false_iff_not] at h
    exact ⟨h.2, h.1⟩
  | sub mm =>
    simp only [NDict.wfB, Bool.and_eq_true, Bool.not_eq_true', decide_eq_false_iff_not] at h
    exact ⟨h.2, h.1.1⟩

theorem wfB_sub_head {α : Type} {k : String} {mm : NDict α} {r : NDict α}
    (h : (NDict.cons k (.sub mm) r).wfB = true) : mm.wfB = true := by
  simp only [NDict.wfB, Bool.and_eq_true] at h
  exact h.1.2

theorem nestedGet?_of_mem_toPairs {α : Type} {m : NDict α} {k : String} {v : NVal α}
    (hwf : m.wfB = true) (h : (k, v) ∈ m.toPairs) : nestedGet? m k = some v := by
  induction m with
  | nil => exact absurd h (List.not_mem_nil _)
  | consLeaf k' a r ih =>
    rcases List.mem_cons.mp h with h1 | h2
    · injection h1 with hk hv
      subst hk; subst hv
      simp [nestedGet?]
    · have hk : k' ≠ k := by
        intro he; subst he
        exact (wfB_tail hwf).2 (fst_mem_keys_of_mem_toPairs h2)
      simp only [nestedGet?, if_neg hk]
      exact ih (wfB_tail hwf).1 h2
  | consSub k' mm r _ ih =>
    rcases List.mem_cons.mp h with h1 | h2
    · injection h1 with hk hv
      subst hk; subst hv
      simp [nestedGet?]
    · have hk : k' ≠ k := by
        intro he; subst he
        exact (wfB_tail hwf).2 (fst_mem_keys_of_mem_toPairs h2)
      simp only [nestedGet?, if_neg hk]
      exact ih (wfB_tail hwf).1 h2

theorem mem_keys_iff_nestedGet? {α : Type} (m : NDict α) (k : String) :
    k ∈ m.keys ↔ (nestedGet? m k).isSome := by
  induction m with
  | nil => simp [NDict.keys, nestedGet?]
  | consLeaf k' a r ih =>
    by_cases hk : k' = k
    · subst hk; simp [NDict.keys, nestedGet?]
    · simp only [NDict.keys, List.mem_cons, nestedGet?, if_neg hk, ih]
      constructor
      · rintro (h | h)
        · exact absurd h.symm hk
        · exact h
      · exact Or.inr
  | consSub k' mm r _ ih =>
    by_cases hk : k' = k
    · subst hk; simp [NDict.keys, nestedGet?]
    · simp only [NDict.keys, List.mem_cons, nestedGet?, if_neg hk, ih]
      constructor
      · rintro (h | h)
        · exact absurd h.symm hk
        · exact h
      · exact Or.inr

theorem wfB_lookup_sub {α : Type} {m : NDict α} {k : String} {s : NDict α}
    (hwf : m.wfB = true) (h : nestedGet? m k = some (.sub s)) : s.wfB = true := by
  induction m with
  | nil => simp [nestedGet?] at h
  | consLeaf k' a r ih =>
    by_cases hk : k' = k
    · subst hk
      simp only [nestedGet?, if_pos rfl, Option.some.injEq] at h
      cases h
    · simp only [nestedGet?, if_neg hk] at h
      exact ih (wfB_tail hwf).1 h
  | consSub k' mm r ihm ih =>
    by_cases hk : k' = k
    · subst hk
      simp only [nestedGet?, if_pos rfl, Option.some.injEq] at h
      have hms : mm = s := by
        injection h with hh
        injection hh
      rw [← hms]
      exact wfB_sub_head hwf
    · simp only [nestedGet?, if_neg hk] at h
      exact ih (wfB_tail hwf).1 h

theorem pathGet?_single {α : Type} (m : NDict α) (k : String) :
    pathGet? m [k] = nestedGet? m k := by
  unfold pathGet?
  cases h : nestedGet? m k with
  | none => rfl
  | some v => cases v <;> rfl

theorem pathGet?_cons {α : Type} (m : NDict α) (k : String) (q : List String)
    (hq : q ≠ []) :
    pathGet? m (k :: q) =
      match nestedGet? m k with
      | some (.sub s) => pathGet? s q
      | _ => none := by
  unfold pathGet?
  cases hg : nestedGet? m k with
  | none => cases q with | nil => exact absurd rfl hq | cons b bs => rfl
  | some v =>
    cases v with
    | leaf a => cases q with | nil => exact absurd rfl hq | cons b bs => rfl
    | sub s => cases q with | nil => exact absurd rfl hq | cons b bs => rfl

theorem nestedGet?_nestedSet_self {α : Type} (m : NDict α) (k : String) (v : NVal α) :
    nestedGet? (nestedSet m k v) k = some v := by
  induction m with
  | nil => simp [nestedSet, nestedGet?]
  | consLeaf k' a r ih =>
    by_cases hk : k' = k
    · subst hk; simp [nestedSet, nestedGet?]
    · simp [nestedSet, nestedGet?, hk, ih]
  | consSub k' mm r _ ih =>
    by_cases hk : k' = k
    · subst hk; simp [nestedSet, nestedGet?]
    · simp [nestedSet, nestedGet?, hk, ih]

theorem nestedGet?_nestedSet_ne {α : Type} (m : NDict α) {k q : String} (v : NVal α)
    (h : q ≠ k) : nestedGet? (nestedSet m k v) q = nestedGet? m q := by
  have hk : k ≠ q := fun hh => h hh.symm
  induction m with
  | nil => simp [nestedSet, nestedGet?, hk]
  | consLeaf k' a r ih =>
    by_cases hkk : k' = k
    · subst hkk; simp [nestedSet, nestedGet?, hk]
    · simp only [nestedSet, if_neg hkk, nestedGet?]
      by_cases hq : k' = q <;> simp [hq, ih]
  | consSub k' mm r _ ih =>
    by_cases hkk : k' = k
    · subst hkk; simp [nestedSet, nestedGet?, hk]
    · simp only [nestedSet, if_neg hkk, nestedGet?]
      by_cases hq : k' = q <;> simp [hq, ih]

theorem keys_nestedSet {α : Type} (m : NDict α) (k : String) (v : NVal α) :
    (nestedSet m k v).keys = if k ∈ m.keys then m.keys else m.keys ++ [k] := by
  induction m with
  | nil => simp [nestedSet, NDict.keys]
  | consLeaf k' a r ih =>
    by_cases hk : k' = k
    · subst hk; simp [nestedSet, NDict.keys]
    · simp only [nestedSet, if_neg hk, NDict.keys, ih, List.mem_cons]
      by_cases hm : k ∈ r.keys
      · simp [hm, fun h : k = k' => hk h.symm]
      · simp only [hm, if_false]
        rw [if_neg (by simp; exact fun h => hk h.symm)]
        simp
  | consSub k' mm r _ ih =>
    by_cases hk : k' = k
    · subst hk; simp [nestedSet, NDict.keys]
    · simp only [nestedSet, if_neg hk, NDict.keys, ih, List.mem_cons]
      by_cases hm : k ∈ r.keys
      · simp [hm, fun h : k = k' => hk h.symm]
      · simp only [hm, if_false]
        rw [if_neg (by simp; exact fun h => hk h.symm)]
        simp

theorem sz_lookup_sub {α : Type} {m : NDict α} {k : String} {s : NDict α}
    (h : nestedGet? m k = some (.sub s)) : s.sz < m.sz := by
  induction m with
  | nil => simp [nestedGet?] at h
  | consLeaf k' a r ih =>
    by_cases hk : k' = k
    · subst hk
      simp only [nestedGet?, if_pos rfl, Option.some.injEq] at h
      cases h
    · simp only [nestedGet?, if_neg hk] at h
      have := ih h
      simp only [NDict.sz]
      omega
  | consSub k' mm r ihm ih =>
    by_cases hk : k' = k
    · subst hk
      simp only [nestedGet?, if_pos rfl, Option.some.injEq] at h
      have hms : mm = s := by
        injection h with hh
        injection hh
      subst hms
      simp only [NDict.sz]
      omega
    · simp only [nestedGet?, if_neg hk] at h
      have := ih h
      simp only [NDict.sz]
      omega

theorem ndSubB_eq_true_iff {α : Type} [DecidableEq α] (m m' : NDict α) :
    ndSubB m m' = true ↔
      ∀ kv ∈ m.toPairs, ∃ w, nestedGet? m' kv.1 = some w ∧ nvEquivB kv.2 w = true := by
  induction m with
  | nil => simp [ndSubB, NDict.toPairs]
  | consLeaf k a r ih =>
    simp only [ndSubB, Bool.and_eq_true, ih, NDict.toPairs, List.mem_cons]
    constructor
    · rintro ⟨h1, h2⟩ kv hkv
      rcases hkv with hkv | hkv
      · subst hkv
        cases hg : nestedGet? m' k with
        | none => rw [hg] at h1; cases h1
        | some w =>
          rw [hg] at h1
          exact ⟨w, rfl, h1⟩
      · exact h2 kv hkv
    · intro h
      constructor
      · obtain ⟨w, hw, he⟩ := h (k, .leaf a) (Or.inl rfl)
        rw [hw]; exact he
      · intro kv hkv; exact h kv (Or.inr hkv)
  | consSub k mm r _ ih =>
    simp only [ndSubB, Bool.and_eq_true, ih, NDict.toPairs, List.mem_cons]
    constructor
    · rintro ⟨h1, h2⟩ kv hkv
      rcases hkv with hkv | hkv
      · subst hkv
        cases hg : nestedGet? m' k with
        | none => rw [hg] at h1; cases h1
        | some w =>
          rw [hg] at h1
          exact ⟨w, rfl, h1⟩
      · exact h2 kv hkv
    · intro h
      constructor
      · obtain ⟨w, hw, he⟩ := h (k, .sub mm) (Or.inl rfl)
        rw [hw]; exact he
      · intro kv hkv; exact h kv (Or.inr hkv)

theorem nvEquivB_sub_eq {α : Type} [DecidableEq α] (s s' : NDict α) :
    nvEquivB (.sub s) (.sub s') = ndEquivB s s' := rfl

/-- Two recursively well-formed nested dicts with the same leaf
lookups and the same sub-dict skeleton are `==`-equal. -/
theorem ndEquivB_of_lookups {α : Type} [DecidableEq α] :
    ∀ (n : Nat) (N N' : NDict α), N.sz ≤ n → N.wfB = true → N'.wfB = true →
    (∀ p a, pathGet? N p = some (.leaf a) ↔ pathGet? N' p = some (.leaf a)) →
    (∀ p, (∃ s, pathGet? N p = some (.sub s)) ↔ (∃ s, pathGet? N' p = some (.sub s))) →
    ndEquivB N N' = true := by
  intro n
  induction n with
  | zero =>
    intro N N' hsz _ _ _ _
    cases N with
    | nil => cases hsz
    | cons k v r =>
      exfalso
      cases v <;> simp [NDict.sz] at hsz
  | succ n ih =>
    intro N N' hsz hwf hwf' hleafEq hsubEq
    simp only [ndEquivB, Bool.and_eq_true]
    constructor
    · rw [ndSubB_eq_true_iff]
      rintro ⟨k, v⟩ hkv
      have hget : nestedGet? N k = some v := nestedGet?_of_mem_toPairs hwf hkv
      cases v with
      | leaf a =>
        have hp : pathGet? N [k] = some (.leaf a) := by
          rw [pathGet?_single]; exact hget
        have hp' := (hleafEq [k] a).mp hp
        rw [pathGet?_single] at hp'
        exact ⟨.leaf a, hp', by simp [nvEquivB]⟩
      | sub ss =>
        have hp : ∃ s, pathGet? N [k] = some (.sub s) := by
          rw [pathGet?_single]; exact ⟨ss, by rw [hget]⟩
        obtain ⟨ss', hp'⟩ := (hsubEq [k]).mp hp
        rw [pathGet?_single] at hp'
        refine ⟨.sub ss', hp', ?_⟩
        rw [nvEquivB_sub_eq]
        have hszss : ss.sz ≤ n := by
          have := sz_lookup_sub hget
          omega
        refine ih ss ss' hszss (wfB_lookup_sub hwf hget) (wfB_lookup_sub hwf' hp') ?_ ?_
        · intro q a
          cases q with
          | nil => simp [pathGet?]
          | cons b bs =>
            have h1 : pathGet? N (k :: b :: bs) = pathGet? ss (b :: bs) := by
              rw [pathGet?_cons N k (b :: bs) (by simp), hget]
            have h2 : pathGet? N' (k :: b :: bs) = pathGet? ss' (b :: bs) := by
              rw [pathGet?_cons N' k (b :: bs) (by simp), hp']
            rw [← h1, ← h2]
            exact hleafEq _ a
        · intro q
          cases q with
          | nil => simp [pathGet?]
          | cons b bs =>
            have h1 : pathGet? N (k :: b :: bs) = pathGet? ss (b :: bs) := by
              rw [pathGet?_cons N k (b :: bs) (by simp), hget]
            have h2 : pathGet? N' (k :: b :: bs) = pathGet? ss' (b :: bs) := by
              rw [pathGet?_cons N' k (b :: bs) (by simp), hp']
            rw [← h1, ← h2]
            exact hsubEq _
    · rw [List.all_eq_true]
      intro k hk
      have h' : (nestedGet? N' k).isSome := (mem_keys_iff_nestedGet? N' k).mp hk
      cases hg : nestedGet? N' k with
      | none => rw [hg] at h'; cases h'
      | some w =>
        cases w with
        | leaf b =>
          have hp : pathGet? N' [k] = some (.leaf b) := by
            rw [pathGet?_single]; exact hg
          have := (hleafEq [k] b).mpr hp
          rw [pathGet?_single] at this
          simp [this]
        | sub s' =>
          have hp : ∃ s, pathGet? N' [k] = some (.sub s) := by
            rw [pathGet?_single]; exact ⟨s', by rw [hg]⟩
          obtain ⟨s0, hs0⟩ := (hsubEq [k]).mpr hp
          rw [pathGet?_single] at hs0
          simp [hs0]

/-- Whether a nested dict contains any leaf anywhere. -/
def NDict.hasLeafB {α : Type} : NDict α → Bool
  | .nil => false
  | .cons _ (.leaf _) _ => true
  | .cons _ (.sub m) r => m.hasLeafB || r.hasLeafB

theorem pathGet?_entry_ne {α : Type} (k' : String) (v : NVal α) (r : NDict α)
    {k2 : String} (rest : List String) (h : k2 ≠ k') :
    pathGet? (NDict.cons k' v r) (k2 :: rest) = pathGet? r (k2 :: rest) := by
  have hg : nestedGet? (NDict.cons k' v r) k2 = nestedGet? r k2 := by
    simp only [nestedGet?]
    rw [if_neg (fun hh : k' = k2 => h hh.symm)]
  unfold pathGet?
  rw [hg]

theorem hasLeafB_of_get_leaf {α : Type} {m : NDict α} {k : String} {a : α}
    (h : nestedGet? m k = some (.leaf a)) : m.hasLeafB = true := by
  induction m with
  | nil => simp [nestedGet?] at h
  | consLeaf k' b r ih => simp [NDict.hasLeafB]
  | consSub k' mm r _ ih =>
    by_cases hk : k' = k
    · subst hk
      simp only [nestedGet?, if_pos rfl, Option.some.injEq] at h
      cases h
    · simp only [nestedGet?, if_neg hk] at h
      simp [NDict.hasLeafB, ih h]

theorem hasLeafB_of_get_sub {α : Type} {m : NDict α} {k : String} {s : NDict α}
    (h : nestedGet? m k = some (.sub s)) (hs : s.hasLeafB = true) :
    m.hasLeafB = true := by
  induction m with
  | nil => simp [nestedGet?] at h
  | consLeaf k' b r ih => simp [NDict.hasLeafB]
  | consSub k' mm r _ ih =>
    by_cases hk : k' = k
    · subst hk
      simp only [nestedGet?, if_pos rfl, Option.some.injEq] at h
      have : mm = s := by injection h with hh; injection hh
      subst this
      simp [NDict.hasLeafB, hs]
    · simp only [nestedGet?, if_neg hk] at h
      simp [NDict.hasLeafB, ih h]

theorem hasLeafB_false_get_sub {α : Type} {m : NDict α} {k : String} {s : NDict α}
    (hm : m.hasLeafB = false) (h : nestedGet? m k = some (.sub s)) :
    s.hasLeafB = false := by
  cases hs : s.hasLeafB with
  | false => rfl
  | true => rw [hasLeafB_of_get_sub h hs] at hm; cases hm

theorem noLeaf_pathGet {α : Type} :
    ∀ (q : List String) (m : NDict α) (b : α), m.hasLeafB = false →
      pathGet? m q ≠ some (.leaf b) := by
  intro q
  induction q with
  | nil => intro m b _ h; simp [pathGet?] at h
  | cons k rest ih =>
    intro m b hm h
    cases rest with
    | nil =>
      rw [pathGet?_single] at h
      rw [hasLeafB_of_get_leaf h] at hm
      cases hm
    | cons c cs =>
      rw [pathGet?_cons m k (c :: cs) (by simp)] at h
      cases hg : nestedGet? m k with
      | none => rw [hg] at h; cases h
      | some v =>
        cases v with
        | leaf a => rw [hg] at h; cases h
        | sub ss =>
          rw [hg] at h
          exact ih ss b (hasLeafB_false_get_sub hm hg) h

theorem pathGet?_head_isSome {α : Type} {m : NDict α} {k : String} {rest : List String}
    {v : NVal α} (h : pathGet? m (k :: rest) = some v) :
    (nestedGet? m k).isSome := by
  cases rest with
  | nil => rw [pathGet?_single] at h; simp [h]
  | cons c cs =>
    rw [pathGet?_cons m k (c :: cs) (by simp)] at h
    cases hg : nestedGet? m k with
    | none => rw [hg] at h; cases h
    | some w => simp

theorem hasLeafB_iff_leafpath {α : Type} {m : NDict α} (hwf : m.wfB = true) :
    m.hasLeafB = true ↔ ∃ q b, pathGet? m q = some (.leaf b) := by
  constructor
  · intro h
    induction m with
    | nil => cases h
    | consLeaf k a r ih =>
      exact ⟨[k], a, by rw [pathGet?_single]; simp [nestedGet?]⟩
    | consSub k mm r ihm ihr =>
      simp only [NDict.hasLeafB, Bool.or_eq_true] at h
      rcases h with h | h
      · obtain ⟨q, b, hq⟩ := ihm (wfB_sub_head hwf) h
        refine ⟨k :: q, b, ?_⟩
        have hq0 : q ≠ [] := by
          intro he; subst he; simp [pathGet?] at hq
        rw [pathGet?_cons _ k q hq0]
        simp only [nestedGet?, if_pos rfl]
        exact hq
      · obtain ⟨q, b, hq⟩ := ihr (wfB_tail hwf).1 h
        cases q with
        | nil => simp [pathGet?] at hq
        | cons k2 rest =>
          have hk2 : k2 ∈ r.keys :=
            (mem_keys_iff_nestedGet? r k2).mpr (pathGet?_head_isSome hq)
          have hne : k2 ≠ k := by
            intro he; subst he
            exact (wfB_tail hwf).2 hk2
          exact ⟨k2 :: rest, b, by rw [pathGet?_entry_ne k _ r rest hne]; exact hq⟩
  · rintro ⟨q, b, hq⟩
    cases hl : m.hasLeafB with
    | true => rfl
    | false => exact absurd hq (noLeaf_pathGet q m b hl)

theorem dropEmpty_nil_iff {α : Type} (m : NDict α) :
    dropEmpty m = .nil ↔ m.hasLeafB = false := by
  induction m with
  | nil => simp [dropEmpty, NDict.hasLeafB]
  | consLeaf k a r ih =>
    simp only [dropEmpty, NDict.hasLeafB]
    constructor
    · intro h; cases h
    · intro h; cases h
  | consSub k mm r ihm ihr =>
    simp only [dropEmpty, NDict.hasLeafB, Bool.or_eq_false_iff]
    cases hd : dropEmpty mm with
    | nil =>
      have hmm : mm.hasLeafB = false := (ihm).mp hd
      simp [ihr, hmm]
    | cons k2 v2 r2 =>
      have hmm : mm.hasLeafB = true := by
        cases hl : mm.hasLeafB with
        | true => rfl
        | false => rw [(ihm).mpr hl] at hd; cases hd
      constructor
      · intro h; cases h
      · rintro ⟨h1, -⟩; rw [hmm] at h1; cases h1

theorem keys_dropEmpty_sub {α : Type} {m : NDict α} {k : String}
    (h : k ∈ (dropEmpty m).keys) : k ∈ m.keys := by
  induction m with
  | nil => simpa [dropEmpty] using h
  | consLeaf k' a r ih =>
    simp only [dropEmpty, NDict.keys, List.mem_cons] at h ⊢
    rcases h with h | h
    · exact Or.inl h
    · exact Or.inr (ih h)
  | consSub k' mm r _ ihr =>
    simp only [NDict.keys, List.mem_cons]
    simp only [dropEmpty] at h
    cases hd : dropEmpty mm with
    | nil =>
      rw [hd] at h
      exact Or.inr (ihr h)
    | cons k2 v2 r2 =>
      rw [hd] at h
      simp only [NDict.keys, List.mem_cons] at h
      rcases h with h | h
      · exact Or.inl h
      · exact Or.inr (ihr h)

theorem wfB_dropEmpty {α : Type} {m : NDict α} (hwf : m.wfB = true) :
    (dropEmpty m).wfB = true := by
  induction m with
  | nil => simpa [dropEmpty] using hwf
  | consLeaf k a r ih =>
    simp only [dropEmpty, NDict.wfB, Bool.and_eq_true, Bool.not_eq_true',
      decide_eq_false_iff_not] at hwf ⊢
    exact ⟨fun hc => hwf.1 (keys_dropEmpty_sub hc), ih hwf.2⟩
  | consSub k mm r ihm ihr =>
    simp only [NDict.wfB, Bool.and_eq_true, Bool.not_eq_true',
      decide_eq_false_iff_not] at hwf
    simp only [dropEmpty]
    cases hd : dropEmpty mm with
    | nil => exact ihr hwf.2
    | cons k2 v2 r2 =>
      have h1 : (dropEmpty mm).wfB = true := ihm hwf.1.2
      rw [hd] at h1
      simp only [NDict.wfB, Bool.and_eq_true, Bool.not_eq_true',
        decide_eq_false_iff_not]
      refine ⟨⟨fun hc => hwf.1.1 (keys_dropEmpty_sub hc), h1⟩, ihr hwf.2⟩

/-- Action of `dropEmpty` on a single looked-up value. -/
def dropEmptyVal {α : Type} : Option (NVal α) → Option (NVal α)
  | some (.leaf a) => some (.leaf a)
  | some (.sub s) =>
    match dropEmpty s with
    | .nil => none
    | .cons k v r => some (.sub (.cons k v r))
  | none => none

theorem nestedGet?_dropEmpty {α : Type} {m : NDict α} (hwf : m.wfB = true)
    (k : String) :
    nestedGet? (dropEmpty m) k = dropEmptyVal (nestedGet? m k) := by
  induction m with
  | nil => simp [dropEmpty, nestedGet?, dropEmptyVal]
  | consLeaf k' a r ih =>
    by_cases hk : k' = k
    · subst hk; simp [dropEmpty, nestedGet?, dropEmptyVal]
    · simp only [dropEmpty, nestedGet?, if_neg hk]
      exact ih (wfB_tail hwf).1
  | consSub k' mm r _ ihr =>
    by_cases hk : k' = k
    · subst hk
      simp only [dropEmpty, nestedGet?, if_pos rfl, dropEmptyVal]
      cases hd : dropEmpty mm with
      | nil =>
        have hnone : nestedGet? (dropEmpty r) k' = none := by
          cases hg : nestedGet? (dropEmpty r) k' with
          | none => rfl
          | some w =>
            exfalso
            apply (wfB_tail hwf).2
            exact keys_dropEmpty_sub
              ((mem_keys_iff_nestedGet? (dropEmpty r) k').mpr (by simp [hg]))
        simp only [if_true, hd]
        exact hnone
      | cons k2 v2 r2 =>
        simp only [if_true, hd]
        simp [nestedGet?]
    · simp only [dropEmpty]
      cases hd : dropEmpty mm with
      | nil =>
        simp only [nestedGet?, if_neg hk]
        exact ihr (wfB_tail hwf).1
      | cons k2 v2 r2 =>
        simp only [nestedGet?, if_neg hk]
        exact ihr (wfB_tail hwf).1

/-- `dropEmpty` preserves leaf lookups exactly. -/
theorem pathGet?_dropEmpty_leaf {α : Type} :
    ∀ (p : List String) (m : NDict α), m.wfB = true → ∀ (a : α),
      (pathGet? (dropEmpty m) p = some (.leaf a) ↔ pathGet? m p = some (.leaf a)) := by
  intro p
  induction p with
  | nil => intro m _ a; simp [pathGet?]
  | cons k rest ih =>
    intro m hwf a
    cases rest with
    | nil =>
      rw [pathGet?_single, pathGet?_single, nestedGet?_dropEmpty hwf]
      cases hg : nestedGet? m k with
      | none => simp [dropEmptyVal]
      | some v =>
        cases v with
        | leaf b => simp [dropEmptyVal]
        | sub s =>
          simp only [dropEmptyVal]
          cases hd : dropEmpty s with
          | nil => simp
          | cons k2 v2 r2 => simp
    | cons c cs =>
      rw [pathGet?_cons _ k (c :: cs) (by simp), pathGet?_cons _ k (c :: cs) (by simp),
        nestedGet?_dropEmpty hwf]
      cases hg : nestedGet? m k with
      | none => simp [dropEmptyVal]
      | some v =>
        cases v with
        | leaf b => simp [dropEmptyVal]
        | sub s =>
          simp only [dropEmptyVal]
          cases hd : dropEmpty s with
          | nil =>
            simp only
            constructor
            · intro h; cases h
            · intro h
              exfalso
              have hs : s.hasLeafB = false := (dropEmpty_nil_iff s).mp hd
              exact noLeaf_pathGet (c :: cs) s a hs h
          | cons k2 v2 r2 =>
            simp only
            rw [← hd]
            exact ih s (wfB_lookup_sub hwf hg) a

/-- A leaf lies strictly below `p` in `m`. -/
def leafBelow {α : Type} (m : NDict α) (p : List String) : Prop :=
  ∃ q b, pathGet? m q = some (.leaf (b : α)) ∧ segPrefix p q = true ∧ p ≠ q

/-- `dropEmpty` has a sub-dict at `p` exactly when some leaf lies
strictly below `p`. -/
theorem pathGet?_dropEmpty_sub {α : Type} :
    ∀ (p : List String) (m : NDict α), m.wfB = true →
      ((∃ s, pathGet? (dropEmpty m) p = some (.sub s)) ↔ (p ≠ [] ∧ leafBelow m p)) := by
  intro p
  induction p with
  | nil =>
    intro m _
    simp [pathGet?]
  | cons k rest ih =>
    intro m hwf
    have hsplit : ∀ (s' : NDict α) (hget : nestedGet? m k = some (.sub s')),
        leafBelow m (k :: rest) ↔ leafBelow s' rest := by
      intro s' hget
      constructor
      · rintro ⟨q, b, hq, hpre, hne⟩
        obtain ⟨u, hu⟩ := (segPrefix_iff (k :: rest) q).mp hpre
        subst hu
        have hu0 : rest ++ u ≠ [] := by
          intro he
          rcases List.append_eq_nil.mp he with ⟨h1, h2⟩
          subst h1; subst h2
          exact hne (by simp)
        rw [List.cons_append] at hq
        rw [pathGet?_cons m k (rest ++ u) hu0, hget] at hq
        refine ⟨rest ++ u, b, hq, ?_, ?_⟩
        · rw [segPrefix_iff]; exact ⟨u, rfl⟩
        · intro he
          have hlen := congrArg List.length he
          simp only [List.length_append, List.length_cons] at hlen
          have hu : u = [] := List.length_eq_zero.mp (by omega)
          subst hu
          exact hne (by simp)
      · rintro ⟨q, b, hq, hpre, hne⟩
        have hq0 : q ≠ [] := by
          intro he; subst he; simp [pathGet?] at hq
        refine ⟨k :: q, b, ?_, ?_, ?_⟩
        · rw [pathGet?_cons m k q hq0, hget]; exact hq
        · obtain ⟨u, hu⟩ := (segPrefix_iff rest q).mp hpre
          rw [segPrefix_iff]
          exact ⟨u, by rw [hu]; rfl⟩
        · intro he
          injection he with h1 h2
          exact hne h2
    cases rest with
    | nil =>
      rw [pathGet?_single, nestedGet?_dropEmpty hwf]
      cases hg : nestedGet? m k with
      | none =>
        simp only [dropEmptyVal]
        constructor
        · rintro ⟨s, hs⟩; cases hs
        · rintro ⟨-, q, b, hq, hpre, hne⟩
          obtain ⟨u, hu⟩ := (segPrefix_iff [k] q).mp hpre
          subst hu
          have := pathGet?_head_isSome hq
          rw [hg] at this
          cases this
      | some v =>
        cases v with
        | leaf b =>
          simp only [dropEmptyVal]
          constructor
          · rintro ⟨s, hs⟩; cases hs
          · rintro ⟨-, q, c, hq, hpre, hne⟩
            obtain ⟨u, hu⟩ := (segPrefix_iff [k] q).mp hpre
            subst hu
            have hu0 : u ≠ [] := by
              intro he; subst he; exact hne (by simp)
            cases u with
            | nil => exact absurd rfl hu0
            | cons c2 cs2 =>
              rw [show ([k] ++ (c2 :: cs2)) = k :: (c2 :: cs2) from rfl,
                pathGet?_cons m k (c2 :: cs2) (by simp), hg] at hq
              cases hq
        | sub s =>
          simp only [dropEmptyVal]
          rw [hsplit s hg]
          cases hd : dropEmpty s with
          | nil =>
            have hs : s.hasLeafB = false := (dropEmpty_nil_iff s).mp hd
            constructor
            · rintro ⟨t, ht⟩; cases ht
            · rintro ⟨-, q, b, hq, -, -⟩
              exact absurd hq (noLeaf_pathGet q s b hs)
          | cons k2 v2 r2 =>
            have hs : s.hasLeafB = true := by
              cases hl : s.hasLeafB with
              | true => rfl
              | false => rw [(dropEmpty_nil_iff s).mpr hl] at hd; cases hd
            constructor
            · intro _
              refine ⟨by simp, ?_⟩
              obtain ⟨q, b, hq⟩ :=
                (hasLeafB_iff_leafpath (wfB_lookup_sub hwf hg)).mp hs
              exact ⟨q, b, hq, by
                cases q with
                | nil => simp [pathGet?] at hq
                | cons x xs => simp [segPrefix], by
                cases q with
                | nil => simp [pathGet?] at hq
                | cons x xs => simp⟩
            · intro _
              exact ⟨.cons k2 v2 r2, rfl⟩
    | cons c cs =>
      rw [pathGet?_cons _ k (c :: cs) (by simp), nestedGet?_dropEmpty hwf]
      cases hg : nestedGet? m k with
      | none =>
        simp only [dropEmptyVal]
        constructor
        · rintro ⟨s, hs⟩; cases hs
        · rintro ⟨-, q, b, hq, hpre, hne⟩
          obtain ⟨u, hu⟩ := (segPrefix_iff (k :: c :: cs) q).mp hpre
          subst hu
          have := pathGet?_head_isSome hq
          rw [hg] at this
          cases this
      | some v =>
        cases v with
        | leaf b =>
          simp only [dropEmptyVal]
          constructor
          · rintro ⟨s, hs⟩; cases hs
          · rintro ⟨-, q, c2, hq, hpre, hne⟩
            obtain ⟨u, hu⟩ := (segPrefix_iff (k :: c :: cs) q).mp hpre
            subst hu
            rw [show (k :: c :: cs) ++ u = k :: ((c :: cs) ++ u) from rfl,
              pathGet?_cons m k ((c :: cs) ++ u) (by simp), hg] at hq
            cases hq
        | sub s =>
          simp only [dropEmptyVal]
          rw [hsplit s hg]
          cases hd : dropEmpty s with
          | nil =>
            have hs : s.hasLeafB = false := (dropEmpty_nil_iff s).mp hd
            constructor
            · rintro ⟨t, ht⟩; cases ht
            · rintro ⟨-, q, b, hq, -, -⟩
              exact absurd hq (noLeaf_pathGet q s b hs)
          | cons k2 v2 r2 =>
            simp only [hd]
            rw [← hd]
            have := ih s (wfB_lookup_sub hwf hg)
            rw [this]
            simp

theorem segPrefix_append_cancel (pre x y : List String) :
    segPrefix (pre ++ x) (pre ++ y) = segPrefix x y := by
  induction pre with
  | nil => rfl
  | cons a t ih => simp [segPrefix, ih]

theorem segPrefix_cons_ne {k k' : String} (x y : List String) (h : k ≠ k') :
    segPrefix (k :: x) (k' :: y) = false := by
  simp [segPrefix, h]

theorem leafItems_shape {α : Type} {m : NDict α} :
    ∀ {pre p : List String} {a : α}, (p, a) ∈ leafItems pre m →
      ∃ k u, p = pre ++ k :: u ∧ k ∈ m.keys := by
  induction m with
  | nil =>
    intro pre p a h
    simp [leafItems] at h
  | consLeaf k b r ih =>
    intro pre p a h
    simp only [leafItems, List.mem_cons] at h
    rcases h with h | h
    · injection h with h1 h2
      exact ⟨k, [], by rw [h1], by simp [NDict.keys]⟩
    · obtain ⟨k2, u, hu, hk2⟩ := ih h
      exact ⟨k2, u, hu, by simp [NDict.keys, hk2]⟩
  | consSub k mm r ihm ihr =>
    intro pre p a h
    simp only [leafItems, List.mem_append] at h
    rcases h with h | h
    · obtain ⟨k2, u, hu, hk2⟩ := ihm h
      refine ⟨k, k2 :: u, ?_, by simp [NDict.keys]⟩
      rw [hu]
      simp
    · obtain ⟨k2, u, hu, hk2⟩ := ihr h
      exact ⟨k2, u, hu, by simp [NDict.keys, hk2]⟩

/-- Leaf-item membership coincides with path lookup in a well-formed
nested dict. -/
theorem leafItems_iff_pathGet {α : Type} {m : NDict α} (hwf : m.wfB = true) :
    ∀ (pre q : List String) (a : α),
      ((pre ++ q, a) ∈ leafItems pre m ↔ pathGet? m q = some (.leaf a)) := by
  induction m with
  | nil =>
    intro pre q a
    simp only [leafItems, List.not_mem_nil, false_iff]
    intro h
    cases q with
    | nil => simp [pathGet?] at h
    | cons c cs =>
      have := pathGet?_head_isSome h
      simp [nestedGet?] at this
  | consLeaf k b r ih =>
    intro pre q a
    simp only [leafItems, List.mem_cons]
    constructor
    · rintro (h | h)
      · injection h with h1 h2
        have hq : q = [k] := by
          rwa [List.append_cancel_left_eq] at h1
        subst hq; subst h2
        rw [pathGet?_single]
        simp [nestedGet?]
      · obtain ⟨k2, u, hu, hk2⟩ := leafItems_shape h
        have hq : q = k2 :: u := by rwa [List.append_cancel_left_eq] at hu
        subst hq
        have hne : k2 ≠ k := by
          intro he; subst he
          exact (wfB_tail hwf).2 hk2
        rw [pathGet?_entry_ne k _ r u hne]
        exact (ih (wfB_tail hwf).1 pre (k2 :: u) a).mp h
    · intro h
      cases q with
      | nil => simp [pathGet?] at h
      | cons k2 u =>
        by_cases hk : k2 = k
        · subst hk
          cases u with
          | nil =>
            rw [pathGet?_single] at h
            simp only [nestedGet?, if_pos rfl, Option.some.injEq] at h
            left
            injection h with hh
            injection hh with hb
            rw [hb]
          | cons c cs =>
            rw [pathGet?_cons _ k2 (c :: cs) (by simp)] at h
            simp only [nestedGet?, if_pos rfl] at h
            cases h
        · rw [pathGet?_entry_ne k _ r u hk] at h
          right
          exact (ih (wfB_tail hwf).1 pre (k2 :: u) a).mpr h
  | consSub k mm r ihm ihr =>
    intro pre q a
    simp only [leafItems, List.mem_append]
    constructor
    · rintro (h | h)
      · obtain ⟨k2, u, hu, hk2⟩ := leafItems_shape h
        have hq : q = k :: k2 :: u := by
          rw [List.append_assoc] at hu
          rwa [List.append_cancel_left_eq] at hu
        subst hq
        rw [pathGet?_cons _ k (k2 :: u) (by simp)]
        simp only [nestedGet?, if_pos rfl]
        have hm : ((pre ++ [k]) ++ (k2 :: u), a) ∈ leafItems (pre ++ [k]) mm := by
          have : (pre ++ [k]) ++ (k2 :: u) = pre ++ k :: k2 :: u := by simp
          rw [this]
          have hu2 : pre ++ k :: k2 :: u = pre ++ [k] ++ k2 :: u := by simp
          rw [← hu2] at hu
          rw [← hu]
          exact h
        exact (ihm (wfB_sub_head hwf) (pre ++ [k]) (k2 :: u) a).mp hm
      · obtain ⟨k2, u, hu, hk2⟩ := leafItems_shape h
        have hq : q = k2 :: u := by rwa [List.append_cancel_left_eq] at hu
        subst hq
        have hne : k2 ≠ k := by
          intro he; subst he
          exact (wfB_tail hwf).2 hk2
        rw [pathGet?_entry_ne k _ r u hne]
        exact (ihr (wfB_tail hwf).1 pre (k2 :: u) a).mp h
    · intro h
      cases q with
      | nil => simp [pathGet?] at h
      | cons k2 u =>
        by_cases hk : k2 = k
        · subst hk
          cases u with
          | nil =>
            rw [pathGet?_single] at h
            simp only [nestedGet?, if_pos rfl, Option.some.injEq] at h
            cases h
          | cons c cs =>
            rw [pathGet?_cons _ k2 (c :: cs) (by simp)] at h
            simp only [nestedGet?, if_pos rfl] at h
            left
            have := (ihm (wfB_sub_head hwf) (pre ++ [k2]) (c :: cs) a).mpr h
            have heq : pre ++ [k2] ++ (c :: cs) = pre ++ k2 :: c :: cs := by simp
            rwa [heq] at this
        · rw [pathGet?_entry_ne k _ r u hk] at h
          right
          exact (ihr (wfB_tail hwf).1 pre (k2 :: u) a).mpr h

/-- Prefix-freeness of the leaf paths of a well-formed nested dict:
pairwise distinct, and none a strict prefix of another. -/
theorem leafItems_prefixFree {α : Type} {m : NDict α} (hwf : m.wfB = true) :
    ∀ (pre : List String),
      ((leafItems pre m).map Prod.fst).Nodup ∧
      (∀ p ∈ (leafItems pre m).map Prod.fst, ∀ p' ∈ (leafItems pre m).map Prod.fst,
        segPrefix p p' = true → p = p') := by
  induction m with
  | nil => intro pre; simp [leafItems]
  | consLeaf k b r ih =>
    intro pre
    obtain ⟨ih1, ih2⟩ := ih (wfB_tail hwf).1 pre
    have hsep : ∀ p' ∈ (leafItems pre r).map Prod.fst,
        segPrefix (pre ++ [k]) p' = false ∧ segPrefix p' (pre ++ [k]) = false := by
      intro p' hp'
      obtain ⟨⟨pp, aa⟩, hmem, hfst⟩ := List.mem_map.mp hp'
      obtain ⟨k2, u, hu, hk2⟩ := leafItems_shape hmem
      have hne : k ≠ k2 := by
        intro he; subst he
        exact (wfB_tail hwf).2 hk2
      subst hfst
      rw [hu, segPrefix_append_cancel pre [k] (k2 :: u),
        segPrefix_append_cancel pre (k2 :: u) [k]]
      exact ⟨segPrefix_cons_ne _ _ hne, segPrefix_cons_ne _ _ (fun h => hne h.symm)⟩
    constructor
    · simp only [leafItems, List.map_cons, List.nodup_cons]
      refine ⟨?_, ih1⟩
      intro hc
      obtain ⟨h1, -⟩ := hsep _ hc
      rw [segPrefix_refl] at h1
      cases h1
    · intro p hp p' hp' hpre
      simp only [leafItems, List.map_cons, List.mem_cons] at hp hp'
      rcases hp with hp | hp <;> rcases hp' with hp' | hp'
      · rw [hp, hp']
      · subst hp
        obtain ⟨h1, -⟩ := hsep p' hp'
        rw [h1] at hpre; cases hpre
      · subst hp'
        obtain ⟨-, h2⟩ := hsep p hp
        rw [h2] at hpre; cases hpre
      · exact ih2 p hp p' hp' hpre
  | consSub k mm r ihm ihr =>
    intro pre
    obtain ⟨ihm1, ihm2⟩ := ihm (wfB_sub_head hwf) (pre ++ [k])
    obtain ⟨ihr1, ihr2⟩ := ihr (wfB_tail hwf).1 pre
    have hsep : ∀ p ∈ (leafItems (pre ++ [k]) mm).map Prod.fst,
        ∀ p' ∈ (leafItems pre r).map Prod.fst,
        segPrefix p p' = false ∧ segPrefix p' p = false := by
      intro p hp p' hp'
      obtain ⟨⟨pp, aa⟩, hmem, hfst⟩ := List.mem_map.mp hp
      obtain ⟨k2, u, hu, -⟩ := leafItems_shape hmem
      obtain ⟨⟨pp', aa'⟩, hmem', hfst'⟩ := List.mem_map.mp hp'
      obtain ⟨k3, u', hu', hk3⟩ := leafItems_shape hmem'
      have hne : k ≠ k3 := by
        intro he; subst he
        exact (wfB_tail hwf).2 hk3
      subst hfst; subst hfst'
      rw [hu, hu']
      have e1 : (pre ++ [k]) ++ k2 :: u = pre ++ (k :: k2 :: u) := by simp
      rw [e1, segPrefix_append_cancel pre (k :: k2 :: u) (k3 :: u'),
        segPrefix_append_cancel pre (k3 :: u') (k :: k2 :: u)]
      exact ⟨segPrefix_cons_ne _ _ hne, segPrefix_cons_ne _ _ (fun h => hne h.symm)⟩
    constructor
    · simp only [leafItems, List.map_append]
      rw [List.nodup_append]
      refine ⟨ihm1, ihr1, ?_⟩
      intro p hp hp'
      obtain ⟨h1, -⟩ := hsep p hp p hp'
      rw [segPrefix_refl] at h1
      cases h1
    · intro p hp p' hp' hpre
      simp only [leafItems, List.map_append, List.mem_append] at hp hp'
      rcases hp with hp | hp <;> rcases hp' with hp' | hp'
      · exact ihm2 p hp p' hp' hpre
      · obtain ⟨h1, -⟩ := hsep p hp p' hp'
        rw [h1] at hpre; cases hpre
      · obtain ⟨-, h2⟩ := hsep p' hp' p hp
        rw [h2] at hpre; cases hpre
      · exact ihr2 p hp p' hp' hpre

theorem pathGet?_nil {α : Type} (q : List String) :
    pathGet? (.nil : NDict α) q = none := by
  cases q with
  | nil => rfl
  | cons k rest =>
    cases rest with
    | nil => rw [pathGet?_single]; rfl
    | cons c cs => rw [pathGet?_cons _ k (c :: cs) (by simp)]; rfl

/-- Well-formedness of a nested value: a leaf is always well-formed, a
sub-dict must be recursively well-formed. -/
def nvWfB {α : Type} : NVal α → Bool
  | .leaf _ => true
  | .sub s => s.wfB

theorem wfB_cons_iff {α : Type} (k : String) (v : NVal α) (r : NDict α) :
    (NDict.cons k v r).wfB = true ↔
      k ∉ r.keys ∧ nvWfB v = true ∧ r.wfB = true := by
  cases v with
  | leaf a =>
    simp [NDict.wfB, nvWfB, Bool.and_eq_true, and_assoc]
  | sub mm =>
    simp [NDict.wfB, nvWfB, Bool.and_eq_true, and_assoc]

theorem wfB_nestedSet {α : Type} {m : NDict α} (hwf : m.wfB = true)
    {v : NVal α} (hv : nvWfB v = true) (k : String) :
    (nestedSet m k v).wfB = true := by
  induction m with
  | nil =>
    simp only [nestedSet]
    rw [wfB_cons_iff]
    exact ⟨by simp [NDict.keys], hv, rfl⟩
  | consLeaf k' a r ih =>
    obtain ⟨hmem, -, hr⟩ := (wfB_cons_iff k' (.leaf a) r).mp hwf
    by_cases hk : k' = k
    · subst hk
      simp only [nestedSet, if_pos rfl]
      exact (wfB_cons_iff _ _ _).mpr ⟨hmem, hv, hr⟩
    · simp only [nestedSet, if_neg hk]
      refine (wfB_cons_iff _ _ _).mpr ⟨?_, rfl, ih hr⟩
      rw [keys_nestedSet]
      by_cases hkm : k ∈ r.keys
      · rw [if_pos hkm]; exact hmem
      · rw [if_neg hkm]
        simp only [List.mem_append, List.mem_singleton]
        rintro (h | h)
        · exact hmem h
        · exact hk h
  | consSub k' mm r ihm ihr =>
    obtain ⟨hmem, hmv, hr⟩ := (wfB_cons_iff k' (.sub mm) r).mp hwf
    by_cases hk : k' = k
    · subst hk
      simp only [nestedSet, if_pos rfl]
      exact (wfB_cons_iff _ _ _).mpr ⟨hmem, hv, hr⟩
    · simp only [nestedSet, if_neg hk]
      refine (wfB_cons_iff _ _ _).mpr ⟨?_, hmv, ihr hr⟩
      rw [keys_nestedSet]
      by_cases hkm : k ∈ r.keys
      · rw [if_pos hkm]; exact hmem
      · rw [if_neg hkm]
        simp only [List.mem_append, List.mem_singleton]
        rintro (h | h)
        · exact hmem h
        · exact hk h

theorem pathGet?_append {α : Type} :
    ∀ (p : List String) (m : NDict α) (u : List String), p ≠ [] → u ≠ [] →
      pathGet? m (p ++ u) =
        (match pathGet? m p with
         | some (.sub s) => pathGet? s u
         | _ => none) := by
  intro p
  induction p with
  | nil => intro m u hp _; exact absurd rfl hp
  | cons k p' ih =>
    intro m u hp hu
    cases p' with
    | nil =>
      rw [List.cons_append, List.nil_append, pathGet?_cons m k u hu, pathGet?_single]
    | cons c cs =>
      rw [List.cons_append, pathGet?_cons m k ((c :: cs) ++ u) (by simp),
        pathGet?_cons m k (c :: cs) (by simp)]
      cases hg : nestedGet? m k with
      | none => rfl
      | some v =>
        cases v with
        | leaf a => rfl
        | sub s => exact ih s u (by simp) hu

theorem pathGet?_nestedSet_ne_head {α : Type} (m : NDict α) {k k' : String}
    (v : NVal α) (h : k' ≠ k) (rest : List String) :
    pathGet? (nestedSet m k v) (k' :: rest) = pathGet? m (k' :: rest) := by
  cases rest with
  | nil => rw [pathGet?_single, pathGet?_single, nestedGet?_nestedSet_ne m v h]
  | cons c cs =>
    rw [pathGet?_cons _ k' (c :: cs) (by simp), pathGet?_cons m k' (c :: cs) (by simp),
      nestedGet?_nestedSet_ne m v h]

theorem pathGet?_nestedSet_sub {α : Type} (m : NDict α) (k : String) (s : NDict α)
    {rest : List String} (hr : rest ≠ []) :
    pathGet? (nestedSet m k (.sub s)) (k :: rest) = pathGet? s rest := by
  rw [pathGet?_cons _ k rest hr, nestedGet?_nestedSet_self]

theorem pathGet?_nestedSet_leaf_self {α : Type} (m : NDict α) (k : String) (a : α) :
    pathGet? (nestedSet m k (.leaf a)) [k] = some (.leaf a) := by
  rw [pathGet?_single, nestedGet?_nestedSet_self]

theorem pathGet?_nestedSet_leaf_below {α : Type} (m : NDict α) (k : String) (a : α)
    {rest : List String} (hr : rest ≠ []) :
    pathGet? (nestedSet m k (.leaf a)) (k :: rest) = none := by
  rw [pathGet?_cons _ k rest hr, nestedGet?_nestedSet_self]

theorem pathGet?_nestedSet_sub_self {α : Type} (m : NDict α) (k : String) (s : NDict α) :
    pathGet? (nestedSet m k (.sub s)) [k] = some (.sub s) := by
  rw [pathGet?_single, nestedGet?_nestedSet_self]

theorem segPrefix_cons_cons (k : String) (p q : List String) :
    segPrefix (k :: p) (k :: q) = segPrefix p q := by
  simp [segPrefix]

theorem segPrefix_single_eq {q : List String} {k : String}
    (h : segPrefix q [k] = true) (h0 : q ≠ []) : q = [k] := by
  obtain ⟨u, hu⟩ := (segPrefix_iff q [k]).mp h
  cases q with
  | nil => exact absurd rfl h0
  | cons x xs =>
    rw [List.cons_append] at hu
    injection hu with h1 h2
    obtain ⟨h3, h4⟩ := List.append_eq_nil.mp h2.symm
    rw [h1, h3]

theorem segPrefix_cons_iff {x y : String} {xs ys : List String} :
    segPrefix (x :: xs) (y :: ys) = true ↔ x = y ∧ segPrefix xs ys = true := by
  simp [segPrefix]

/-- Effect of one `to_dict_nested` leaf insertion on path lookups: when
no leaf sits on a proper prefix of the target path and nothing sits at
the target path itself, the insertion succeeds, creates the leaf at the
target, sub-dicts at every proper nonempty prefix, nothing strictly
below the target, and leaves unrelated paths untouched. -/
theorem insGo_spec {α : Type} :
    ∀ (par : List String) (m : NDict α) (lastk : String) (a : α),
      (∀ q b, segPrefix q (par ++ [lastk]) = true → q ≠ par ++ [lastk] → q ≠ [] →
        pathGet? m q ≠ some (.leaf b)) →
      pathGet? m (par ++ [lastk]) = none →
      ∃ m', insGo m par lastk a = some m' ∧
        (m.wfB = true → m'.wfB = true) ∧
        pathGet? m' (par ++ [lastk]) = some (.leaf a) ∧
        (∀ q, q ≠ [] → segPrefix q (par ++ [lastk]) = true → q ≠ par ++ [lastk] →
          ∃ s, pathGet? m' q = some (.sub s)) ∧
        (∀ q, segPrefix q (par ++ [lastk]) = false →
          segPrefix (par ++ [lastk]) q = false → pathGet? m' q = pathGet? m q) ∧
        (∀ q, segPrefix (par ++ [lastk]) q = true → q ≠ par ++ [lastk] →
          pathGet? m' q = none) := by
  intro par
  induction par with
  | nil =>
    intro m lastk a hpre hnone
    refine ⟨nestedSet m lastk (.leaf a), by rfl, ?_, ?_, ?_, ?_, ?_⟩
    · intro hwf
      exact wfB_nestedSet hwf (show nvWfB (NVal.leaf a) = true from rfl) lastk
    · rw [List.nil_append]; exact pathGet?_nestedSet_leaf_self m lastk a
    · intro q hq0 hq1 hq2
      rw [List.nil_append] at hq1 hq2
      exact absurd (segPrefix_single_eq hq1 hq0) hq2
    · intro q hq1 hq2
      rw [List.nil_append] at hq1 hq2
      cases q with
      | nil => simp [segPrefix] at hq1
      | cons x xs =>
        by_cases hx : x = lastk
        · subst hx
          cases xs with
          | nil => rw [segPrefix_refl] at hq1; cases hq1
          | cons c cs => simp [segPrefix] at hq2
        · exact pathGet?_nestedSet_ne_head m (.leaf a) hx xs
    · intro q hq1 hq2
      rw [List.nil_append] at hq1 hq2
      obtain ⟨u, hu⟩ := (segPrefix_iff [lastk] q).mp hq1
      subst hu
      have hu0 : u ≠ [] := by
        intro he; subst he; exact hq2 (by simp)
      rw [show ([lastk] ++ u : List String) = lastk :: u from rfl]
      exact pathGet?_nestedSet_leaf_below m lastk a hu0
  | cons k rest ih =>
    intro m lastk a hpre hnone
    have hP' : rest ++ [lastk] ≠ [] := by simp
    simp only [List.cons_append] at hpre hnone
    have hk1 : ∀ b, nestedGet? m k ≠ some (.leaf b) := by
      intro b hb
      refine hpre [k] b ?_ ?_ (by simp) ?_
      · rw [segPrefix_cons_cons]; rfl
      · intro he
        injection he with h1 h2
        exact hP' h2.symm
      · rw [pathGet?_single]; exact hb
    cases hg : nestedGet? m k with
    | none =>
      obtain ⟨s2, hins, hwf2, htgt2, hpre2, hunrel2, hbelow2⟩ :=
        ih .nil lastk a
          (fun q b _ _ _ hq => by rw [pathGet?_nil] at hq; cases hq)
          (pathGet?_nil _)
      refine ⟨nestedSet m k (.sub s2), ?_, ?_, ?_, ?_, ?_, ?_⟩
      · simp only [insGo, hg, hins]
      · intro hwf
        exact wfB_nestedSet hwf (show nvWfB (NVal.sub s2) = true from hwf2 rfl) k
      · rw [List.cons_append, pathGet?_nestedSet_sub m k s2 hP']
        exact htgt2
      · intro q hq0 hq1 hq2
        rw [List.cons_append] at hq1 hq2
        cases q with
        | nil => exact absurd rfl hq0
        | cons x xs =>
          obtain ⟨hx, hxs⟩ := segPrefix_cons_iff.mp hq1
          subst hx
          cases xs with
          | nil => exact ⟨s2, pathGet?_nestedSet_sub_self m x s2⟩
          | cons c cs =>
            have hne : (c :: cs) ≠ rest ++ [lastk] := by
              intro he; apply hq2; rw [he]
            obtain ⟨s, hs⟩ := hpre2 (c :: cs) (by simp) hxs hne
            exact ⟨s, by rw [pathGet?_nestedSet_sub m x s2 (by simp)]; exact hs⟩
      · intro q hq1 hq2
        rw [List.cons_append] at hq1 hq2
        cases q with
        | nil => simp [segPrefix] at hq1
        | cons x xs =>
          by_cases hx : x = k
          · subst hx
            rw [segPrefix_cons_cons] at hq1 hq2
            have hxs0 : xs ≠ [] := by
              intro he; subst he; simp [segPrefix] at hq1
            rw [pathGet?_nestedSet_sub m x s2 hxs0, hunrel2 xs hq1 hq2,
              pathGet?_nil, pathGet?_cons m x xs hxs0, hg]
          · exact pathGet?_nestedSet_ne_head m (.sub s2) hx xs
      · intro q hq1 hq2
        rw [List.cons_append] at hq1 hq2
        cases q with
        | nil => simp [segPrefix] at hq1
        | cons x xs =>
          obtain ⟨hx, hxs⟩ := segPrefix_cons_iff.mp hq1
          cases hx
          have hxs0 : xs ≠ [] := by
            intro he; subst he
            obtain ⟨u, hu⟩ := (segPrefix_iff _ _).mp hxs
            exact hP' (List.append_eq_nil.mp hu.symm).1
          have hne : xs ≠ rest ++ [lastk] := by
            intro he; apply hq2; rw [he]
          rw [pathGet?_nestedSet_sub m k s2 hxs0]
          exact hbelow2 xs hxs hne
    | some v =>
      cases v with
      | leaf b => exact absurd hg (hk1 b)
      | sub s =>
        obtain ⟨s2, hins, hwf2, htgt2, hpre2, hunrel2, hbelow2⟩ :=
          ih s lastk a
            (fun q b hq1 hq2 hq0 hq => by
              refine hpre (k :: q) b ?_ ?_ (by simp) ?_
              · rw [segPrefix_cons_cons]; exact hq1
              · intro he; injection he with h1 h2; exact hq2 h2
              · rw [pathGet?_cons m k q hq0, hg]; exact hq)
            (by rw [pathGet?_cons m k _ hP', hg] at hnone; exact hnone)
        refine ⟨nestedSet m k (.sub s2), ?_, ?_, ?_, ?_, ?_, ?_⟩
        · simp only [insGo, hg, hins]
        · intro hwf
          exact wfB_nestedSet hwf
            (show nvWfB (NVal.sub s2) = true from hwf2 (wfB_lookup_sub hwf hg)) k
        · rw [List.cons_append, pathGet?_nestedSet_sub m k s2 hP']
          exact htgt2
        · intro q hq0 hq1 hq2
          rw [List.cons_append] at hq1 hq2
          cases q with
          | nil => exact absurd rfl hq0
          | cons x xs =>
            obtain ⟨hx, hxs⟩ := segPrefix_cons_iff.mp hq1
            subst hx
            cases xs with
            | nil => exact ⟨s2, pathGet?_nestedSet_sub_self m x s2⟩
            | cons c cs =>
              have hne : (c :: cs) ≠ rest ++ [lastk] := by
                intro he; apply hq2; rw [he]
              obtain ⟨s3, hs⟩ := hpre2 (c :: cs) (by simp) hxs hne
              exact ⟨s3, by rw [pathGet?_nestedSet_sub m x s2 (by simp)]; exact hs⟩
        · intro q hq1 hq2
          rw [List.cons_append] at hq1 hq2
          cases q with
          | nil => simp [segPrefix] at hq1
          | cons x xs =>
            by_cases hx : x = k
            · subst hx
              rw [segPrefix_cons_cons] at hq1 hq2
              have hxs0 : xs ≠ [] := by
                intro he; subst he; simp [segPrefix] at hq1
              rw [pathGet?_nestedSet_sub m x s2 hxs0, hunrel2 xs hq1 hq2,
                pathGet?_cons m x xs hxs0, hg]
            · exact pathGet?_nestedSet_ne_head m (.sub s2) hx xs
        · intro q hq1 hq2
          rw [List.cons_append] at hq1 hq2
          cases q with
          | nil => simp [segPrefix] at hq1
          | cons x xs =>
            obtain ⟨hx, hxs⟩ := segPrefix_cons_iff.mp hq1
            cases hx
            have hxs0 : xs ≠ [] := by
              intro he; subst he
              obtain ⟨u, hu⟩ := (segPrefix_iff _ _).mp hxs
              exact hP' (List.append_eq_nil.mp hu.symm).1
            have hne : xs ≠ rest ++ [lastk] := by
              intro he; apply hq2; rw [he]
            rw [pathGet?_nestedSet_sub m k s2 hxs0]
            exact hbelow2 xs hxs hne

theorem pathGet?_nil_path {α : Type} (m : NDict α) : pathGet? m [] = none := rfl

theorem segPrefix_trans {p q r : List String} (h1 : segPrefix p q = true)
    (h2 : segPrefix q r = true) : segPrefix p r = true := by
  obtain ⟨u, hu⟩ := (segPrefix_iff p q).mp h1
  obtain ⟨v, hv⟩ := (segPrefix_iff q r).mp h2
  rw [segPrefix_iff]
  exact ⟨u ++ v, by rw [hv, hu, List.append_assoc]⟩

theorem segPrefix_antisymm {p q : List String} (h1 : segPrefix p q = true)
    (h2 : segPrefix q p = true) : p = q := by
  obtain ⟨u, hu⟩ := (segPrefix_iff p q).mp h1
  obtain ⟨v, hv⟩ := (segPrefix_iff q p).mp h2
  have hlen : q.length = p.length + u.length := by rw [hu]; simp
  have hlen2 : p.length = q.length + v.length := by rw [hv]; simp
  have hu0 : u = [] := List.length_eq_zero.mp (by omega)
  subst hu0
  rw [hu, List.append_nil]

/-- The fold step of `to_dict_nested`, specialized to a flat leaf list
(each visible item of a marker-free store is a leaf under its path). -/
def rebuildStep {α : Type} (acc : Option (NDict α)) (pa : List String × α) :
    Option (NDict α) :=
  match acc with
  | none => none
  | some m =>
    match pa.1.getLast? with
    | some lastk => insGo m pa.1.dropLast lastk pa.2
    | none => none

/-- `to_dict_nested` as a fold over a flat leaf list. -/
def rebuildL {α : Type} (L : FlatD α) : Option (NDict α) :=
  L.foldl rebuildStep (some .nil)

theorem toDict_foldl_eq {α : Type} :
    ∀ (L : List (List String × α)) (acc : Option (NDict α)),
      (L.map fun pa => (FKey.leaf pa.1, FVal.leafV pa.2)).foldl
        (fun acc kv =>
          match acc with
          | none => none
          | some n =>
            match kv.2, kv.1.segs.getLast? with
            | .leafV a, some lastk => insGo n (parentsNested kv.1.segs) lastk a
            | _, _ => none) acc = L.foldl rebuildStep acc := by
  intro L
  induction L with
  | nil => intro acc; rfl
  | cons pa rest ih =>
    intro acc
    rw [List.map_cons, List.foldl_cons, List.foldl_cons, ih]
    have hstep : (match acc with
        | none => none
        | some n =>
          match (FVal.leafV pa.2 : FVal α), pa.1.getLast? with
          | FVal.leafV a, some lastk => insGo n (parentsNested pa.1) lastk a
          | _, _ => none) = rebuildStep acc pa := by
      cases acc with
      | none => rfl
      | some n =>
        show (match (FVal.leafV pa.2 : FVal α), pa.1.getLast? with
              | FVal.leafV a, some lastk => insGo n (parentsNested pa.1) lastk a
              | _, _ => none) =
            (match pa.1.getLast? with
             | some lastk => insGo n pa.1.dropLast lastk pa.2
             | none => none)
        cases pa.1.getLast? <;> rfl
    exact congrArg (fun z => List.foldl rebuildStep z rest) hstep

/-- On a root-scope default-mode store built from a flat leaf list,
`to_dict_nested` is exactly the `rebuildL` fold over that list. -/
theorem toDictNested_eq_rebuildL {α : Type} [DecidableEq α] (m : NDict α) :
    toDictNested confDef (fInit confDef m) = rebuildL (flatkeys m) := by
  show ((flatkeys m).map fun pa => (FKey.leaf pa.1, FVal.leafV pa.2)).foldl
      (fun acc kv =>
        match acc with
        | none => none
        | some n =>
          match kv.2, kv.1.segs.getLast? with
          | .leafV a, some lastk => insGo n (parentsNested kv.1.segs) lastk a
          | _, _ => none) (some NDict.nil) = rebuildL (flatkeys m)
  exact toDict_foldl_eq (flatkeys m) (some NDict.nil)

/-- Invariant of the rebuild fold: starting from an accumulator whose
leaf lookups are exactly the processed entries `done` and whose
sub-dicts sit exactly at proper nonempty prefixes of processed paths,
folding the remaining entries of a nonempty/distinct/prefix-free path
list succeeds and reestablishes the same characterization. -/
theorem rebuild_fold_spec {α : Type} :
    ∀ (todo done : List (List String × α)) (m : NDict α),
      (∀ p ∈ (done ++ todo).map Prod.fst, p ≠ []) →
      ((done ++ todo).map Prod.fst).Nodup →
      (∀ p ∈ (done ++ todo).map Prod.fst, ∀ p' ∈ (done ++ todo).map Prod.fst,
        segPrefix p p' = true → p = p') →
      m.wfB = true →
      (∀ q b, pathGet? m q = some (.leaf b) ↔ (q, b) ∈ done) →
      (∀ q, (∃ s, pathGet? m q = some (.sub s)) ↔
        (q ≠ [] ∧ ∃ p ∈ done.map Prod.fst, segPrefix q p = true ∧ q ≠ p)) →
      ∃ m', List.foldl rebuildStep (some m) todo = some m' ∧
        m'.wfB = true ∧
        (∀ q b, pathGet? m' q = some (.leaf b) ↔ (q, b) ∈ done ++ todo) ∧
        (∀ q, (∃ s, pathGet? m' q = some (.sub s)) ↔
          (q ≠ [] ∧ ∃ p ∈ (done ++ todo).map Prod.fst,
            segPrefix q p = true ∧ q ≠ p)) := by
  intro todo
  induction todo with
  | nil =>
    intro done m _ _ _ hwf hleaf hsub
    refine ⟨m, rfl, hwf, ?_, ?_⟩
    · intro q b; rw [List.append_nil]; exact hleaf q b
    · intro q; rw [List.append_nil]; exact hsub q
  | cons pa rest ih =>
    intro done m h0 h1 h2 hwf hleaf hsub
    obtain ⟨p, a⟩ := pa
    have hallp : p ∈ (done ++ (p, a) :: rest).map Prod.fst := by
      simp only [List.map_append, List.mem_append, List.map_cons, List.mem_cons]
      exact Or.inr (Or.inl trivial)
    have hp0 : p ≠ [] := h0 p hallp
    have hdsub : ∀ q, q ∈ done.map Prod.fst →
        q ∈ (done ++ (p, a) :: rest).map Prod.fst := by
      intro q hq
      simp only [List.map_append, List.mem_append]
      exact Or.inl hq
    have hPdone : p ∉ done.map Prod.fst := by
      intro hc
      rw [List.map_append, List.nodup_append] at h1
      refine h1.2.2 hc ?_
      simp only [List.map_cons, List.mem_cons]
      exact Or.inl trivial
    have hH1 : ∀ q b, segPrefix q p = true → q ≠ p → q ≠ [] →
        pathGet? m q ≠ some (.leaf b) := by
      intro q b hqp hqnp _ hq
      have hqd : (q, b) ∈ done := (hleaf q b).mp hq
      exact hqnp (h2 q (hdsub q (List.mem_map_of_mem _ hqd)) p hallp hqp)
    have hH2 : pathGet? m p = none := by
      cases hv : pathGet? m p with
      | none => rfl
      | some v =>
        exfalso
        cases v with
        | leaf b =>
          exact hPdone (List.mem_map_of_mem _ ((hleaf p b).mp hv))
        | sub s =>
          obtain ⟨-, p', hp', hpp', hnpp'⟩ := (hsub p).mp ⟨s, hv⟩
          exact hnpp' (h2 p hallp p' (hdsub p' hp') hpp')
    have hsplit : p.dropLast ++ [p.getLast hp0] = p :=
      List.dropLast_append_getLast hp0
    obtain ⟨m2, hins, hwf2, htgt, hpre, hunrel, hbelow⟩ :=
      insGo_spec p.dropLast m (p.getLast hp0) a
        (by intro q b hq1 hq2 hq0
            rw [hsplit] at hq1 hq2
            exact hH1 q b hq1 hq2 hq0)
        (by rw [hsplit]; exact hH2)
    rw [hsplit] at htgt hpre hunrel hbelow
    have hleaf2 : ∀ q b, pathGet? m2 q = some (.leaf b) ↔
        (q, b) ∈ done ++ [(p, a)] := by
      intro q b
      simp only [List.mem_append, List.mem_singleton]
      rcases eq_or_ne q ([] : List String) with hq0 | hq0
      · subst hq0
        rw [pathGet?_nil_path]
        constructor
        · intro h; cases h
        · rintro (hmem | heq)
          · exact absurd rfl (h0 [] (hdsub [] (List.mem_map_of_mem _ hmem)))
          · injection heq with h1 h2
            exact absurd h1.symm hp0
      rcases eq_or_ne p q with hq | hq
      · subst hq
        rw [htgt]
        constructor
        · intro h
          injection h with h
          injection h with hb
          exact Or.inr (by rw [hb])
        · rintro (hmem | heq)
          · exact absurd (List.mem_map_of_mem _ hmem) hPdone
          · injection heq with h1 h2
            rw [h2]
      by_cases hqp : segPrefix q p = true
      · obtain ⟨s, hs⟩ := hpre q hq0 hqp (Ne.symm hq)
        rw [hs]
        constructor
        · intro h
          injection h with h
          cases h
        · rintro (hmem | heq)
          · exact absurd (h2 q (hdsub q (List.mem_map_of_mem _ hmem)) p hallp hqp)
              (Ne.symm hq)
          · injection heq with h1 h2
            exact absurd h1 (Ne.symm hq)
      by_cases hpq : segPrefix p q = true
      · rw [hbelow q hpq (Ne.symm hq)]
        constructor
        · intro h; cases h
        · rintro (hmem | heq)
          · exact absurd
              (h2 p hallp q (hdsub q (List.mem_map_of_mem _ hmem)) hpq) hq
          · injection heq with h1 h2
            exact absurd h1 (Ne.symm hq)
      rw [hunrel q (Bool.eq_false_iff.mpr hqp) (Bool.eq_false_iff.mpr hpq),
        hleaf q b]
      constructor
      · exact Or.inl
      · rintro (hmem | heq)
        · exact hmem
        · injection heq with h1 h2
          exact absurd h1 (Ne.symm hq)
    have hsub2 : ∀ q, (∃ s, pathGet? m2 q = some (.sub s)) ↔
        (q ≠ [] ∧ ∃ p' ∈ (done ++ [(p, a)]).map Prod.fst,
          segPrefix q p' = true ∧ q ≠ p') := by
      intro q
      simp only [List.map_append, List.mem_append, List.map_cons, List.map_nil,
        List.mem_singleton]
      rcases eq_or_ne q ([] : List String) with hq0 | hq0
      · subst hq0
        rw [pathGet?_nil_path]
        constructor
        · rintro ⟨s, hs⟩
          cases hs
        · rintro ⟨hne, -⟩
          exact absurd rfl hne
      rcases eq_or_ne p q with hq | hq
      · subst hq
        rw [htgt]
        constructor
        · rintro ⟨s, hs⟩
          injection hs with h
          cases h
        · rintro ⟨-, p', hp', hqp', hnq⟩
          exfalso
          rcases hp' with hp' | hp'
          · exact hnq (h2 p hallp p' (hdsub p' hp') hqp')
          · subst hp'
            exact hnq rfl
      by_cases hqp : segPrefix q p = true
      · constructor
        · intro _
          exact ⟨hq0, p, Or.inr rfl, hqp, Ne.symm hq⟩
        · intro _
          exact hpre q hq0 hqp (Ne.symm hq)
      by_cases hpq : segPrefix p q = true
      · constructor
        · rintro ⟨s, hs⟩
          rw [hbelow q hpq (Ne.symm hq)] at hs
          cases hs
        · rintro ⟨-, p', hp', hqp', hnq⟩
          exfalso
          rcases hp' with hp' | hp'
          · have hpp' : p = p' :=
              h2 p hallp p' (hdsub p' hp') (segPrefix_trans hpq hqp')
            subst hpp'
            exact hq (segPrefix_antisymm hqp' hpq).symm
          · subst hp'
            exact hq (segPrefix_antisymm hqp' hpq).symm
      rw [hunrel q (Bool.eq_false_iff.mpr hqp) (Bool.eq_false_iff.mpr hpq),
        hsub q]
      constructor
      · rintro ⟨hne, p', hp', h3, h4⟩
        exact ⟨hne, p', Or.inl hp', h3, h4⟩
      · rintro ⟨hne, p', hp', h3, h4⟩
        rcases hp' with hp' | hp'
        · exact ⟨hne, p', hp', h3, h4⟩
        · subst hp'
          exact absurd h3 hqp
    have hassoc : (done ++ [(p, a)]) ++ rest = done ++ (p, a) :: rest := by simp
    obtain ⟨m', hfold, hwfm', hleaf', hsub'⟩ :=
      ih (done ++ [(p, a)]) m2
        (by rw [hassoc]; exact h0)
        (by rw [hassoc]; exact h1)
        (by rw [hassoc]; exact h2)
        (hwf2 hwf) hleaf2 hsub2
    have hstep : rebuildStep (some m) (p, a) = some m2 := by
      show (match p.getLast? with
            | some lastk => insGo m p.dropLast lastk a
            | none => none) = some m2
      rw [List.getLast?_eq_getLast p hp0]
      exact hins
    refine ⟨m', ?_, hwfm', ?_, ?_⟩
    · rw [List.foldl_cons, hstep]
      exact hfold
    · intro q b
      rw [← hassoc]
      exact hleaf' q b
    · intro q
      rw [← hassoc]
      exact hsub' q

/-- The direct leaf entries of one nested dict, with prefixed paths
(the entries `fdict.flatkeys` writes while scanning that dict). -/
def directLeaves {α : Type} (pre : List String) : NDict α → List (List String × α)
  | .nil => []
  | .cons k (.leaf a) r => (pre ++ [k], a) :: directLeaves pre r
  | .cons k (.sub _) r => directLeaves pre r

/-- The sub-dict entries of one nested dict, with prefixed paths (the
worklist pushes of `fdict.flatkeys` while scanning that dict). -/
def subEntries {α : Type} (pre : List String) : NDict α → List (List String × NDict α)
  | .nil => []
  | .cons _ (.leaf _) r => subEntries pre r
  | .cons k (.sub m) r => (pre ++ [k], m) :: subEntries pre r

theorem upd_append {α : Type} :
    ∀ (flat : List (List String × α)) (q : List String) (v : α),
      q ∉ flat.map Prod.fst → FlatD.upd flat q v = flat ++ [(q, v)] := by
  intro flat
  induction flat with
  | nil => intro q v _; rfl
  | cons kw t ih =>
    intro q v hq
    obtain ⟨k, w⟩ := kw
    simp only [List.map_cons, List.mem_cons, not_or] at hq
    have hne : ¬(k = q) := fun h => hq.1 h.symm
    simp only [FlatD.upd, if_neg hne, List.cons_append, ih q v hq.2]

theorem itemsPass_spec {α : Type} :
    ∀ (m : NDict α) (pre : List String) (flat : List (List String × α)),
      (∀ q ∈ (directLeaves pre m).map Prod.fst, q ∉ flat.map Prod.fst) →
      ((directLeaves pre m).map Prod.fst).Nodup →
      (itemsPass pre m flat).1 = flat ++ directLeaves pre m ∧
      (itemsPass pre m flat).2 = subEntries pre m := by
  intro m
  induction m with
  | nil =>
    intro pre flat _ _
    simp [itemsPass, directLeaves, subEntries]
  | consLeaf k a r ih =>
    intro pre flat hfresh hnodup
    simp only [directLeaves, List.map_cons, List.nodup_cons] at hnodup
    have hk : pre ++ [k] ∉ flat.map Prod.fst := by
      refine hfresh _ ?_
      simp only [directLeaves, List.map_cons, List.mem_cons]
      exact Or.inl trivial
    have hupd : FlatD.upd flat (pre ++ [k]) a = flat ++ [(pre ++ [k], a)] :=
      upd_append flat _ a hk
    have hrec := ih pre (flat ++ [(pre ++ [k], a)])
      (by
        intro q hq
        simp only [List.map_append, List.mem_append, not_or]
        constructor
        · refine hfresh q ?_
          simp only [directLeaves, List.map_cons, List.mem_cons]
          exact Or.inr hq
        · simp only [List.map_cons, List.map_nil, List.mem_singleton]
          intro he
          exact hnodup.1 (he ▸ hq))
      hnodup.2
    constructor
    · show (itemsPass pre r (FlatD.upd flat (pre ++ [k]) a)).1 = _
      rw [hupd, hrec.1, List.append_assoc]
      rfl
    · show (itemsPass pre r (FlatD.upd flat (pre ++ [k]) a)).2 = _
      rw [hupd, hrec.2]
      rfl
  | consSub k mm r ihm ihr =>
    intro pre flat hfresh hnodup
    have hrec := ihr pre flat (fun q hq => hfresh q hq) hnodup
    constructor
    · show (itemsPass pre r flat).1 = _
      rw [hrec.1]
      rfl
    · show ((pre ++ [k], mm) :: (itemsPass pre r flat).2) = _
      rw [hrec.2]
      rfl

/-- The leaf items contributed by one worklist entry. -/
def liEnt {α : Type} (e : List String × NDict α) : List (List String × α) :=
  leafItems e.1 e.2

/-- A nested dict is, up to reordering, its direct leaves plus the leaf
items of its sub-dict entries (one `flatkeys` scan step). -/
theorem leafItems_perm_decomp {α : Type} (m : NDict α) :
    ∀ (pre : List String),
      List.Perm (leafItems pre m)
        (directLeaves pre m ++ ((subEntries pre m).map liEnt).flatten) := by
  induction m with
  | nil =>
    intro pre
    simp [leafItems, directLeaves, subEntries]
  | consLeaf k a r ih =>
    intro pre
    simp only [leafItems, directLeaves, subEntries, List.cons_append]
    exact (ih pre).cons _
  | consSub k mm r ihm ihr =>
    intro pre
    simp only [leafItems, directLeaves, subEntries, List.map_cons,
      List.flatten_cons, liEnt]
    refine ((ihr pre).append_left _).trans ?_
    rw [← List.append_assoc, ← List.append_assoc]
    exact List.perm_append_comm.append_right _

/-- Total tree size of a flattening worklist. -/
def stackSz {α : Type} (st : List (List String × NDict α)) : Nat :=
  (st.map (fun e => e.2.sz)).sum

theorem sz_pos {α : Type} (m : NDict α) : 1 ≤ m.sz := by
  cases m with
  | nil => exact Nat.le_refl 1
  | cons k v r =>
    cases v with
    | leaf a => simp only [NDict.sz]; omega
    | sub mm => simp only [NDict.sz]; omega

theorem stackSz_append {α : Type} (a b : List (List String × NDict α)) :
    stackSz (a ++ b) = stackSz a + stackSz b := by
  simp [stackSz]

theorem stackSz_reverse {α : Type} (a : List (List String × NDict α)) :
    stackSz a.reverse = stackSz a := by
  simp only [stackSz, List.map_reverse]
  exact List.sum_reverse _

theorem sz_subEntries {α : Type} (m : NDict α) :
    ∀ (pre : List String), stackSz (subEntries pre m) + 1 ≤ m.sz := by
  induction m with
  | nil =>
    intro pre
    simp [subEntries, stackSz, NDict.sz]
  | consLeaf k a r ih =>
    intro pre
    have h := ih pre
    simp only [subEntries, NDict.sz]
    omega
  | consSub k mm r ihm ihr =>
    intro pre
    have h := ihr pre
    have h1 := sz_pos mm
    simp only [subEntries, NDict.sz, stackSz, List.map_cons, List.sum_cons] at h ⊢
    omega

/-- The `flatkeys` worklist loop emits, up to reordering, exactly the
pending leaf items, provided their paths are distinct and the fuel
covers the total size. -/
theorem flatkeysGo_perm {α : Type} :
    ∀ (fuel : Nat) (st : List (List String × NDict α))
      (flat : List (List String × α)),
      stackSz st ≤ fuel →
      ((flat ++ (st.map liEnt).flatten).map Prod.fst).Nodup →
      List.Perm (flatkeysGo fuel st flat)
        (flat ++ (st.map liEnt).flatten) := by
  intro fuel
  induction fuel with
  | zero =>
    intro st flat hsz _
    cases st with
    | nil => simp [flatkeysGo]
    | cons e rest =>
      exfalso
      have h1 := sz_pos e.2
      simp only [stackSz, List.map_cons, List.sum_cons] at hsz
      omega
  | succ n ih =>
    intro st flat hsz hnd
    cases st with
    | nil => simp [flatkeysGo]
    | cons e rest =>
      obtain ⟨pre, m⟩ := e
      have hdecomp := leafItems_perm_decomp m pre
      -- split the distinctness hypothesis
      have hnd0 := hnd
      rw [List.map_append, List.nodup_append] at hnd0
      obtain ⟨hnfl, hnrest, hdisj⟩ := hnd0
      rw [List.map_cons, List.flatten_cons, List.map_append, List.nodup_append]
        at hnrest
      obtain ⟨hnLm, hnJ, hdisj2⟩ := hnrest
      have hnDJS : ((directLeaves pre m ++
          ((subEntries pre m).map liEnt).flatten).map Prod.fst).Nodup :=
        ((hdecomp.map Prod.fst).nodup_iff).mp hnLm
      rw [List.map_append, List.nodup_append] at hnDJS
      obtain ⟨hnD, -, -⟩ := hnDJS
      have hDsubLm : ∀ q ∈ (directLeaves pre m).map Prod.fst,
          q ∈ (leafItems pre m).map Prod.fst := by
        intro q hq
        refine ((hdecomp.map Prod.fst).mem_iff).mpr ?_
        rw [List.map_append, List.mem_append]
        exact Or.inl hq
      have hfresh : ∀ q ∈ (directLeaves pre m).map Prod.fst,
          q ∉ flat.map Prod.fst := by
        intro q hq hqf
        refine hdisj hqf ?_
        rw [List.map_cons, List.flatten_cons, List.map_append, List.mem_append]
        exact Or.inl (hDsubLm q hq)
      obtain ⟨hspec1, hspec2⟩ := itemsPass_spec m pre flat hfresh hnD
      have hstep : flatkeysGo (n + 1) ((pre, m) :: rest) flat =
          flatkeysGo n ((subEntries pre m).reverse ++ rest)
            (flat ++ directLeaves pre m) := by
        show flatkeysGo n ((itemsPass pre m flat).2.reverse ++ rest)
            (itemsPass pre m flat).1 = _
        rw [hspec1, hspec2]
      have hj : List.Perm (((subEntries pre m).reverse.map liEnt).flatten)
          (((subEntries pre m).map liEnt).flatten) := by
        rw [List.map_reverse]
        exact (List.reverse_perm _).flatten
      have h2 : List.Perm
          (directLeaves pre m ++ ((subEntries pre m).reverse.map liEnt).flatten)
          (leafItems pre m) :=
        (hj.append_left _).trans hdecomp.symm
      have hcontent : List.Perm
          ((flat ++ directLeaves pre m) ++
            ((((subEntries pre m).reverse ++ rest).map liEnt).flatten))
          (flat ++ ((((pre, m) :: rest).map liEnt).flatten)) := by
        rw [List.map_append, List.flatten_append, List.map_cons, List.flatten_cons,
          List.append_assoc, ← List.append_assoc (directLeaves pre m)]
        exact ((h2.append_right _).append_left flat)
      have hfuel : stackSz ((subEntries pre m).reverse ++ rest) ≤ n := by
        have h3 := sz_subEntries m pre
        rw [stackSz_append, stackSz_reverse]
        simp only [stackSz, List.map_cons, List.sum_cons] at hsz h3 ⊢
        omega
      have hndnew : (((flat ++ directLeaves pre m) ++
          ((((subEntries pre m).reverse ++ rest).map liEnt).flatten)).map
            Prod.fst).Nodup :=
        ((hcontent.map Prod.fst).nodup_iff).mpr hnd
      rw [hstep]
      exact (ih _ _ hfuel hndnew).trans hcontent

/-- `flatkeys` of a well-formed nested dict is a permutation of its
leaf items. -/
theorem flatkeys_perm_leafItems {α : Type} {m : NDict α} (hwf : m.wfB = true) :
    List.Perm (flatkeys m) (leafItems [] m) := by
  have hnd : ((([] : List (List String × α)) ++
      (([([], m)] : List (List String × NDict α)).map liEnt).flatten).map
        Prod.fst).Nodup := by
    rw [List.nil_append, List.map_cons, List.map_nil, List.flatten_cons,
      List.flatten_nil, List.append_nil]
    exact (leafItems_prefixFree hwf []).1
  have h := flatkeysGo_perm m.sz [([], m)] []
    (by simp only [stackSz, List.map_cons, List.map_nil, List.sum_cons,
          List.sum_nil]
        omega)
    hnd
  rw [List.nil_append, List.map_cons, List.map_nil, List.flatten_cons,
    List.flatten_nil, List.append_nil] at h
  exact h

/-- C3: Round-trip: for every nested mapping `M` (modelled as a
recursively well-formed `NDict`, since a Python dict cannot repeat keys
at a level), building a store from `M` — flattening its keys exactly as
`fdict.__init__`/`fdict.flatkeys` do — and then reconstructing the
nested form via `to_dict_nested` succeeds and yields a nested mapping
that is `==`-equal to `M` modulo empty sub-mappings being dropped. -/
theorem flattenRoundTrip {α : Type} [DecidableEq α] (M : NDict α)
    (hwf : M.wfB = true) :
    ∃ N, toDictNested confDef (fInit confDef M) = some N ∧
      ndEquivB N (dropEmpty M) = true := by
  have hperm := flatkeys_perm_leafItems hwf
  have hpermP := hperm.map Prod.fst
  have hLI : ∀ (q : List String) (b : α),
      (q, b) ∈ leafItems ([] : List String) M ↔
        pathGet? M q = some (.leaf b) := by
    intro q b
    have h := leafItems_iff_pathGet hwf [] q b
    rwa [List.nil_append] at h
  obtain ⟨N, hfold, hwfN, hleafN, hsubN⟩ :=
    rebuild_fold_spec (flatkeys M) [] .nil
      (by
        rw [List.nil_append]
        intro p hp
        have hp2 := hpermP.mem_iff.mp hp
        obtain ⟨⟨p2, b⟩, hmem, hfst⟩ := List.mem_map.mp hp2
        obtain ⟨k, u, hu, -⟩ := leafItems_shape hmem
        subst hfst
        rw [hu, List.nil_append]
        simp)
      (by
        rw [List.nil_append]
        exact (hpermP.nodup_iff).mpr (leafItems_prefixFree hwf []).1)
      (by
        rw [List.nil_append]
        intro p hp p' hp'
        exact (leafItems_prefixFree hwf []).2 p (hpermP.mem_iff.mp hp) p'
          (hpermP.mem_iff.mp hp'))
      rfl
      (by
        intro q b
        rw [pathGet?_nil]
        constructor
        · intro h; cases h
        · intro h; cases h)
      (by
        intro q
        rw [pathGet?_nil]
        constructor
        · rintro ⟨s, hs⟩; cases hs
        · rintro ⟨-, p', hp', -⟩
          simp at hp')
  simp only [List.nil_append] at hleafN hsubN
  have htd : toDictNested confDef (fInit confDef M) = some N := by
    rw [toDictNested_eq_rebuildL]
    show List.foldl rebuildStep (some NDict.nil) (flatkeys M) = some N
    exact hfold
  refine ⟨N, htd, ?_⟩
  refine ndEquivB_of_lookups N.sz N (dropEmpty M) (Nat.le_refl _) hwfN
    (wfB_dropEmpty hwf) ?_ ?_
  · intro q b
    rw [hleafN q b, hperm.mem_iff, hLI q b]
    exact (pathGet?_dropEmpty_leaf q M hwf b).symm
  · intro q
    rw [hsubN q, pathGet?_dropEmpty_sub q M hwf]
    constructor
    · rintro ⟨hq0, p, hp, hqp, hqnp⟩
      refine ⟨hq0, ?_⟩
      obtain ⟨⟨p2, b⟩, hmem, hfst⟩ := List.mem_map.mp hp
      subst hfst
      exact ⟨p2, b, (hLI p2 b).mp (hperm.mem_iff.mp hmem), hqp, hqnp⟩
    · rintro ⟨hq0, p, b, hpk, hqp, hqnp⟩
      refine ⟨hq0, p, ?_, hqp, hqnp⟩
      exact List.mem_map_of_mem Prod.fst (hperm.mem_iff.mpr ((hLI p b).mpr hpk))

/-- Concrete round-trip instance: `{'a': 1, 'b': {'c': 2}}`. -/
theorem flattenRoundTripWitness :
    (NDict.cons "a" (.leaf 1) (NDict.cons "b"
      (.sub (NDict.cons "c" (.leaf 2) .nil)) .nil) : NDict Nat).wfB = true ∧
    ∃ N, toDictNested confDef (fInit confDef (NDict.cons "a" (.leaf 1)
        (NDict.cons "b" (.sub (NDict.cons "c" (.leaf 2) .nil)) .nil))) = some N ∧
      ndEquivB N (dropEmpty (NDict.cons "a" (.leaf 1)
        (NDict.cons "b" (.sub (NDict.cons "c" (.leaf 2) .nil)) .nil))) = true :=
  ⟨by decide, flattenRoundTrip _ (by decide)⟩

theorem hasKey_setk_self (d : FMap α) (k : FKey) (v : FVal α) :
    (d.setk k v).hasKey k = true := by
  simp [FMap.hasKey]

theorem mem_keysList_iff_hasKey (d : FMap α) (k : FKey) :
    k ∈ d.keysList ↔ d.hasKey k = true := by
  constructor
  · intro h
    simpa [FMap.hasKey] using FMap.get?_isSome_of_mem_keys h
  · intro h
    exact FMap.mem_keys_of_get? (by simpa [FMap.hasKey] using h)

theorem keysList_setk_of_hasKey {d : FMap α} {k : FKey} (v : FVal α)
    (h : d.hasKey k = true) : (d.setk k v).keysList = d.keysList := by
  induction d with
  | nil => simp [FMap.hasKey, FMap.get?] at h
  | cons kw t ih =>
    obtain ⟨k', w⟩ := kw
    by_cases hk : k' = k
    · subst hk
      simp [FMap.setk, FMap.keysList]
    · have ht : FMap.hasKey t k = true := by
        simpa [FMap.hasKey, FMap.get?, if_neg hk] using h
      simp [FMap.setk, if_neg hk, FMap.keysList] at ih ⊢
      exact ih ht

theorem keysList_erase_sublist (d : FMap α) (k : FKey) :
    List.Sublist ((d.erase k).keysList) d.keysList := by
  induction d with
  | nil => simp [FMap.erase, FMap.keysList]
  | cons kw t ih =>
    obtain ⟨k', w⟩ := kw
    by_cases hk : k' = k
    · subst hk
      simp only [FMap.erase, if_pos rfl, FMap.keysList, List.map_cons]
      exact List.sublist_cons_self _ _
    · simp only [FMap.erase, if_neg hk, FMap.keysList, List.map_cons]
      exact List.Sublist.cons₂ _ ih

theorem hasKey_erase_self_of_nodup {d : FMap α} (k : FKey)
    (hnd : d.keysList.Nodup) : (d.erase k).hasKey k = false := by
  induction d with
  | nil => simp [FMap.erase, FMap.hasKey, FMap.get?]
  | cons kw t ih =>
    obtain ⟨k', w⟩ := kw
    simp only [FMap.keysList, List.map_cons, List.nodup_cons] at hnd
    by_cases hk : k' = k
    · subst hk
      have herase : FMap.erase ((k', w) :: t) k' = t := by
        show (if k' = k' then t else (k', w) :: FMap.erase t k') = t
        rw [if_pos rfl]
      rw [herase]
      cases hh : FMap.hasKey t k' with
      | false => rfl
      | true => exact absurd ((mem_keysList_iff_hasKey t k').mpr hh) hnd.1
    · have herase : FMap.erase ((k', w) :: t) k = (k', w) :: FMap.erase t k := by
        show (if k' = k then t else (k', w) :: FMap.erase t k) = _
        rw [if_neg hk]
      rw [herase]
      have hget : FMap.get? ((k', w) :: FMap.erase t k) k =
          FMap.get? (FMap.erase t k) k := by
        show (if k' = k then some w else _) = _
        rw [if_neg hk]
      simp only [FMap.hasKey, hget]
      exact ih hnd.2

theorem hasKey_of_keys_sublist {d' d : FMap α}
    (hs : List.Sublist d'.keysList d.keysList) {k : FKey}
    (h : d'.hasKey k = true) : d.hasKey k = true :=
  (mem_keysList_iff_hasKey d k).mp
    (hs.mem ((mem_keysList_iff_hasKey d' k).mpr h))

theorem eraseAllChecked_keys_sublist :
    ∀ (ks : List FKey) (d : FMap α),
      List.Sublist ((eraseAllChecked d ks).1.keysList) d.keysList := by
  intro ks
  induction ks with
  | nil => intro d; exact List.Sublist.refl _
  | cons k t ih =>
    intro d
    simp only [eraseAllChecked]
    split
    · exact (ih (d.erase k)).trans (keysList_erase_sublist d k)
    · exact List.Sublist.refl _

/-- The deletion body only removes entries (or rewrites node-marker
values in place): the resulting key list is a sublist of the original. -/
theorem fDelGoF_keys_sublist :
    ∀ (fuel : Nat) (c : FConf) (d : FMap α) (full : FKey),
      List.Sublist ((fDelGoF fuel c d full).1.keysList) d.keysList := by
  intro fuel
  induction fuel with
  | zero => intro c d full; exact List.Sublist.refl _
  | succ n ih =>
    intro c d full
    simp only [fDelGoF]
    by_cases hhit : d.hasKey full
    · rw [if_pos hhit]
      by_cases hfv : c.fastview
      · rw [if_pos hfv]
        cases hp : parentOf full.segs with
        | none => exact keysList_erase_sublist d full
        | some p =>
          dsimp only
          cases hg : d.get? (.node p) with
          | none => exact List.Sublist.refl _
          | some v =>
            cases v with
            | leafV a => exact List.Sublist.refl _
            | noneV => exact List.Sublist.refl _
            | setV s =>
              dsimp only
              have hkeq : (d.setk (.node p) (.setV (s.erase full))).keysList =
                  d.keysList :=
                keysList_setk_of_hasKey _ (by simp [FMap.hasKey, hg])
              by_cases hmem : full ∈ s
              · simp only [if_pos hmem]
                by_cases hemp : (s.erase full).isEmpty
                · simp only [if_pos (show ((s.erase full).isEmpty = true) from hemp)]
                  by_cases hr : (fDelGoF n c
                      (d.setk (.node p) (.setV (s.erase full))) (.node p)).2
                  · simp only [if_pos (show _ = true from hr)]
                    rw [← hkeq]
                    exact ih c _ (.node p)
                  · simp only [if_neg (show ¬(_ = true) from hr)]
                    refine (keysList_erase_sublist _ full).trans ?_
                    rw [← hkeq]
                    exact ih c _ (.node p)
                · simp only [if_neg (show ¬((s.erase full).isEmpty = true) from hemp)]
                  refine (keysList_erase_sublist _ full).trans ?_
                  rw [hkeq]
              · simp only [if_neg hmem]
                exact List.Sublist.refl _
      · rw [if_neg hfv]
        exact keysList_erase_sublist d full
    · rw [if_neg hhit]
      by_cases hfv : c.fastview
      · rw [if_pos hfv]
        by_cases hdir : !d.hasKey (.node full.segs)
        · rw [if_pos hdir]
        · rw [if_neg hdir]
          have hd1 : List.Sublist ((d.erase (.node full.segs)).keysList)
              d.keysList := keysList_erase_sublist d _
          cases hp : parentOf full.segs with
          | none =>
            dsimp only
            exact (eraseAllChecked_keys_sublist _ _).trans hd1
          | some p =>
            dsimp only
            cases hg : (d.erase (.node full.segs)).get? (.node p) with
            | none =>
              dsimp only
              exact hd1
            | some v =>
              cases v with
              | leafV a => exact hd1
              | noneV => exact hd1
              | setV s =>
                dsimp only
                have hkeq : ((d.erase (.node full.segs)).setk (.node p)
                    (.setV (s.erase (.node full.segs)))).keysList =
                    (d.erase (.node full.segs)).keysList :=
                  keysList_setk_of_hasKey _ (by simp [FMap.hasKey, hg])
                by_cases hmem : (.node full.segs : FKey) ∈ s
                · simp only [if_pos hmem]
                  by_cases hemp : (s.erase (.node full.segs)).isEmpty
                  · simp only [if_pos
                      (show ((s.erase (.node full.segs)).isEmpty = true) from hemp)]
                    by_cases hr : (fDelGoF n c
                        ((d.erase (.node full.segs)).setk (.node p)
                          (.setV (s.erase (.node full.segs)))) (.leaf p)).2
                    · simp only [if_pos (show _ = true from hr)]
                      exact (ih c _ (.leaf p)).trans (hkeq ▸ hd1)
                    · simp only [if_neg (show ¬(_ = true) from hr)]
                      exact (eraseAllChecked_keys_sublist _ _).trans
                        ((ih c _ (.leaf p)).trans (hkeq ▸ hd1))
                  · simp only [if_neg
                      (show ¬((s.erase (.node full.segs)).isEmpty = true) from hemp)]
                    refine (eraseAllChecked_keys_sublist _ _).trans ?_
                    rw [hkeq]
                    exact hd1
                · simp only [if_neg hmem]
                  exact hd1
      · rw [if_neg hfv]
        by_cases hemp : ((d.keysList).filter
            (fun k => startsWithDir full.segs k)).isEmpty
        · simp only [if_pos
            (show (((d.keysList).filter
              (fun k => startsWithDir full.segs k)).isEmpty = true) from hemp)]
          exact eraseAllChecked_keys_sublist _ _
        · simp only [if_neg
            (show ¬(((d.keysList).filter
              (fun k => startsWithDir full.segs k)).isEmpty = true) from hemp)]
          exact eraseAllChecked_keys_sublist _ _

/-- A successful delete leaves no entry at the deleted key (for a
backing map with distinct keys, as a CPython dict guarantees). -/
theorem fDelGoF_success_not_hasKey :
    ∀ (fuel : Nat) (c : FConf) (d : FMap α) (full : FKey),
      d.keysList.Nodup → (fDelGoF fuel c d full).2 = false →
      (fDelGoF fuel c d full).1.hasKey full = false := by
  intro fuel c d full hnd hsucc
  cases fuel with
  | zero => exact absurd hsucc (by simp [fDelGoF])
  | succ n =>
    by_cases hhit : d.hasKey full
    · rcases hres : fDelGoF (n + 1) c d full with ⟨d', e⟩
      rw [hres] at hsucc
      dsimp only at hsucc ⊢
      simp only [fDelGoF] at hres
      rw [if_pos hhit] at hres
      by_cases hfv : c.fastview
      · rw [if_pos hfv] at hres
        cases hp : parentOf full.segs with
        | none =>
          simp only [hp] at hres
          injection hres with h1 h2
          rw [← h1]
          exact hasKey_erase_self_of_nodup full hnd
        | some p =>
          simp only [hp] at hres
          cases hg : d.get? (.node p) with
          | none =>
            simp only [hg] at hres
            injection hres with h1 h2
            cases h2.trans hsucc
          | some v =>
            cases v with
            | leafV a =>
              simp only [hg] at hres
              injection hres with h1 h2
              cases h2.trans hsucc
            | noneV =>
              simp only [hg] at hres
              injection hres with h1 h2
              cases h2.trans hsucc
            | setV s =>
              simp only [hg] at hres
              by_cases hmem : full ∈ s
              · rw [if_pos hmem] at hres
                have hkeq : (d.setk (.node p) (.setV (s.erase full))).keysList =
                    d.keysList :=
                  keysList_setk_of_hasKey _ (by simp [FMap.hasKey, hg])
                by_cases hemp : (s.erase full).isEmpty
                · rw [if_pos hemp] at hres
                  by_cases hr : (fDelGoF n c
                      (d.setk (.node p) (.setV (s.erase full))) (.node p)).2
                  · rw [if_pos hr] at hres
                    rw [hres] at hr
                    dsimp only at hr
                    cases hr.symm.trans hsucc
                  · rw [if_neg hr] at hres
                    injection hres with h1 h2
                    rw [← h1]
                    refine hasKey_erase_self_of_nodup full ?_
                    refine List.Nodup.sublist ?_ hnd
                    have := fDelGoF_keys_sublist n c
                      (d.setk (.node p) (.setV (s.erase full))) (.node p)
                    rwa [hkeq] at this
                · rw [if_neg hemp] at hres
                  injection hres with h1 h2
                  rw [← h1]
                  refine hasKey_erase_self_of_nodup full ?_
                  rw [hkeq]
                  exact hnd
              · rw [if_neg hmem] at hres
                injection hres with h1 h2
                cases h2.trans hsucc
      · rw [if_neg hfv] at hres
        injection hres with h1 h2
        rw [← h1]
        exact hasKey_erase_self_of_nodup full hnd
    · cases hres : (fDelGoF (n + 1) c d full).1.hasKey full with
      | false => rfl
      | true =>
        exact absurd
          (hasKey_of_keys_sublist (fDelGoF_keys_sublist (n + 1) c d full) hres)
          (by simpa using hhit)

theorem dropSegs_zero (k : FKey) : FKey.dropSegs 0 k = k := by
  cases k <;> simp [FKey.dropSegs]

theorem startsWithDir_node_self (p : List String) :
    startsWithDir p (.node p) = true := by
  simp [startsWithDir, segPrefix_refl, FKey.segs, FKey.isNode]

/-- C1 counterexample: in a default-mode store holding leaves `a` and
`a/b` (each stored by a plain set), `del S['a']` succeeds, yet
`'a' in S` is still true afterwards: `__contains__` also matches the
surviving descendant `a/b`, so the claim's "after a successful delete
the containment test returns false" fails. -/
theorem setDeleteCounterexample :
    ((fDel confDef
        (fSet confDef ((fSet confDef ([] : FMap Nat) ["a"] (.leaf 1)).1)
          ["a", "b"] (.leaf 2)).1
        (.leaf ["a"]) false).2 = false) ∧
    fContains confDef
      ((fDel confDef
        (fSet confDef ((fSet confDef ([] : FMap Nat) ["a"] (.leaf 1)).1)
          ["a", "b"] (.leaf 2)).1
        (.leaf ["a"]) false).1) ["a"] = true := by
  constructor
  · rfl
  · rfl

/-- C1 (amended): for a store in default or fastview mode (`nodel`
off) with distinct backing keys: (set) whenever `set(P, v)` with a
non-mapping `v` completes without raising — always the case in default
mode — the containment test is true and the lookup returns `v`
afterwards; (delete) after a successful `delete(P)`, the containment
test is false **provided no stored key below the full target path
survives in the result** (without that proviso, as the counterexample
shows, the test can still match a surviving descendant, or in fastview
mode a surviving node marker). -/
theorem setDeleteContainsAmended (c : FConf) (d : FMap α) (key P : List String)
    (a : α) (hnodel : c.nodel = false) (hnd : d.keysList.Nodup) :
    (((fSet c d key (.leaf a)).2 = false →
        fContains c (fSet c d key (.leaf a)).1 key = true ∧
        fGet c (fSet c d key (.leaf a)).1 key = .val (.leafV a)) ∧
      (c.fastview = false → (fSet c d key (.leaf a)).2 = false)) ∧
    ((fDel c d (.leaf P) false).2 = false →
      (∀ k, (fDel c d (.leaf P) false).1.hasKey k = true →
        startsWithDir (c.root ++ P) k = false) →
      fContains c (fDel c d (.leaf P) false).1 P = false) := by
  refine ⟨⟨?_, ?_⟩, ?_⟩
  · -- set: success implies containment and lookup
    intro hsucc
    rcases hres : fSet c d key (.leaf a) with ⟨d', e⟩
    rw [hres] at hsucc
    dsimp only at hsucc ⊢
    simp only [fSet] at hres
    by_cases hfv : c.fastview
    · rw [if_pos hfv] at hres
      by_cases h1 : (if d.hasKey (.node (c.root ++ key)) then
          fDel c d (.leaf key) false else (d, false)).2
      · rw [if_pos h1] at hres
        have he := congrArg Prod.snd hres
        dsimp only at he
        rw [h1] at he
        cases he.trans hsucc
      · rw [if_neg h1] at hres
        by_cases h2 : (delAncestorSingletons c
            (if d.hasKey (.node (c.root ++ key)) then
              fDel c d (.leaf key) false else (d, false)).1
            (parentNodes (c.root ++ key))).2
        · rw [if_pos h2] at hres
          have he := congrArg Prod.snd hres
          dsimp only at he
          rw [h2] at he
          cases he.trans hsucc
        · rw [if_neg h2] at hres
          have hd' := congrArg Prod.fst hres
          dsimp only at hd'
          rw [← hd']
          constructor
          · simp only [fContains]
            rw [if_pos (hasKey_setk_self _ _ _)]
          · simp only [fGet, FMap.get?_setk_self]
    · rw [if_neg hfv, if_neg (by simp [hnodel])] at hres
      have hd' := congrArg Prod.fst hres
      dsimp only at hd'
      rw [← hd']
      constructor
      · simp only [fContains]
        rw [if_pos (hasKey_setk_self _ _ _)]
      · simp only [fGet, FMap.get?_setk_self]
  · -- set: default mode never raises
    intro hfv
    simp only [fSet]
    rw [if_neg (by simp [hfv]), if_neg (by simp [hnodel])]
  · -- delete
    intro hsucc hdesc
    rcases hres : fDel c d (.leaf P) false with ⟨d', e⟩
    rw [hres] at hsucc hdesc
    dsimp only at hsucc hdesc ⊢
    simp only [fDel, hnodel, Bool.false_eq_true, if_false, FKey.addRoot,
      fDelGo, FKey.segs] at hres
    have hsucc2 : (fDelGoF ((c.root ++ P).length + 1) c d
        (.leaf (c.root ++ P))).2 = false := by
      rw [hres]
      exact hsucc
    have hnotleaf : d'.hasKey (.leaf (c.root ++ P)) = false := by
      have hh := fDelGoF_success_not_hasKey ((c.root ++ P).length + 1) c d
        (.leaf (c.root ++ P)) hnd hsucc2
      rw [hres] at hh
      dsimp only at hh
      exact hh
    simp only [fContains]
    rw [hnotleaf, if_neg (by simp)]
    cases hfv : c.fastview with
    | true =>
      rw [if_pos (show (true || c.nodel) = true from rfl)]
      cases hh : d'.hasKey (.node (c.root ++ P)) with
      | false => rfl
      | true =>
        have hsw := hdesc (.node (c.root ++ P)) hh
        rw [startsWithDir_node_self] at hsw
        cases hsw
    | false =>
      rw [if_neg (show ¬((false || c.nodel) = true) by simp [hnodel])]
      simp only [List.any_eq_false]
      intro k hk
      simp only [Bool.not_eq_true]
      simp only [fViewKeys, Option.getD_none, hfv] at hk
      by_cases hrp : (c.root).isEmpty
      · rw [if_pos hrp, if_neg (show ¬((false || c.nodel) = true) by
          simp [hnodel])] at hk
        exact hdesc k ((mem_keysList_iff_hasKey d' k).mp hk)
      · rw [if_neg hrp, if_neg (by simp), if_neg (by simp [hnodel])] at hk
        obtain ⟨k2, hk2, hkk⟩ := List.mem_map.mp hk
        subst hkk
        rw [show (if True then 0 else (c.root).length) = 0 from rfl, dropSegs_zero]
        exact hdesc k2
          ((mem_keysList_iff_hasKey d' k2).mp (List.mem_of_mem_filter hk2))

/-- C1 amended-theorem witness: a concrete default-mode store. -/
theorem setDeleteContainsAmendedWitness :
    fContains confDef
      (fSet confDef ([(FKey.leaf ["x"], FVal.leafV (0 : Nat))]) ["a"]
        (.leaf 5)).1 ["a"] = true :=
  (((setDeleteContainsAmended confDef
      [(FKey.leaf ["x"], FVal.leafV (0 : Nat))] ["a"] ["x"] 5
      (by rfl) (by decide)).1.1) (by rfl)).1

/-! ## Claim C2: the fastview structural invariant -/

theorem mem_setk_of_ne {d : FMap α} {k q : FKey} {v w : FVal α} (h : k ≠ q) :
    (k, v) ∈ d.setk q w ↔ (k, v) ∈ d := by
  induction d with
  | nil =>
    constructor
    · intro he
      rcases List.mem_cons.mp he with h1 | h1
      · injection h1 with ha hb
        exact absurd ha h
      · exact h1
    · intro he
      exact absurd he (List.not_mem_nil _)
  | cons kw t ih =>
    obtain ⟨k', w'⟩ := kw
    by_cases hk : k' = q
    · subst hk
      show (k, v) ∈ (if k' = k' then (k', w) :: t else _) ↔ _
      rw [if_pos rfl]
      constructor
      · intro he
        rcases List.mem_cons.mp he with h1 | h1
        · injection h1 with ha hb
          exact absurd ha h
        · exact List.mem_cons_of_mem _ h1
      · intro he
        rcases List.mem_cons.mp he with h1 | h1
        · injection h1 with ha hb
          exact absurd ha h
        · exact List.mem_cons_of_mem _ h1
    · show (k, v) ∈ (if k' = q then _ else (k', w') :: FMap.setk t q w) ↔ _
      rw [if_neg hk]
      constructor
      · intro he
        rcases List.mem_cons.mp he with h1 | h1
        · exact h1 ▸ List.mem_cons_self _ _
        · exact List.mem_cons_of_mem _ (ih.mp h1)
      · intro he
        rcases List.mem_cons.mp he with h1 | h1
        · exact h1 ▸ List.mem_cons_self _ _
        · exact List.mem_cons_of_mem _ (ih.mpr h1)

theorem mem_setk_self_iff {d : FMap α} {q : FKey} {v w : FVal α}
    (hnd : d.keysList.Nodup) : (q, v) ∈ d.setk q w ↔ v = w := by
  induction d with
  | nil =>
    constructor
    · intro he
      rcases List.mem_cons.mp he with h1 | h1
      · exact congrArg Prod.snd h1
      · exact absurd h1 (List.not_mem_nil _)
    · intro he
      exact he ▸ List.mem_cons_self _ _
  | cons kw t ih =>
    obtain ⟨k', w'⟩ := kw
    simp only [FMap.keysList, List.map_cons, List.nodup_cons] at hnd
    by_cases hk : k' = q
    · subst hk
      show (k', v) ∈ (if k' = k' then (k', w) :: t else _) ↔ _
      rw [if_pos rfl]
      constructor
      · intro he
        rcases List.mem_cons.mp he with h1 | h1
        · exact congrArg Prod.snd h1
        · exact absurd (List.mem_map_of_mem Prod.fst h1) hnd.1
      · intro he
        exact he ▸ List.mem_cons_self _ _
    · show (q, v) ∈ (if k' = q then _ else (k', w') :: FMap.setk t q w) ↔ _
      rw [if_neg hk]
      constructor
      · intro he
        rcases List.mem_cons.mp he with h1 | h1
        · injection h1 with ha hb
          exact absurd ha.symm hk
        · exact (ih hnd.2).mp h1
      · intro he
        exact List.mem_cons_of_mem _ ((ih hnd.2).mpr he)

theorem mem_erase_of_ne {d : FMap α} {k q : FKey} {v : FVal α} (h : k ≠ q) :
    (k, v) ∈ d.erase q ↔ (k, v) ∈ d := by
  induction d with
  | nil =>
    constructor
    · intro he
      exact absurd he (List.not_mem_nil _)
    · intro he
      exact absurd he (List.not_mem_nil _)
  | cons kw t ih =>
    obtain ⟨k', w'⟩ := kw
    by_cases hk : k' = q
    · subst hk
      show (k, v) ∈ (if k' = k' then t else _) ↔ _
      rw [if_pos rfl]
      constructor
      · intro he
        exact List.mem_cons_of_mem _ he
      · intro he
        rcases List.mem_cons.mp he with h1 | h1
        · injection h1 with ha hb
          exact absurd ha h
        · exact h1
    · show (k, v) ∈ (if k' = q then _ else (k', w') :: FMap.erase t q) ↔ _
      rw [if_neg hk]
      constructor
      · intro he
        rcases List.mem_cons.mp he with h1 | h1
        · exact h1 ▸ List.mem_cons_self _ _
        · exact List.mem_cons_of_mem _ (ih.mp h1)
      · intro he
        rcases List.mem_cons.mp he with h1 | h1
        · exact h1 ▸ List.mem_cons_self _ _
        · exact List.mem_cons_of_mem _ (ih.mpr h1)

theorem not_mem_erase_self {d : FMap α} {q : FKey} {v : FVal α}
    (hnd : d.keysList.Nodup) : (q, v) ∉ d.erase q := by
  intro hmem
  have h1 : (d.erase q).hasKey q = true :=
    (mem_keysList_iff_hasKey _ _).mp (List.mem_map_of_mem Prod.fst hmem)
  rw [hasKey_erase_self_of_nodup q hnd] at h1
  cases h1

theorem hasKey_setk (d : FMap α) (q k : FKey) (w : FVal α) :
    (d.setk q w).hasKey k = (decide (k = q) || d.hasKey k) := by
  by_cases h : k = q
  · subst h
    rw [hasKey_setk_self]
    simp
  · rw [FMap.hasKey_setk_ne d w h]
    simp [h]

theorem keysList_setk_absent {d : FMap α} {q : FKey} (w : FVal α)
    (h : d.hasKey q = false) : (d.setk q w).keysList = d.keysList ++ [q] := by
  induction d with
  | nil => rfl
  | cons kw t ih =>
    obtain ⟨k', w'⟩ := kw
    by_cases hk : k' = q
    · subst hk
      rw [show FMap.hasKey ((k', w') :: t) k' = true by
        simp [FMap.hasKey, FMap.get?]] at h
      cases h
    · show FMap.keysList (if k' = q then _ else (k', w') :: FMap.setk t q w) = _
      rw [if_neg hk]
      have ht : FMap.hasKey t q = false := by
        cases hh : FMap.hasKey t q with
        | false => rfl
        | true =>
          rw [show FMap.hasKey ((k', w') :: t) q = true by
            simp only [FMap.hasKey, FMap.get?, if_neg hk]
            exact hh] at h
          cases h
      simp only [FMap.keysList, List.map_cons, List.cons_append]
      have := ih ht
      simp only [FMap.keysList] at this
      rw [this]

/-- The fastview structural invariant, generalized by a list `X` of
pending keys (keys being deleted, or fresh leaves whose metadata is not
yet built): distinct nonempty keys; every node key holds a duplicate-free
set; sets contain only present direct children; every present direct
child outside `X` is in its parent's set; every present key outside `X`
and not strictly below an `X`-key has a node marker at every proper
nonempty prefix. -/
structure InvX (d : FMap α) (X : List FKey) : Prop where
  nodup : d.keysList.Nodup
  nonem : ∀ k ∈ d.keysList, k.segs ≠ []
  marker : ∀ p v, (FKey.node p, v) ∈ d → ∃ s, v = FVal.setV s ∧ s.Nodup
  memSub : ∀ p s, (FKey.node p, FVal.setV s) ∈ d → ∀ k ∈ s,
    d.hasKey k = true ∧ k.segs ≠ [] ∧ k.segs.dropLast = p
  memSup : ∀ p s, (FKey.node p, FVal.setV s) ∈ d → ∀ k, d.hasKey k = true →
    k.segs ≠ [] → k.segs.dropLast = p → k ∉ X → k ∈ s
  anc : ∀ k ∈ d.keysList, k ∉ X →
    (∀ x ∈ X, ¬(segPrefix x.segs k.segs = true ∧ k.segs ≠ x.segs)) →
    ∀ i, 0 < i → i < k.segs.length → d.hasKey (.node (k.segs.take i)) = true

/-- The fastview invariant proper. -/
def Inv (d : FMap α) : Prop := InvX d []

theorem take_length_of_le {β : Type} {s : List β} {i : Nat} (h : i ≤ s.length) :
    (s.take i).length = i := by
  simp [List.length_take]
  omega

theorem take_ne_nil_of_pos {β : Type} {s : List β} {i : Nat} (h0 : 0 < i)
    (h : i ≤ s.length) : s.take i ≠ [] := by
  intro he
  have := congrArg List.length he
  rw [take_length_of_le h] at this
  simp only [List.length_nil] at this
  omega

theorem segPrefix_take (s : List String) (i : Nat) :
    segPrefix (s.take i) s = true := by
  rw [segPrefix_iff]
  exact ⟨s.drop i, (List.take_append_drop i s).symm⟩

theorem dropLast_eq_take (s : List String) :
    s.dropLast = s.take (s.length - 1) := by
  rw [List.dropLast_eq_take]

theorem segPrefix_length_le {p q : List String} (h : segPrefix p q = true) :
    p.length ≤ q.length := by
  obtain ⟨u, hu⟩ := (segPrefix_iff p q).mp h
  rw [hu]
  simp

theorem take_of_segPrefix {p s : List String} (h : segPrefix p s = true) :
    s.take p.length = p := by
  obtain ⟨u, hu⟩ := (segPrefix_iff p s).mp h
  rw [hu, List.take_left]

theorem take_take_of_le {β : Type} (s : List β) {i j : Nat} (h : i ≤ j) :
    (s.take j).take i = s.take i := by
  rw [List.take_take, show min i j = i by omega]

theorem take_succ_of_below {p s : List String} (h : segPrefix p s = true)
    (hlt : p.length < s.length) :
    (s.take (p.length + 1)).dropLast = p ∧ s.take (p.length + 1) ≠ [] ∧
      segPrefix (s.take (p.length + 1)) s = true := by
  refine ⟨?_, take_ne_nil_of_pos (by omega) (by omega), segPrefix_take s _⟩
  have hlen2 : (s.take (p.length + 1)).length = p.length + 1 :=
    take_length_of_le (by omega)
  rw [dropLast_eq_take, hlen2, show p.length + 1 - 1 = p.length from rfl,
    take_take_of_le s (by omega), take_of_segPrefix h]

theorem segPrefix_dropLast (s : List String) (h : s ≠ []) :
    segPrefix s.dropLast s = true := by
  rw [segPrefix_iff]
  exact ⟨[s.getLast h], (List.dropLast_append_getLast h).symm⟩

theorem dropLast_child_iff {s p : List String} (hs : s ≠ []) :
    s.dropLast = p ↔ (segPrefix p s = true ∧ s.length = p.length + 1) := by
  constructor
  · intro h
    subst h
    refine ⟨segPrefix_dropLast s hs, ?_⟩
    have := List.length_dropLast s
    have h2 : s.length ≠ 0 := by simpa [List.length_eq_zero] using hs
    omega
  · rintro ⟨h1, h2⟩
    rw [dropLast_eq_take, h2, show p.length + 1 - 1 = p.length from rfl,
      take_of_segPrefix h1]

/-- Membership in the parent-chain list: exactly the proper nonempty
prefixes of a nonempty path. -/
theorem mem_parentNodes {q : List String} :
    ∀ (n : Nat) (s : List String), s.length ≤ n →
      (q ∈ parentNodes s ↔ ∃ i, 0 < i ∧ i < s.length ∧ q = s.take i) := by
  intro n
  induction n with
  | zero =>
    intro s hn
    have : s = [] := List.length_eq_zero.mp (by omega)
    subst this
    rw [parentNodes_eq]
    simp
  | succ n ih =>
    intro s hn
    rw [parentNodes_eq]
    cases hd : s.dropLast with
    | nil =>
      simp only [List.not_mem_nil, false_iff]
      rintro ⟨i, h0, hlen, htake⟩
      have h1 : s.length ≤ 1 := by
        have := congrArg List.length hd
        rw [List.length_dropLast] at this
        simp at this
        omega
      omega
    | cons p ps =>
      have hlen : (p :: ps).length = s.length - 1 := by
        have := congrArg List.length hd
        rw [List.length_dropLast] at this
        exact this.symm
      have hslen : 2 ≤ s.length := by
        have := congrArg List.length hd
        rw [List.length_dropLast] at this
        simp at this
        omega
      rw [List.mem_cons, ih (p :: ps) (by omega)]
      constructor
      · rintro (h1 | ⟨i, h0, hilen, htake⟩)
        · refine ⟨s.length - 1, by omega, by omega, ?_⟩
          rw [h1, ← hd]
          exact dropLast_eq_take s
        · refine ⟨i, h0, by omega, ?_⟩
          rw [htake, ← hd, dropLast_eq_take, take_take_of_le s (by omega)]
      · rintro ⟨i, h0, hilen, htake⟩
        by_cases hi : i = s.length - 1
        · subst hi
          left
          rw [htake, ← dropLast_eq_take, hd]
        · right
          refine ⟨i, h0, by omega, ?_⟩
          rw [htake, ← hd, dropLast_eq_take, take_take_of_le s (by omega)]

/-- `k` lies strictly below the path `p`. -/
def belowP (p : List String) (k : FKey) : Prop :=
  segPrefix p k.segs = true ∧ k.segs ≠ p

theorem belowP_of_above {p q : List String} {k : FKey}
    (hpq : segPrefix p q = true) (h : belowP q k) : belowP p k := by
  refine ⟨segPrefix_trans hpq h.1, ?_⟩
  intro he
  have h1 := segPrefix_length_le hpq
  have h2 := segPrefix_length_le h.1
  have h3 : k.segs.length = p.length := by rw [he]
  have h4 : q = k.segs := by
    have := take_of_segPrefix h.1
    have h5 : q.length = k.segs.length := by omega
    rw [h5, List.take_length] at this
    exact this.symm
  exact h.2 h4.symm

theorem not_belowP_shorter {p : List String} {k : FKey}
    (h : k.segs.length ≤ p.length) : ¬ belowP p k := by
  rintro ⟨h1, h2⟩
  have h3 := segPrefix_length_le h1
  have h4 : p.length = k.segs.length := by omega
  have := take_of_segPrefix h1
  rw [h4, List.take_length] at this
  exact h2 this

theorem setk_eq_self {d : FMap α} {k : FKey} {v : FVal α}
    (h : d.get? k = some v) : d.setk k v = d := by
  induction d with
  | nil => simp [FMap.get?] at h
  | cons kw t ih =>
    obtain ⟨k', w'⟩ := kw
    by_cases hk : k' = k
    · subst hk
      show (if k' = k' then (k', v) :: t else _) = _
      rw [if_pos rfl]
      have : w' = v := by
        rw [show FMap.get? ((k', w') :: t) k' = some w' by simp [FMap.get?]] at h
        exact Option.some.inj h
      rw [this]
    · show (if k' = k then _ else (k', w') :: FMap.setk t k v) = _
      rw [if_neg hk]
      rw [show FMap.get? ((k', w') :: t) k = FMap.get? t k by
        simp only [FMap.get?, if_neg hk]] at h
      rw [ih h]

/-- Weakening of the invariant in the pending list. -/
theorem InvX_mono {d : FMap α} {X X' : List FKey} (hsub : ∀ x ∈ X, x ∈ X')
    (h : InvX d X) : InvX d X' := by
  refine ⟨h.nodup, h.nonem, h.marker, h.memSub, ?_, ?_⟩
  · intro p s hm k hk h1 h2 h3
    exact h.memSup p s hm k hk h1 h2 (fun hx => h3 (hsub k hx))
  · intro k hk h1 h2 i hi0 hilen
    exact h.anc k hk (fun hx => h1 (hsub k hx))
      (fun x hx => h2 x (hsub x hx)) i hi0 hilen

/-- State during one `_build_metadata` parent chain: `last` is the key
most recently linked downward (the fresh leaf `orig` at the start, then
the node markers as the chain ascends); keys strictly below `last` (and
`last` itself) may be missing markers only above `last`'s level, the
pending fresh leaves `X0` are exempt altogether, and `orig` may be
referenced by a set before it is stored. -/
structure ChainSt (d : FMap α) (X0 : List FKey) (orig last : FKey) : Prop where
  nodup : d.keysList.Nodup
  nonem : ∀ k ∈ d.keysList, k.segs ≠ []
  marker : ∀ p v, (FKey.node p, v) ∈ d → ∃ s, v = FVal.setV s ∧ s.Nodup
  memSub : ∀ p s, (FKey.node p, FVal.setV s) ∈ d → ∀ k ∈ s,
    (d.hasKey k = true ∨ k = orig) ∧ k.segs ≠ [] ∧ k.segs.dropLast = p
  memSup : ∀ p s, (FKey.node p, FVal.setV s) ∈ d → ∀ k, d.hasKey k = true →
    k.segs ≠ [] → k.segs.dropLast = p → k ≠ last → k ∉ X0 → k ∈ s
  ancOut : ∀ k ∈ d.keysList, k ∉ X0 → (∀ x ∈ X0, ¬ belowP x.segs k) →
    k ≠ last → ¬ belowP last.segs k →
    ∀ i, 0 < i → i < k.segs.length → d.hasKey (.node (k.segs.take i)) = true
  ancIn : ∀ k ∈ d.keysList, k ∉ X0 → (∀ x ∈ X0, ¬ belowP x.segs k) →
    k ≠ last → belowP last.segs k →
    ∀ i, last.segs.length ≤ i → i < k.segs.length →
      d.hasKey (.node (k.segs.take i)) = true

/-- Like `InvX`, but the single key `orig` may be referenced by its
parent set without being stored yet (the leaf branch of `__setitem__`
builds metadata before storing the leaf). -/
structure PreSt (d : FMap α) (X0 : List FKey) (orig : FKey) : Prop where
  nodup : d.keysList.Nodup
  nonem : ∀ k ∈ d.keysList, k.segs ≠ []
  marker : ∀ p v, (FKey.node p, v) ∈ d → ∃ s, v = FVal.setV s ∧ s.Nodup
  memSub : ∀ p s, (FKey.node p, FVal.setV s) ∈ d → ∀ k ∈ s,
    (d.hasKey k = true ∨ k = orig) ∧ k.segs ≠ [] ∧ k.segs.dropLast = p
  memSup : ∀ p s, (FKey.node p, FVal.setV s) ∈ d → ∀ k, d.hasKey k = true →
    k.segs ≠ [] → k.segs.dropLast = p → k ∉ X0 → k ∈ s
  anc : ∀ k ∈ d.keysList, k ∉ X0 → (∀ x ∈ X0, ¬ belowP x.segs k) →
    ∀ i, 0 < i → i < k.segs.length → d.hasKey (.node (k.segs.take i)) = true

theorem parentNodes_cons {s p : List String} {ps : List (List String)}
    (h : parentNodes s = p :: ps) :
    s.dropLast = p ∧ ps = parentNodes p ∧ p ≠ [] := by
  rw [parentNodes_eq] at h
  cases hd : s.dropLast with
  | nil => rw [hd] at h; cases h
  | cons a t =>
    rw [hd] at h
    injection h with h1 h2
    exact ⟨h1, h2.symm ▸ (h1 ▸ rfl), by simp [← h1]⟩

theorem segs_length_of_dropLast {s p : List String} (hs : s ≠ [])
    (h : s.dropLast = p) : s.length = p.length + 1 := by
  have h1 := List.length_dropLast s
  have h2 : s.length ≠ 0 := by simpa [List.length_eq_zero] using hs
  rw [h] at h1
  omega

/-- A `_build_metadata` parent chain starting from a key that is already
present, linked and fully covered by markers changes nothing. -/
theorem buildMetaChain_id {d : FMap α} {X0 : List FKey} (hinv : InvX d X0)
    (hX0F : ∀ x ∈ X0, x.isNode = false) :
    ∀ (ps : List (List String)) (last : FKey),
      d.hasKey last = true → last.segs ≠ [] → last ∉ X0 →
      (∀ x ∈ X0, ¬ belowP x.segs last) →
      ps = parentNodes last.segs →
      buildMetaChain d last ps = d := by
  intro ps
  induction ps with
  | nil => intro last _ _ _ _ _; rfl
  | cons p ps ih =>
    intro last hhas hne hnX hnb hps
    obtain ⟨hdl, hpsrec, hpne⟩ := parentNodes_cons hps.symm
    have hlt : last.segs.length = p.length + 1 := segs_length_of_dropLast hne hdl
    have hp0 : 0 < p.length := List.length_pos.mpr hpne
    have hmemk : last ∈ d.keysList := (mem_keysList_iff_hasKey d last).mpr hhas
    have hnbelow : ∀ x ∈ X0, ¬(segPrefix x.segs last.segs = true ∧ last.segs ≠ x.segs) := by
      intro x hx hc
      exact hnb x hx ⟨hc.1, hc.2⟩
    have hancp : d.hasKey (.node (last.segs.take p.length)) = true :=
      hinv.anc last hmemk hnX hnbelow p.length hp0 (by omega)
    have htake : last.segs.take p.length = p := by
      conv_rhs => rw [← hdl, dropLast_eq_take, hlt, Nat.add_sub_cancel]
    rw [htake] at hancp
    obtain ⟨v, hv⟩ := Option.isSome_iff_exists.mp hancp
    obtain ⟨s, hs, hsnd⟩ := hinv.marker p v (FMap.mem_of_get? hv)
    subst hs
    have hmemp : (FKey.node p, FVal.setV s) ∈ d := FMap.mem_of_get? hv
    have hmem_s : last ∈ s :=
      hinv.memSup p s hmemp last hhas hne hdl hnX
    have hstep : buildMetaChain d last (p :: ps) =
        buildMetaChain (d.setk (.node p) (.setV (s.insert last))) (.node p) ps := by
      simp only [buildMetaChain, hv]
    rw [hstep, List.insert_of_mem hmem_s, setk_eq_self hv]
    refine ih (.node p) hancp hpne ?_ ?_ hpsrec
    · intro hc
      have := hX0F _ hc
      simp [FKey.isNode] at this
    · intro x hx hb
      refine hnb x hx ⟨segPrefix_trans hb.1 ?_, ?_⟩
      · show segPrefix p last.segs = true
        rw [← hdl]
        exact segPrefix_dropLast _ hne
      · intro he
        have hxl : x.segs.length ≤ p.length := segPrefix_length_le hb.1
        have hxe : last.segs.length = x.segs.length := by rw [he]
        omega

theorem parentNodes_nil {s : List String} (h : parentNodes s = []) :
    s.dropLast = [] := by
  rw [parentNodes_eq] at h
  cases hd : s.dropLast with
  | nil => rfl
  | cons a t => rw [hd] at h; cases h

/-- The parent chain only ever adds node keys taken from its path list. -/
theorem buildMetaChain_hasKey :
    ∀ (ps : List (List String)) (d : FMap α) (last k : FKey),
      (buildMetaChain d last ps).hasKey k = true ↔
        (d.hasKey k = true ∨ ∃ p ∈ ps, k = FKey.node p) := by
  intro ps
  induction ps with
  | nil => intro d last k; simp [buildMetaChain]
  | cons p ps ih =>
    intro d last k
    cases hg : d.get? (.node p) with
    | none =>
      have hstep : buildMetaChain d last (p :: ps) =
          buildMetaChain (d.setk (.node p) (.setV [last])) (.node p) ps := by
        simp only [buildMetaChain, hg]
      rw [hstep, ih]
      rw [hasKey_setk]
      by_cases hk : k = FKey.node p
      · subst hk
        simp
      · simp only [decide_eq_true_eq, hk, decide_False, Bool.false_or]
        constructor
        · rintro (h1 | h2)
          · exact Or.inl h1
          · exact Or.inr ⟨_, List.mem_cons_of_mem _ h2.choose_spec.1, h2.choose_spec.2⟩
        · rintro (h1 | ⟨q, hq, hkq⟩)
          · exact Or.inl h1
          · rcases List.mem_cons.mp hq with h | h
            · exact absurd (hkq.trans (by rw [h])) hk
            · exact Or.inr ⟨q, h, hkq⟩
    | some v =>
      cases v with
      | setV s =>
        have hstep : buildMetaChain d last (p :: ps) =
            buildMetaChain (d.setk (.node p) (.setV (s.insert last))) (.node p) ps := by
          simp only [buildMetaChain, hg]
        have hp : d.hasKey (.node p) = true := by
          simp [FMap.hasKey, hg]
        rw [hstep, ih]
        rw [hasKey_setk]
        by_cases hk : k = FKey.node p
        · subst hk
          simp [hp]
        · simp only [decide_eq_true_eq, hk, decide_False, Bool.false_or]
          constructor
          · rintro (h1 | h2)
            · exact Or.inl h1
            · exact Or.inr ⟨_, List.mem_cons_of_mem _ h2.choose_spec.1, h2.choose_spec.2⟩
          · rintro (h1 | ⟨q, hq, hkq⟩)
            · exact Or.inl h1
            · rcases List.mem_cons.mp hq with h | h
              · exact absurd (hkq.trans (by rw [h])) hk
              · exact Or.inr ⟨q, h, hkq⟩
      | leafV a =>
        have hstep : buildMetaChain d last (p :: ps) =
            buildMetaChain d (.node p) ps := by
          simp only [buildMetaChain, hg]
        have hp : d.hasKey (.node p) = true := by
          simp [FMap.hasKey, hg]
        rw [hstep, ih]
        constructor
        · rintro (h1 | h2)
          · exact Or.inl h1
          · exact Or.inr ⟨_, List.mem_cons_of_mem _ h2.choose_spec.1, h2.choose_spec.2⟩
        · rintro (h1 | ⟨q, hq, hkq⟩)
          · exact Or.inl h1
          · rcases List.mem_cons.mp hq with h | h
            · subst h; rw [hkq]; exact Or.inl hp
            · exact Or.inr ⟨q, h, hkq⟩
      | noneV =>
        have hstep : buildMetaChain d last (p :: ps) =
            buildMetaChain d (.node p) ps := by
          simp only [buildMetaChain, hg]
        have hp : d.hasKey (.node p) = true := by
          simp [FMap.hasKey, hg]
        rw [hstep, ih]
        constructor
        · rintro (h1 | h2)
          · exact Or.inl h1
          · exact Or.inr ⟨_, List.mem_cons_of_mem _ h2.choose_spec.1, h2.choose_spec.2⟩
        · rintro (h1 | ⟨q, hq, hkq⟩)
          · exact Or.inl h1
          · rcases List.mem_cons.mp hq with h | h
            · subst h; rw [hkq]; exact Or.inl hp
            · exact Or.inr ⟨q, h, hkq⟩

/-- The parent chain never removes an element from an existing child set. -/
theorem buildMetaChain_setV_mono :
    ∀ (ps : List (List String)) (d : FMap α) (last : FKey) (q : List String)
      (s : List FKey), d.get? (.node q) = some (.setV s) →
      ∃ s', (buildMetaChain d last ps).get? (.node q) = some (.setV s') ∧
        ∀ x ∈ s, x ∈ s' := by
  intro ps
  induction ps with
  | nil =>
    intro d last q s hq
    exact ⟨s, hq, fun x hx => hx⟩
  | cons p ps ih =>
    intro d last q s hq
    cases hg : d.get? (.node p) with
    | none =>
      have hstep : buildMetaChain d last (p :: ps) =
          buildMetaChain (d.setk (.node p) (.setV [last])) (.node p) ps := by
        simp only [buildMetaChain, hg]
      have hne : FKey.node q ≠ FKey.node p := by
        intro h; rw [h, hg] at hq; cases hq
      rw [hstep]
      exact ih _ _ q s (by rw [FMap.get?_setk_ne _ _ hne]; exact hq)
    | some v =>
      cases v with
      | setV s0 =>
        have hstep : buildMetaChain d last (p :: ps) =
            buildMetaChain (d.setk (.node p) (.setV (s0.insert last))) (.node p) ps := by
          simp only [buildMetaChain, hg]
        rw [hstep]
        by_cases hqp : q = p
        · subst hqp
          have hs0 : s0 = s := FVal.setV.inj (Option.some.inj (hg.symm.trans hq))
          subst hs0
          obtain ⟨s', h1, h2⟩ := ih (d.setk (.node q) (.setV (s0.insert last)))
            (.node q) q (s0.insert last) (by rw [FMap.get?_setk_self])
          exact ⟨s', h1, fun x hx => h2 x (List.mem_insert_of_mem hx)⟩
        · have hne : FKey.node q ≠ FKey.node p := by
            intro h; injection h with h1; exact hqp h1
          exact ih _ _ q s (by rw [FMap.get?_setk_ne _ _ hne]; exact hq)
      | leafV a =>
        have hstep : buildMetaChain d last (p :: ps) =
            buildMetaChain d (.node p) ps := by
          simp only [buildMetaChain, hg]
        rw [hstep]
        exact ih _ _ q s hq
      | noneV =>
        have hstep : buildMetaChain d last (p :: ps) =
            buildMetaChain d (.node p) ps := by
          simp only [buildMetaChain, hg]
        rw [hstep]
        exact ih _ _ q s hq

theorem mem_setk_cases {d : FMap α} (hnd : d.keysList.Nodup) {k q : FKey}
    {v w : FVal α} (h : (k, v) ∈ d.setk q w) :
    (k = q ∧ v = w) ∨ ((k, v) ∈ d ∧ k ≠ q) := by
  by_cases hk : k = q
  · subst hk
    exact Or.inl ⟨rfl, (mem_setk_self_iff hnd).mp h⟩
  · exact Or.inr ⟨(mem_setk_of_ne hk).mp h, hk⟩

/-- Main ADD-side lemma: one `_build_metadata` parent chain started at a
leaf (or at a node marker of its ancestor chain) restores the invariant,
with the originating leaf `orig` possibly still unstored. -/
theorem buildMetaChain_preSt {X0 : List FKey} {orig : FKey}
    (hX0F : ∀ x ∈ X0, x.isNode = false) :
    ∀ (ps : List (List String)) (d : FMap α) (last : FKey),
      ChainSt d X0 orig last →
      last.segs ≠ [] →
      last ∉ X0 →
      (d.hasKey last = true ∨ last = orig) →
      (∀ x ∈ X0, ¬ belowP x.segs last) →
      ps = parentNodes last.segs →
      PreSt (buildMetaChain d last ps) X0 orig := by
  intro ps
  induction ps with
  | nil =>
    intro d last hst hne hnX hpres hnb hps
    have hdl : last.segs.dropLast = [] := parentNodes_nil hps.symm
    have hlen : last.segs.length = 1 := by
      have := segs_length_of_dropLast hne hdl
      simpa using this
    show PreSt d X0 orig
    refine ⟨hst.nodup, hst.nonem, hst.marker, hst.memSub, ?_, ?_⟩
    · intro p s hm k hk hkne hkdl hkX
      by_cases hkl : k = last
      · exfalso
        subst hkl
        have hp : p = [] := hkdl.symm.trans hdl
        subst hp
        have hmk : (FKey.node []) ∈ d.keysList :=
          List.mem_map_of_mem Prod.fst hm
        exact hst.nonem _ hmk rfl
      · exact hst.memSup p s hm k hk hkne hkdl hkl hkX
    · intro k hk hkX hknb i hi0 hilen
      by_cases hkl : k = last
      · subst hkl
        rw [hlen] at hilen
        omega
      · by_cases hb : belowP last.segs k
        · exact hst.ancIn k hk hkX hknb hkl hb i (by omega) hilen
        · exact hst.ancOut k hk hkX hknb hkl hb i hi0 hilen
  | cons p ps ih =>
    intro d last hst hne hnX hpres hnb hps
    obtain ⟨hdl, hpsrec, hpne⟩ := parentNodes_cons hps.symm
    have hlt : last.segs.length = p.length + 1 := segs_length_of_dropLast hne hdl
    have hp0 : 0 < p.length := List.length_pos.mpr hpne
    have hppre : segPrefix p last.segs = true := by
      rw [← hdl]
      exact segPrefix_dropLast _ hne
    have hbpl : belowP p last := by
      refine ⟨hppre, ?_⟩
      intro he
      rw [he] at hlt
      omega
    have hnX' : FKey.node p ∉ X0 := by
      intro hc
      have := hX0F _ hc
      simp [FKey.isNode] at this
    have hnb' : ∀ x ∈ X0, ¬ belowP x.segs (FKey.node p) := by
      intro x hx hb
      refine hnb x hx ⟨segPrefix_trans hb.1 hppre, ?_⟩
      intro he
      have hxl : x.segs.length ≤ p.length := segPrefix_length_le hb.1
      have hxe : last.segs.length = x.segs.length := by rw [he]
      omega
    have htakep : ∀ k : FKey, k.segs.dropLast = p → k.segs ≠ [] →
        k.segs.take p.length = p := by
      intro k hkdl hkne
      have hklen : k.segs.length = p.length + 1 := segs_length_of_dropLast hkne hkdl
      conv_rhs => rw [← hkdl, dropLast_eq_take, hklen, Nat.add_sub_cancel]
    have hbelow_take : ∀ k : FKey, belowP p k → k.segs.take p.length = p := by
      intro k hb
      exact take_of_segPrefix hb.1
    cases hg : d.get? (.node p) with
    | some v =>
      cases v with
      | leafV a =>
        exfalso
        obtain ⟨s0, hs0, _⟩ := hst.marker p _ (FMap.mem_of_get? hg)
        cases hs0
      | noneV =>
        exfalso
        obtain ⟨s0, hs0, _⟩ := hst.marker p _ (FMap.mem_of_get? hg)
        cases hs0
      | setV s =>
        have hstep : buildMetaChain d last (p :: ps) =
            buildMetaChain (d.setk (.node p) (.setV (s.insert last))) (.node p) ps := by
          simp only [buildMetaChain, hg]
        rw [hstep]
        obtain ⟨s0, hs0, hsnd⟩ := hst.marker p _ (FMap.mem_of_get? hg)
        have hss0 : s0 = s := (FVal.setV.inj hs0).symm
        subst hss0
        have hpk : d.hasKey (.node p) = true := by
          simp [FMap.hasKey, hg]
        have hkeys : (d.setk (.node p) (.setV (s0.insert last))).keysList = d.keysList :=
          keysList_setk_of_hasKey _ hpk
        have hhk : ∀ k, (d.setk (.node p) (.setV (s0.insert last))).hasKey k = true ↔
            d.hasKey k = true := by
          intro k
          rw [hasKey_setk]
          by_cases hkp : k = FKey.node p
          · subst hkp
            simp [hpk]
          · simp [hkp]
        have hmem0 : (FKey.node p, FVal.setV s0) ∈ d := FMap.mem_of_get? hg
        refine ih _ (.node p) ⟨?_, ?_, ?_, ?_, ?_, ?_, ?_⟩ hpne hnX'
          (Or.inl ((hhk _).mpr hpk)) hnb' hpsrec
        · rw [hkeys]
          exact hst.nodup
        · intro k hk
          rw [hkeys] at hk
          exact hst.nonem k hk
        · intro q v hm
          rcases mem_setk_cases hst.nodup hm with ⟨hqp, hv⟩ | ⟨hm', _⟩
          · exact ⟨s0.insert last, hv, List.Nodup.insert hsnd⟩
          · exact hst.marker q v hm'
        · intro q sq hm k hk
          rcases mem_setk_cases hst.nodup hm with ⟨hqp, hv⟩ | ⟨hm', _⟩
          · have hq : q = p := FKey.node.inj hqp
            subst hq
            have hsq : sq = s0.insert last := FVal.setV.inj hv
            subst hsq
            rcases List.mem_insert_iff.mp hk with hkl | hks
            · subst hkl
              refine ⟨?_, hne, hdl⟩
              rcases hpres with h1 | h1
              · exact Or.inl ((hhk _).mpr h1)
              · exact Or.inr h1
            · obtain ⟨h1, h2, h3⟩ := hst.memSub q s0 hmem0 k hks
              refine ⟨?_, h2, h3⟩
              rcases h1 with h1 | h1
              · exact Or.inl ((hhk _).mpr h1)
              · exact Or.inr h1
          · obtain ⟨h1, h2, h3⟩ := hst.memSub q sq hm' k hk
            refine ⟨?_, h2, h3⟩
            rcases h1 with h1 | h1
            · exact Or.inl ((hhk _).mpr h1)
            · exact Or.inr h1
        · intro q sq hm k hk hkne hkdl hklast hkX
          have hkd : d.hasKey k = true := (hhk _).mp hk
          rcases mem_setk_cases hst.nodup hm with ⟨hqp, hv⟩ | ⟨hm', hqne⟩
          · have hq : q = p := FKey.node.inj hqp
            subst hq
            have hsq : sq = s0.insert last := FVal.setV.inj hv
            subst hsq
            by_cases hkl : k = last
            · subst hkl
              exact List.mem_insert_self _ _
            · exact List.mem_insert_of_mem
                (hst.memSup q s0 hmem0 k hkd hkne hkdl hkl hkX)
          · by_cases hkl : k = last
            · exfalso
              subst hkl
              exact hqne (by rw [← hkdl, hdl])
            · exact hst.memSup q sq hm' k hkd hkne hkdl hkl hkX
        · intro k hk hkX hknb hkne hbp i hi0 hilen
          rw [hkeys] at hk
          have hkl : k ≠ last := by
            intro he
            subst he
            exact hbp hbpl
          have hnbl : ¬ belowP last.segs k := by
            intro hb
            exact hbp (belowP_of_above hppre hb)
          exact (hhk _).mpr (hst.ancOut k hk hkX hknb hkl hnbl i hi0 hilen)
        · intro k hk hkX hknb hkne hbp i hile hilen
          rw [hkeys] at hk
          have hile' : p.length ≤ i := hile
          by_cases hi : i = p.length
          · rw [hi, hbelow_take k hbp]
            exact (hhk _).mpr hpk
          · by_cases hkl : k = last
            · exfalso
              subst hkl
              omega
            · by_cases hbl : belowP last.segs k
              · exact (hhk _).mpr (hst.ancIn k hk hkX hknb hkl hbl i (by omega) hilen)
              · exact (hhk _).mpr (hst.ancOut k hk hkX hknb hkl hbl i (by omega) hilen)
    | none =>
      have hstep : buildMetaChain d last (p :: ps) =
          buildMetaChain (d.setk (.node p) (.setV [last])) (.node p) ps := by
        simp only [buildMetaChain, hg]
      rw [hstep]
      have hpk : d.hasKey (.node p) = false := by
        simp [FMap.hasKey, hg]
      have hkeys : (d.setk (.node p) (.setV [last])).keysList =
          d.keysList ++ [FKey.node p] := keysList_setk_absent _ hpk
      have hhk : ∀ k, (d.setk (.node p) (.setV [last])).hasKey k = true ↔
          (d.hasKey k = true ∨ k = FKey.node p) := by
        intro k
        rw [hasKey_setk]
        by_cases hkp : k = FKey.node p
        · subst hkp
          simp
        · simp [hkp]
      refine ih _ (.node p) ⟨?_, ?_, ?_, ?_, ?_, ?_, ?_⟩ hpne hnX'
        (Or.inl ((hhk _).mpr (Or.inr rfl))) hnb' hpsrec
      · rw [hkeys]
        rw [List.nodup_append]
        refine ⟨hst.nodup, List.nodup_singleton _, ?_⟩
        intro x hx hxp
        rw [List.mem_singleton] at hxp
        subst hxp
        rw [mem_keysList_iff_hasKey, hpk] at hx
        cases hx
      · intro k hk
        rw [hkeys] at hk
        rcases List.mem_append.mp hk with h | h
        · exact hst.nonem k h
        · rw [List.mem_singleton] at h
          subst h
          exact hpne
      · intro q v hm
        rcases mem_setk_cases hst.nodup hm with ⟨hqp, hv⟩ | ⟨hm', _⟩
        · exact ⟨[last], hv, List.nodup_singleton _⟩
        · exact hst.marker q v hm'
      · intro q sq hm k hk
        rcases mem_setk_cases hst.nodup hm with ⟨hqp, hv⟩ | ⟨hm', _⟩
        · have hq : q = p := FKey.node.inj hqp
          subst hq
          have hsq : sq = [last] := FVal.setV.inj hv
          subst hsq
          rw [List.mem_singleton] at hk
          subst hk
          refine ⟨?_, hne, hdl⟩
          rcases hpres with h1 | h1
          · exact Or.inl ((hhk _).mpr (Or.inl h1))
          · exact Or.inr h1
        · obtain ⟨h1, h2, h3⟩ := hst.memSub q sq hm' k hk
          refine ⟨?_, h2, h3⟩
          rcases h1 with h1 | h1
          · exact Or.inl ((hhk _).mpr (Or.inl h1))
          · exact Or.inr h1
      · intro q sq hm k hk hkne hkdl hklast hkX
        have hkd : d.hasKey k = true := by
          rcases (hhk _).mp hk with h | h
          · exact h
          · exact absurd h hklast
        rcases mem_setk_cases hst.nodup hm with ⟨hqp, hv⟩ | ⟨hm', hqne⟩
        · have hq : q = p := FKey.node.inj hqp
          subst hq
          have hsq : sq = [last] := FVal.setV.inj hv
          subst hsq
          rw [List.mem_singleton]
          by_cases hkl : k = last
          · exact hkl
          · exfalso
            have hklen : k.segs.length = q.length + 1 :=
              segs_length_of_dropLast hkne hkdl
            have hknbl : ¬ belowP last.segs k := by
              apply not_belowP_shorter
              omega
            have hknbX : ∀ x ∈ X0, ¬ belowP x.segs k := by
              intro x hx hb
              have hxlt : x.segs.length < k.segs.length := by
                have hle := segPrefix_length_le hb.1
                rcases Nat.lt_or_ge x.segs.length k.segs.length with h | h
                · exact h
                · exfalso
                  have hxk : k.segs.take x.segs.length = x.segs :=
                    take_of_segPrefix hb.1
                  have hxe : x.segs.length = k.segs.length := by omega
                  rw [hxe, List.take_length] at hxk
                  exact hb.2 hxk
              refine hnb x hx ⟨?_, ?_⟩
              · have hxk : k.segs.take x.segs.length = x.segs :=
                  take_of_segPrefix hb.1
                have hxp : q.take x.segs.length = x.segs := by
                  rw [← htakep k hkdl hkne, take_take_of_le _ (by omega), hxk]
                rw [← hxp]
                exact segPrefix_trans (segPrefix_take q x.segs.length) hppre
              · intro he
                have : last.segs.length = x.segs.length := by rw [he]
                omega
            have hkmem : k ∈ d.keysList := (mem_keysList_iff_hasKey d k).mpr hkd
            have := hst.ancOut k hkmem hkX hknbX hkl hknbl q.length hp0 (by omega)
            rw [htakep k hkdl hkne] at this
            rw [hpk] at this
            cases this
        · by_cases hkl : k = last
          · exfalso
            subst hkl
            exact hqne (by rw [← hkdl, hdl])
          · exact hst.memSup q sq hm' k hkd hkne hkdl hkl hkX
      · intro k hk hkX hknb hkne hbp i hi0 hilen
        rw [hkeys] at hk
        have hk' : k ∈ d.keysList := by
          rcases List.mem_append.mp hk with h | h
          · exact h
          · rw [List.mem_singleton] at h
            exact absurd h hkne
        have hkl : k ≠ last := by
          intro he
          subst he
          exact hbp hbpl
        have hnbl : ¬ belowP last.segs k := by
          intro hb
          exact hbp (belowP_of_above hppre hb)
        exact (hhk _).mpr (Or.inl (hst.ancOut k hk' hkX hknb hkl hnbl i hi0 hilen))
      · intro k hk hkX hknb hkne hbp i hile hilen
        rw [hkeys] at hk
        have hk' : k ∈ d.keysList := by
          rcases List.mem_append.mp hk with h | h
          · exact h
          · rw [List.mem_singleton] at h
            exact absurd h hkne
        have hile' : p.length ≤ i := hile
        by_cases hi : i = p.length
        · rw [hi, hbelow_take k hbp]
          exact (hhk _).mpr (Or.inr rfl)
        · by_cases hkl : k = last
          · exfalso
            subst hkl
            omega
          · by_cases hbl : belowP last.segs k
            · exact (hhk _).mpr
                (Or.inl (hst.ancIn k hk' hkX hknb hkl hbl i (by omega) hilen))
            · exact (hhk _).mpr
                (Or.inl (hst.ancOut k hk' hkX hknb hkl hbl i (by omega) hilen))

theorem belowP_length_lt {p : List String} {k : FKey} (h : belowP p k) :
    p.length < k.segs.length := by
  have hle := segPrefix_length_le h.1
  rcases Nat.lt_or_ge p.length k.segs.length with h1 | h1
  · exact h1
  · exfalso
    have hpk : k.segs.take p.length = p := take_of_segPrefix h.1
    have hpe : p.length = k.segs.length := by omega
    rw [hpe, List.take_length] at hpk
    exact h.2 hpk

/-- When the originating leaf is in fact stored, the relaxed invariant
collapses to the plain one. -/
theorem preSt_invX {d : FMap α} {X0 : List FKey} {orig : FKey}
    (hp : PreSt d X0 orig) (hpres : d.hasKey orig = true) : InvX d X0 := by
  refine ⟨hp.nodup, hp.nonem, hp.marker, ?_, hp.memSup, hp.anc⟩
  intro p s hm k hk
  obtain ⟨h1, h2, h3⟩ := hp.memSub p s hm k hk
  refine ⟨?_, h2, h3⟩
  rcases h1 with h1 | h1
  · exact h1
  · rw [h1]
    exact hpres

/-- Entering a `_build_metadata` chain from a fully consistent store. -/
theorem chainSt_of_invX {d : FMap α} {X0 : List FKey} {orig : FKey}
    (hinv : InvX d (orig :: X0)) (hone : orig.segs ≠ [])
    (hbelow : ∀ k ∈ d.keysList, belowP orig.segs k →
      ∀ i, 0 < i → i < k.segs.length → d.hasKey (.node (k.segs.take i)) = true) :
    ChainSt d X0 orig orig := by
  refine ⟨hinv.nodup, hinv.nonem, hinv.marker, ?_, ?_, ?_, ?_⟩
  · intro p s hm k hk
    obtain ⟨h1, h2, h3⟩ := hinv.memSub p s hm k hk
    exact ⟨Or.inl h1, h2, h3⟩
  · intro p s hm k hk h1 h2 h3 h4
    refine hinv.memSup p s hm k hk h1 h2 ?_
    intro hc
    rcases List.mem_cons.mp hc with h | h
    · exact h3 h
    · exact h4 h
  · intro k hk hkX hknb hkne hknb2 i h1 h2
    refine hinv.anc k hk ?_ ?_ i h1 h2
    · intro hc
      rcases List.mem_cons.mp hc with h | h
      · exact hkne h
      · exact hkX h
    · intro x hx hc
      rcases List.mem_cons.mp hx with h | h
      · exact hknb2 (h ▸ ⟨hc.1, hc.2⟩)
      · exact hknb x h ⟨hc.1, hc.2⟩
  · intro k hk hkX hknb hkne hb i hile h2
    have hi0 : 0 < i := by
      have h3 : 0 < orig.segs.length := List.length_pos.mpr hone
      omega
    exact hbelow k hk hb i hi0 h2

/-- The first chain step links the leaf into its direct parent set, and
the later steps never remove it. -/
theorem buildMetaChain_link {d : FMap α} {orig : FKey} {p : List String}
    {ps : List (List String)}
    (hmk : ∀ v, d.get? (.node p) = some v → ∃ s0, v = FVal.setV s0) :
    ∃ s, (buildMetaChain d orig (p :: ps)).get? (.node p) = some (.setV s) ∧
      orig ∈ s := by
  cases hg : d.get? (.node p) with
  | none =>
    have hstep : buildMetaChain d orig (p :: ps) =
        buildMetaChain (d.setk (.node p) (.setV [orig])) (.node p) ps := by
      simp only [buildMetaChain, hg]
    rw [hstep]
    obtain ⟨s', h1, h2⟩ := buildMetaChain_setV_mono ps
      (d.setk (.node p) (.setV [orig])) (.node p) p [orig]
      (by rw [FMap.get?_setk_self])
    exact ⟨s', h1, h2 orig (List.mem_singleton.mpr rfl)⟩
  | some v =>
    obtain ⟨s0, hs0⟩ := hmk v hg
    subst hs0
    have hstep : buildMetaChain d orig (p :: ps) =
        buildMetaChain (d.setk (.node p) (.setV (s0.insert orig))) (.node p) ps := by
      simp only [buildMetaChain, hg]
    rw [hstep]
    obtain ⟨s', h1, h2⟩ := buildMetaChain_setV_mono ps
      (d.setk (.node p) (.setV (s0.insert orig))) (.node p) p (s0.insert orig)
      (by rw [FMap.get?_setk_self])
    exact ⟨s', h1, h2 orig (List.mem_insert_self _ _)⟩

/-- Storing the new leaf after its metadata chain has been built
restores the full invariant (the leaf branch of `__setitem__` stores
the leaf last). -/
theorem preSt_setk_inv {d : FMap α} {orig : FKey} {a : α}
    (hp : PreSt d [] orig) (horigL : orig.isNode = false)
    (hne : orig.segs ≠ [])
    (hanc : ∀ i, 0 < i → i < orig.segs.length →
      d.hasKey (.node (orig.segs.take i)) = true)
    (hlink : 2 ≤ orig.segs.length → ∃ s,
      d.get? (.node orig.segs.dropLast) = some (.setV s) ∧ orig ∈ s) :
    Inv (d.setk orig (.leafV a)) := by
  have hnodeneq : ∀ q : List String, FKey.node q ≠ orig := by
    intro q hq
    rw [← hq] at horigL
    simp [FKey.isNode] at horigL
  have hhk : ∀ k, (d.setk orig (.leafV a)).hasKey k = true ↔
      (d.hasKey k = true ∨ k = orig) := by
    intro k
    rw [hasKey_setk]
    by_cases hk : k = orig
    · subst hk
      simp
    · simp [hk]
  refine ⟨?_, ?_, ?_, ?_, ?_, ?_⟩
  · cases hpres : d.hasKey orig with
    | true =>
      rw [keysList_setk_of_hasKey _ hpres]
      exact hp.nodup
    | false =>
      rw [keysList_setk_absent _ hpres, List.nodup_append]
      refine ⟨hp.nodup, List.nodup_singleton _, ?_⟩
      intro x hx hxo
      rw [List.mem_singleton] at hxo
      subst hxo
      rw [mem_keysList_iff_hasKey, hpres] at hx
      cases hx
  · intro k hk
    rw [mem_keysList_iff_hasKey, hhk] at hk
    rcases hk with hk | hk
    · exact hp.nonem k ((mem_keysList_iff_hasKey d k).mpr hk)
    · subst hk
      exact hne
  · intro q v hm
    rcases mem_setk_cases hp.nodup hm with ⟨hqo, _⟩ | ⟨hm', _⟩
    · exact absurd hqo (hnodeneq q)
    · exact hp.marker q v hm'
  · intro q sq hm k hk
    rcases mem_setk_cases hp.nodup hm with ⟨hqo, _⟩ | ⟨hm', _⟩
    · exact absurd hqo (hnodeneq q)
    · obtain ⟨h1, h2, h3⟩ := hp.memSub q sq hm' k hk
      refine ⟨?_, h2, h3⟩
      rcases h1 with h1 | h1
      · exact (hhk _).mpr (Or.inl h1)
      · exact (hhk _).mpr (Or.inr h1)
  · intro q sq hm k hk hkne hkdl _
    rcases mem_setk_cases hp.nodup hm with ⟨hqo, _⟩ | ⟨hm', _⟩
    · exact absurd hqo (hnodeneq q)
    · rcases (hhk _).mp hk with hkd | hkd
      · exact hp.memSup q sq hm' k hkd hkne hkdl (List.not_mem_nil k)
      · subst hkd
        have hq2 : 2 ≤ k.segs.length := by
          have hqne : q ≠ [] := by
            intro hq
            subst hq
            have hmk : (FKey.node []) ∈ d.keysList :=
              List.mem_map_of_mem Prod.fst hm'
            exact hp.nonem _ hmk rfl
          have := segs_length_of_dropLast hkne hkdl
          have hq0 : 0 < q.length := List.length_pos.mpr hqne
          omega
        obtain ⟨s0, hs0, hos0⟩ := hlink hq2
        rw [hkdl] at hs0
        have : FVal.setV sq = FVal.setV s0 :=
          Option.some.inj ((FMap.get?_eq_some_of_mem hp.nodup hm').symm.trans hs0)
        rw [FVal.setV.inj this]
        exact hos0
  · intro k hk _ _ i hi0 hilen
    rw [mem_keysList_iff_hasKey, hhk] at hk
    rcases hk with hk | hk
    · have := hp.anc k ((mem_keysList_iff_hasKey d k).mpr hk)
        (List.not_mem_nil k) (fun x hx => absurd hx (List.not_mem_nil x)) i hi0 hilen
      exact (hhk _).mpr (Or.inl this)
    · subst hk
      exact (hhk _).mpr (Or.inl (hanc i hi0 hilen))

/-- The leaf branch of `__setitem__` after its deletions: building the
metadata chain, then storing the leaf, preserves the invariant. -/
theorem buildMeta1_setk_inv {d : FMap α} {orig : FKey} {a : α}
    (hinv : Inv d) (horigL : orig.isNode = false) (hne : orig.segs ≠ []) :
    Inv ((buildMeta1 d orig).setk orig (.leafV a)) := by
  have hch : ChainSt d [] orig orig := chainSt_of_invX
    (InvX_mono (by intro x hx; exact absurd hx (List.not_mem_nil x)) hinv) hne
    (fun k hk hb i h1 h2 => hinv.anc k hk (List.not_mem_nil k)
      (fun x hx => absurd hx (List.not_mem_nil x)) i h1 h2)
  have hb1 : buildMeta1 d orig = buildMetaChain d orig (parentNodes orig.segs) := by
    simp [buildMeta1, horigL]
  have hpre : PreSt (buildMetaChain d orig (parentNodes orig.segs)) [] orig :=
    buildMetaChain_preSt (fun x hx => absurd hx (List.not_mem_nil x))
      (parentNodes orig.segs) d orig hch hne (List.not_mem_nil orig)
      (Or.inr rfl) (fun x hx => absurd hx (List.not_mem_nil x)) rfl
  rw [hb1]
  refine preSt_setk_inv hpre horigL hne ?_ ?_
  · intro i h1 h2
    rw [buildMetaChain_hasKey]
    refine Or.inr ⟨orig.segs.take i, ?_, rfl⟩
    exact (mem_parentNodes orig.segs.length orig.segs (le_refl _)).mpr ⟨i, h1, h2, rfl⟩
  · intro h2le
    cases hpn : parentNodes orig.segs with
    | nil =>
      exfalso
      have hd0 := parentNodes_nil hpn
      have h3 := List.length_dropLast orig.segs
      rw [hd0] at h3
      simp only [List.length_nil] at h3
      omega
    | cons p ps =>
      obtain ⟨hdl, _, _⟩ := parentNodes_cons hpn
      rw [hdl]
      exact buildMetaChain_link (fun v hv => by
        obtain ⟨s0, hs0, _⟩ := hinv.marker p v (FMap.mem_of_get? hv)
        exact ⟨s0, hs0⟩)

/-- State during the metadata pass of the mapping branch of
`__setitem__` (and of `update`): the fresh leaves still awaiting their
metadata chains are stored, pairwise prefix-free, and every older key
sitting below one of them already has its full marker chain. -/
structure AddSt (d : FMap α) (X : List FKey) : Prop where
  inv : InvX d X
  pendPresent : ∀ x ∈ X, d.hasKey x = true
  pendLeaf : ∀ x ∈ X, x.isNode = false
  pendNonem : ∀ x ∈ X, x.segs ≠ []
  pendFree : ∀ x ∈ X, ∀ y ∈ X, ¬ belowP x.segs y
  pendNodup : X.Nodup
  belowAnc : ∀ k ∈ d.keysList, ∀ x ∈ X, belowP x.segs k →
    ∀ i, 0 < i → i < k.segs.length → d.hasKey (.node (k.segs.take i)) = true

/-- One `_build_metadata` chain discharges the head pending leaf. -/
theorem buildMeta1_addSt {d : FMap α} {x : FKey} {X : List FKey}
    (h : AddSt d (x :: X)) : AddSt (buildMeta1 d x) X := by
  have hxL : x.isNode = false := h.pendLeaf x (List.mem_cons_self x X)
  have hxNe : x.segs ≠ [] := h.pendNonem x (List.mem_cons_self x X)
  have hxP : d.hasKey x = true := h.pendPresent x (List.mem_cons_self x X)
  have hxX : x ∉ X := (List.nodup_cons.mp h.pendNodup).1
  have hXF : ∀ y ∈ X, y.isNode = false := fun y hy =>
    h.pendLeaf y (List.mem_cons_of_mem _ hy)
  have hnb : ∀ y ∈ X, ¬ belowP y.segs x := fun y hy =>
    h.pendFree y (List.mem_cons_of_mem _ hy) x (List.mem_cons_self _ _)
  have hch : ChainSt d X x x := chainSt_of_invX h.inv hxNe
    (fun k hk hb i h1 h2 => h.belowAnc k hk x (List.mem_cons_self _ _) hb i h1 h2)
  have hb1 : buildMeta1 d x = buildMetaChain d x (parentNodes x.segs) := by
    simp [buildMeta1, hxL]
  have hpre : PreSt (buildMetaChain d x (parentNodes x.segs)) X x :=
    buildMetaChain_preSt hXF (parentNodes x.segs) d x hch hxNe hxX (Or.inl hxP) hnb rfl
  have hpost : ∀ k, (buildMetaChain d x (parentNodes x.segs)).hasKey k = true ↔
      (d.hasKey k = true ∨ ∃ p ∈ parentNodes x.segs, k = FKey.node p) :=
    fun k => buildMetaChain_hasKey _ d x k
  have hinv' : InvX (buildMetaChain d x (parentNodes x.segs)) X :=
    preSt_invX hpre ((hpost x).mpr (Or.inl hxP))
  rw [hb1]
  refine ⟨hinv', ?_, hXF, ?_, ?_, ?_, ?_⟩
  · intro y hy
    exact (hpost y).mpr (Or.inl (h.pendPresent y (List.mem_cons_of_mem _ hy)))
  · exact fun y hy => h.pendNonem y (List.mem_cons_of_mem _ hy)
  · exact fun y hy z hz =>
      h.pendFree y (List.mem_cons_of_mem _ hy) z (List.mem_cons_of_mem _ hz)
  · exact (List.nodup_cons.mp h.pendNodup).2
  · intro k hk y hy hb i h1 h2
    rw [mem_keysList_iff_hasKey, hpost] at hk
    rcases hk with hk | ⟨p, hp, hkp⟩
    · exact (hpost _).mpr (Or.inl (h.belowAnc k
        ((mem_keysList_iff_hasKey d k).mpr hk) y (List.mem_cons_of_mem _ hy)
        hb i h1 h2))
    · exfalso
      subst hkp
      obtain ⟨j, hj0, hjlen, hjp⟩ :=
        (mem_parentNodes x.segs.length x.segs (le_refl _)).mp hp
      subst hjp
      refine h.pendFree y (List.mem_cons_of_mem _ hy) x
        (List.mem_cons_self _ _) ⟨?_, ?_⟩
      · exact segPrefix_trans hb.1 (segPrefix_take x.segs j)
      · intro he
        have h3 : y.segs.length < (x.segs.take j).length := belowP_length_lt hb
        have h4 : (x.segs.take j).length = j := take_length_of_le (by omega)
        have h5 : x.segs.length = y.segs.length := by rw [he]
        omega

/-- `_build_metadata(fullkeys)` discharges all the pending leaves. -/
theorem buildMetaList_inv :
    ∀ (X : List FKey) (d : FMap α), AddSt d X → Inv (buildMetaList d X) := by
  intro X
  induction X with
  | nil =>
    intro d h
    exact h.inv
  | cons x X ih =>
    intro d h
    show Inv (List.foldl buildMeta1 d (x :: X))
    rw [List.foldl_cons]
    exact ih _ (buildMeta1_addSt h)

/-- Storing a leaf entry, marked pending, keeps the generalized
invariant (one step of the merge fold of the mapping branch). -/
theorem invX_setk_pending_leaf {d : FMap α} {X : List FKey} {p : List String}
    {a : α} (hinv : InvX d X) (hpne : p ≠ []) :
    InvX (d.setk (.leaf p) (.leafV a)) (X ++ [FKey.leaf p]) := by
  have hhk : ∀ k, (d.setk (.leaf p) (.leafV a)).hasKey k = true ↔
      (d.hasKey k = true ∨ k = FKey.leaf p) := by
    intro k
    rw [hasKey_setk]
    by_cases hk : k = FKey.leaf p
    · subst hk
      simp
    · simp [hk]
  refine ⟨?_, ?_, ?_, ?_, ?_, ?_⟩
  · cases hpres : d.hasKey (FKey.leaf p) with
    | true =>
      rw [keysList_setk_of_hasKey _ hpres]
      exact hinv.nodup
    | false =>
      rw [keysList_setk_absent _ hpres, List.nodup_append]
      refine ⟨hinv.nodup, List.nodup_singleton _, ?_⟩
      intro x hx hxo
      rw [List.mem_singleton] at hxo
      subst hxo
      rw [mem_keysList_iff_hasKey, hpres] at hx
      cases hx
  · intro k hk
    rw [mem_keysList_iff_hasKey, hhk] at hk
    rcases hk with hk | hk
    · exact hinv.nonem k ((mem_keysList_iff_hasKey d k).mpr hk)
    · subst hk
      exact hpne
  · intro q v hm
    rcases mem_setk_cases hinv.nodup hm with ⟨hqo, _⟩ | ⟨hm', _⟩
    · cases hqo
    · exact hinv.marker q v hm'
  · intro q sq hm k hk
    rcases mem_setk_cases hinv.nodup hm with ⟨hqo, _⟩ | ⟨hm', _⟩
    · cases hqo
    · obtain ⟨h1, h2, h3⟩ := hinv.memSub q sq hm' k hk
      exact ⟨(hhk _).mpr (Or.inl h1), h2, h3⟩
  · intro q sq hm k hk hkne hkdl hkX
    rcases mem_setk_cases hinv.nodup hm with ⟨hqo, _⟩ | ⟨hm', _⟩
    · cases hqo
    · have hkX' : k ∉ X := fun hc => hkX (List.mem_append_left _ hc)
      have hkp : k ≠ FKey.leaf p := fun hc =>
        hkX (List.mem_append_right _ (List.mem_singleton.mpr hc))
      rcases (hhk _).mp hk with hkd | hkd
      · exact hinv.memSup q sq hm' k hkd hkne hkdl hkX'
      · exact absurd hkd hkp
  · intro k hk hkX hknb i h1 h2
    have hkX' : k ∉ X := fun hc => hkX (List.mem_append_left _ hc)
    have hkp : k ≠ FKey.leaf p := fun hc =>
      hkX (List.mem_append_right _ (List.mem_singleton.mpr hc))
    rw [mem_keysList_iff_hasKey, hhk] at hk
    rcases hk with hk | hk
    · refine (hhk _).mpr (Or.inl (hinv.anc k
        ((mem_keysList_iff_hasKey d k).mpr hk) hkX' ?_ i h1 h2))
      intro x hx
      exact hknb x (List.mem_append_left _ hx)
    · exact absurd hk hkp

/-- The merge fold of the mapping branch: store every flattened leaf,
all marked pending. -/
theorem storeFold_addSt (W : List FKey)
    (hWF : ∀ x ∈ W, x.isNode = false) (hWne : ∀ x ∈ W, x.segs ≠ [])
    (hWfree : ∀ u ∈ W, ∀ v ∈ W, ¬ belowP u.segs v) (hWnd : W.Nodup) :
    ∀ (L : List (List String × α)) (X : List FKey) (d : FMap α),
      W = X ++ L.map (fun pa => FKey.leaf pa.1) →
      InvX d X →
      (∀ x ∈ X, d.hasKey x = true) →
      (∀ k ∈ d.keysList, ∀ x ∈ W, belowP x.segs k →
        ∀ i, 0 < i → i < k.segs.length →
          d.hasKey (.node (k.segs.take i)) = true) →
      AddSt (L.foldl (fun dd pa => dd.setk (.leaf pa.1) (.leafV pa.2)) d) W := by
  intro L
  induction L with
  | nil =>
    intro X d hW hinv hpres hbel
    rw [List.map_nil, List.append_nil] at hW
    subst hW
    exact ⟨hinv, hpres, hWF, hWne, hWfree, hWnd, hbel⟩
  | cons pa rest ih =>
    intro X d hW hinv hpres hbel
    rw [List.foldl_cons]
    have hWX : W = (X ++ [FKey.leaf pa.1]) ++
        rest.map (fun pa => FKey.leaf pa.1) := by
      rw [hW, List.map_cons]
      simp [List.append_assoc]
    have hpamem : FKey.leaf pa.1 ∈ W := by
      rw [hW]
      exact List.mem_append_right _
        (List.mem_map_of_mem _ (List.mem_cons_self pa rest))
    have hpane : pa.1 ≠ [] := hWne _ hpamem
    have hhk : ∀ k, (d.setk (.leaf pa.1) (.leafV pa.2)).hasKey k = true ↔
        (d.hasKey k = true ∨ k = FKey.leaf pa.1) := by
      intro k
      rw [hasKey_setk]
      by_cases hk : k = FKey.leaf pa.1
      · subst hk
        simp
      · simp [hk]
    refine ih (X ++ [FKey.leaf pa.1]) _ hWX
      (invX_setk_pending_leaf hinv hpane) ?_ ?_
    · intro x hx
      rcases List.mem_append.mp hx with hx | hx
      · exact (hhk _).mpr (Or.inl (hpres x hx))
      · rw [List.mem_singleton] at hx
        subst hx
        exact (hhk _).mpr (Or.inr rfl)
    · intro k hk x hx hb i h1 h2
      rw [mem_keysList_iff_hasKey, hhk] at hk
      rcases hk with hk | hk
      · exact (hhk _).mpr (Or.inl (hbel k
          ((mem_keysList_iff_hasKey d k).mpr hk) x hx hb i h1 h2))
      · exfalso
        subst hk
        exact hWfree x hx _ hpamem hb

/-- The one-round worklist of the mapping branch flattens to the leaf
items of the value, rebased on the target path. -/
theorem flatkeysGo_pre_perm {α : Type} {m : NDict α} (hwf : m.wfB = true)
    (pre : List String) :
    List.Perm (flatkeysGo m.sz [(pre, m)] []) (leafItems pre m) := by
  have hnd : ((([] : List (List String × α)) ++
      (([(pre, m)] : List (List String × NDict α)).map liEnt).flatten).map
        Prod.fst).Nodup := by
    rw [List.nil_append, List.map_cons, List.map_nil, List.flatten_cons,
      List.flatten_nil, List.append_nil]
    exact (leafItems_prefixFree hwf pre).1
  have h := flatkeysGo_perm m.sz [(pre, m)] []
    (by simp [stackSz]) hnd
  simpa [liEnt] using h

/-- The mapping branch of `__setitem__` (after its deletion step) and
`update`: flatten the value, store every leaf, rebuild the metadata. -/
theorem setDictMerge_inv {d0 : FMap α} (hinv : Inv d0) {pre : List String}
    {m : NDict α} (hwf : m.wfB = true) :
    Inv (buildMetaList
      ((flatkeysGo m.sz [(pre, m)] []).foldl
        (fun dd pa => dd.setk (.leaf pa.1) (.leafV pa.2)) d0)
      ((flatkeysGo m.sz [(pre, m)] []).map (fun pa => FKey.leaf pa.1))) := by
  have hperm0 := flatkeysGo_pre_perm (α := α) hwf pre
  obtain ⟨L, hL⟩ : ∃ L : List (List String × α),
      (flatkeysGo m.sz [(pre, m)] [] : FlatD α) = L := ⟨_, rfl⟩
  rw [hL] at hperm0 ⊢
  have hperm : List.Perm L (leafItems pre m) := hperm0
  have hmem : ∀ pa ∈ L, pa ∈ leafItems pre m :=
    fun pa hpa => hperm.mem_iff.mp hpa
  have hmemF : ∀ pa ∈ L, pa.1 ∈ (leafItems pre m).map Prod.fst :=
    fun pa hpa => List.mem_map_of_mem Prod.fst (hmem pa hpa)
  have hWmem : ∀ x ∈ L.map (fun pa => FKey.leaf pa.1),
      ∃ pa, pa ∈ L ∧ x = FKey.leaf pa.1 := by
    intro x hx
    obtain ⟨pa, hpa, hxe⟩ := List.mem_map.mp hx
    exact ⟨pa, hpa, hxe.symm⟩
  refine buildMetaList_inv _ _ (storeFold_addSt _ ?_ ?_ ?_ ?_ _ [] d0 rfl
    (InvX_mono (fun x hx => absurd hx (List.not_mem_nil x)) hinv)
    (fun x hx => absurd hx (List.not_mem_nil x)) ?_)
  · intro x hx
    obtain ⟨pa, _, hxe⟩ := hWmem x hx
    rw [hxe]
    rfl
  · intro x hx
    obtain ⟨pa, hpa, hxe⟩ := hWmem x hx
    obtain ⟨k, u, hsh, _⟩ := leafItems_shape (hmem pa hpa)
    rw [hxe]
    show pa.1 ≠ []
    rw [hsh]
    simp
  · intro u hu v hv hb
    obtain ⟨pa, hpa, hue⟩ := hWmem u hu
    obtain ⟨qb, hqb, hve⟩ := hWmem v hv
    rw [hue] at hb
    rw [hve] at hb
    have h1 : segPrefix pa.1 qb.1 = true := hb.1
    have h2 := (leafItems_prefixFree hwf pre).2 pa.1 (hmemF pa hpa) qb.1
      (hmemF qb hqb) h1
    exact hb.2 (by rw [h2])
  · have h1 : ((leafItems pre m).map Prod.fst).Nodup :=
      (leafItems_prefixFree hwf pre).1
    have h2 : (L.map Prod.fst).Nodup := ((hperm.map Prod.fst).nodup_iff).mpr h1
    have h3 : L.map (fun pa => FKey.leaf pa.1) =
        (L.map Prod.fst).map FKey.leaf := by
      rw [List.map_map]
      rfl
    rw [h3]
    exact h2.map (fun a b hab => FKey.leaf.inj hab)
  · intro k hk x hx hb i h1 h2
    exact hinv.anc k hk (List.not_mem_nil k)
      (fun y hy => absurd hy (List.not_mem_nil y)) i h1 h2

/-- Presence in an erased map implies presence before. -/
theorem hasKey_of_hasKey_erase {d : FMap α} {q k : FKey}
    (h : (d.erase q).hasKey k = true) : d.hasKey k = true := by
  induction d with
  | nil => simpa [FMap.erase] using h
  | cons kw t ih =>
    obtain ⟨k', w'⟩ := kw
    by_cases hk : k' = q
    · subst hk
      rw [show FMap.erase ((k', w') :: t) k' = t by
        show (if k' = k' then t else _) = t
        rw [if_pos rfl]] at h
      show (FMap.get? ((k', w') :: t) k).isSome = true
      rw [FMap.get?]
      by_cases hkk : k' = k
      · simp [hkk]
      · rw [if_neg hkk]
        exact h
    · rw [show FMap.erase ((k', w') :: t) q = (k', w') :: FMap.erase t q by
        show (if k' = q then t else _) = _
        rw [if_neg hk]] at h
      show (FMap.get? ((k', w') :: t) k).isSome = true
      rw [FMap.get?]
      by_cases hkk : k' = k
      · simp [hkk]
      · rw [if_neg hkk]
        refine ih ?_
        show (FMap.get? (FMap.erase t q) k).isSome = true
        have := h
        rw [show FMap.hasKey ((k', w') :: FMap.erase t q) k =
            (FMap.get? ((k', w') :: FMap.erase t q) k).isSome from rfl] at this
        rw [FMap.get?, if_neg hkk] at this
        exact this

/-- Erasing a fully unlinked pending key restores the invariant with
the remaining pending list. -/
theorem invX_erase_pending {d : FMap α} {k : FKey} {X : List FKey}
    (hinv : InvX d (k :: X))
    (hku : ∀ q s, (FKey.node q, FVal.setV s) ∈ d → k ∉ s)
    (hanc2 : ∀ j, d.hasKey j = true → belowP k.segs j → j ∉ X →
      (∀ x ∈ X, ¬ belowP x.segs j) →
      ∀ i, 0 < i → i < j.segs.length → d.hasKey (.node (j.segs.take i)) = true)
    (hform : k.isNode = true → ∀ j, d.hasKey j = true → belowP k.segs j →
      j ∈ X ∨ (∃ x ∈ X, belowP x.segs j)) :
    InvX (d.erase k) X := by
  have hsub := keysList_erase_sublist d k
  have hnd' : (d.erase k).keysList.Nodup := hsub.nodup hinv.nodup
  have hmem_erase : ∀ {q : FKey} {v : FVal α}, (q, v) ∈ d.erase k → (q, v) ∈ d := by
    intro q v hm
    by_cases hq : q = k
    · subst hq
      exact absurd hm (not_mem_erase_self hinv.nodup)
    · exact (mem_erase_of_ne hq).mp hm
  have hne_of_present : ∀ {j : FKey}, (d.erase k).hasKey j = true → j ≠ k := by
    intro j hj hjk
    subst hjk
    rw [hasKey_erase_self_of_nodup j hinv.nodup] at hj
    cases hj
  have hpres : ∀ {j : FKey}, (d.erase k).hasKey j = true → d.hasKey j = true :=
    fun hj => hasKey_of_hasKey_erase hj
  have hlift : ∀ {j : FKey}, j ≠ k → d.hasKey j = true →
      (d.erase k).hasKey j = true := by
    intro j hjk hj
    rw [FMap.hasKey_erase_ne d hjk]
    exact hj
  refine ⟨hnd', ?_, ?_, ?_, ?_, ?_⟩
  · intro j hj
    exact hinv.nonem j (hsub.mem hj)
  · intro q v hm
    exact hinv.marker q v (hmem_erase hm)
  · intro q sq hm j hj
    have hm' := hmem_erase hm
    obtain ⟨h1, h2, h3⟩ := hinv.memSub q sq hm' j hj
    refine ⟨?_, h2, h3⟩
    have hjk : j ≠ k := by
      intro he
      subst he
      exact hku q sq hm' hj
    exact hlift hjk h1
  · intro q sq hm j hj h1 h2 h3
    have hm' := hmem_erase hm
    have hjk : j ≠ k := hne_of_present hj
    refine hinv.memSup q sq hm' j (hpres hj) h1 h2 ?_
    intro hc
    rcases List.mem_cons.mp hc with h | h
    · exact hjk h
    · exact h3 h
  · intro j hj hjX hjnb i hi0 hilen
    rw [mem_keysList_iff_hasKey] at hj
    have hjk : j ≠ k := hne_of_present hj
    have hjd : d.hasKey j = true := hpres hj
    by_cases hbk : belowP k.segs j
    · -- below the erased key: it is a leaf (else all below keys are
      -- pending), so the needed markers are untouched
      have hkleaf : k.isNode = false := by
        cases hkn : k.isNode with
        | false => rfl
        | true =>
          exfalso
          rcases hform hkn j hjd hbk with h | ⟨x, hx, hbx⟩
          · exact hjX h
          · exact hjnb x hx hbx
      have hmk := hanc2 j hjd hbk hjX hjnb i hi0 hilen
      refine hlift ?_ hmk
      intro he
      rw [← he] at hkleaf
      simp [FKey.isNode] at hkleaf
    · have hmk := hinv.anc j ((mem_keysList_iff_hasKey d j).mpr hjd) ?_ ?_ i hi0 hilen
      · refine hlift ?_ hmk
        intro he
        have hk_segs : k.segs = j.segs.take i := (congrArg FKey.segs he).symm
        refine hbk ⟨?_, ?_⟩
        · rw [hk_segs]
          exact segPrefix_take _ _
        · intro hee
          have h4 : (j.segs.take i).length = i := take_length_of_le (by omega)
          have h6 : k.segs.length = i := by rw [hk_segs, h4]
          have h7 : j.segs.length = k.segs.length := by rw [hee]
          omega
      · intro hc
        rcases List.mem_cons.mp hc with h | h
        · exact hjk h
        · exact hjX h
      · intro x hx hc
        rcases List.mem_cons.mp hx with h | h
        · exact hbk (h ▸ ⟨hc.1, hc.2⟩)
        · exact hjnb x h ⟨hc.1, hc.2⟩

/-- Removing a pending key from its parent set keeps the invariant. -/
theorem invX_unlink {d : FMap α} {full : FKey} {X : List FKey} {s : List FKey}
    (hinv : InvX d (full :: X))
    (hg : d.get? (.node full.segs.dropLast) = some (.setV s)) :
    InvX (d.setk (.node full.segs.dropLast) (.setV (s.erase full))) (full :: X) := by
  have hm0 : (FKey.node full.segs.dropLast, FVal.setV s) ∈ d := FMap.mem_of_get? hg
  obtain ⟨s0, hs0e, hsnd⟩ := hinv.marker _ _ hm0
  have hss : s0 = s := (FVal.setV.inj hs0e).symm
  subst hss
  have hpk : d.hasKey (.node full.segs.dropLast) = true := by
    simp [FMap.hasKey, hg]
  have hkeys : (d.setk (.node full.segs.dropLast) (.setV (s0.erase full))).keysList =
      d.keysList := keysList_setk_of_hasKey _ hpk
  have hhk : ∀ j, (d.setk (.node full.segs.dropLast)
      (.setV (s0.erase full))).hasKey j = true ↔ d.hasKey j = true := by
    intro j
    rw [hasKey_setk]
    by_cases hj : j = FKey.node full.segs.dropLast
    · subst hj
      simp [hpk]
    · simp [hj]
  refine ⟨?_, ?_, ?_, ?_, ?_, ?_⟩
  · rw [hkeys]
    exact hinv.nodup
  · intro j hj
    rw [hkeys] at hj
    exact hinv.nonem j hj
  · intro q v hm
    rcases mem_setk_cases hinv.nodup hm with ⟨_, hv⟩ | ⟨hm', _⟩
    · exact ⟨s0.erase full, hv, hsnd.erase full⟩
    · exact hinv.marker q v hm'
  · intro q sq hm j hj
    rcases mem_setk_cases hinv.nodup hm with ⟨hqp, hv⟩ | ⟨hm', _⟩
    · have hq : q = full.segs.dropLast := FKey.node.inj hqp
      subst hq
      have hsq : sq = s0.erase full := FVal.setV.inj hv
      subst hsq
      have hjs : j ∈ s0 := (s0.mem_erase_of_ne ?_).mp hj
      · obtain ⟨h1, h2, h3⟩ := hinv.memSub _ s0 hm0 j hjs
        exact ⟨(hhk _).mpr h1, h2, h3⟩
      · intro he
        subst he
        exact (List.Nodup.not_mem_erase hsnd) hj
    · obtain ⟨h1, h2, h3⟩ := hinv.memSub q sq hm' j hj
      exact ⟨(hhk _).mpr h1, h2, h3⟩
  · intro q sq hm j hj h1 h2 h3
    have hjd : d.hasKey j = true := (hhk _).mp hj
    have hjfull : j ≠ full := by
      intro he
      exact h3 (he ▸ List.mem_cons_self _ _)
    rcases mem_setk_cases hinv.nodup hm with ⟨hqp, hv⟩ | ⟨hm', _⟩
    · have hq : q = full.segs.dropLast := FKey.node.inj hqp
      subst hq
      have hsq : sq = s0.erase full := FVal.setV.inj hv
      subst hsq
      have hjs : j ∈ s0 := hinv.memSup _ s0 hm0 j hjd h1 h2 h3
      exact (List.Nodup.mem_erase_iff hsnd).mpr ⟨hjfull, hjs⟩
    · exact hinv.memSup q sq hm' j hjd h1 h2 h3
  · intro j hj hjX hjnb i hi0 hilen
    rw [hkeys] at hj
    exact (hhk _).mpr (hinv.anc j hj hjX hjnb i hi0 hilen)

/-- Under the invariant, when the marker at `P` holds an empty set,
every stored key strictly below `P` is pending. -/
theorem below_subset_pending {d : FMap α} {X : List FKey} {P : List String}
    (hinv : InvX d X)
    (hXB : ∀ j, d.hasKey j = true → (∃ x ∈ X, belowP x.segs j) → j ∈ X)
    (hmt : d.get? (.node P) = some (.setV ([] : List FKey))) :
    ∀ j, d.hasKey j = true → belowP P j → j ∈ X := by
  intro j hj hb
  by_cases hjX : j ∈ X
  · exact hjX
  by_cases hbX : ∃ x ∈ X, belowP x.segs j
  · exact hXB j hj hbX
  exfalso
  have hnbX : ∀ x ∈ X, ¬ belowP x.segs j := fun x hx hc => hbX ⟨x, hx, hc⟩
  have hm0 : (FKey.node P, FVal.setV ([] : List FKey)) ∈ d := FMap.mem_of_get? hmt
  have hjmem : j ∈ d.keysList := (mem_keysList_iff_hasKey d j).mpr hj
  have hjne : j.segs ≠ [] := hinv.nonem j hjmem
  have hlen := belowP_length_lt hb
  rcases Nat.lt_or_ge (P.length + 1) j.segs.length with hdeep | hchild
  · -- deeper key: its child-level ancestor marker would have to be in
    -- the empty set
    have hnbX' : ∀ x ∈ X, ¬(segPrefix x.segs j.segs = true ∧ j.segs ≠ x.segs) :=
      fun x hx hc => hnbX x hx ⟨hc.1, hc.2⟩
    have hmk := hinv.anc j hjmem hjX hnbX' (P.length + 1) (by omega) hdeep
    obtain ⟨hdl, hne, hsp⟩ := take_succ_of_below hb.1 (by omega)
    have hcX : FKey.node (j.segs.take (P.length + 1)) ∉ X := by
      intro hc
      refine hbX ⟨_, hc, ⟨hsp, ?_⟩⟩
      intro he
      have h4 : (j.segs.take (P.length + 1)).length = P.length + 1 :=
        take_length_of_le (by omega)
      have h5 : j.segs.length = (j.segs.take (P.length + 1)).length :=
        congrArg List.length he
      omega
    have := hinv.memSup P ([] : List FKey) hm0 _ hmk hne hdl hcX
    exact List.not_mem_nil _ this
  · -- direct child
    have hdl : j.segs.dropLast = P :=
      (dropLast_child_iff hjne).mpr ⟨hb.1, by omega⟩
    have := hinv.memSup P ([] : List FKey) hm0 j hj hjne hdl hjX
    exact List.not_mem_nil _ this

/-- Boolean coverage of a key by the collect worklist: a member, or
strictly below a node member (leaf members do not expand). -/
def coversB (ws : List FKey) (j : FKey) : Bool :=
  ws.any (fun w => decide (w = j) ||
    (w.isNode && segPrefix w.segs j.segs && !decide (j.segs = w.segs)))

/-- Propositional coverage. -/
def covers (ws : List FKey) (j : FKey) : Prop :=
  j ∈ ws ∨ ∃ w ∈ ws, w.isNode = true ∧ belowP w.segs j

theorem coversB_iff (ws : List FKey) (j : FKey) :
    coversB ws j = true ↔ covers ws j := by
  simp only [coversB, covers, List.any_eq_true, Bool.or_eq_true,
    decide_eq_true_eq, Bool.and_eq_true, Bool.not_eq_true',
    decide_eq_false_iff_not, belowP]
  constructor
  · rintro ⟨w, hw, h | ⟨⟨h1, h2⟩, h3⟩⟩
    · exact Or.inl (h ▸ hw)
    · exact Or.inr ⟨w, hw, h1, h2, h3⟩
  · rintro (h | ⟨w, hw, h1, h2, h3⟩)
    · exact ⟨j, h, Or.inl rfl⟩
    · exact ⟨w, hw, Or.inr ⟨⟨h1, h2⟩, h3⟩⟩

theorem filter_not_self_length {l : List FKey} (hnd : l.Nodup) {k : FKey}
    (hk : k ∈ l) :
    (l.filter (fun j => !decide (j = k))).length + 1 = l.length := by
  induction l with
  | nil => exact absurd hk (List.not_mem_nil k)
  | cons a t ih =>
    rcases List.mem_cons.mp hk with h | h
    · subst h
      have hat : k ∉ t := (List.nodup_cons.mp hnd).1
      rw [List.filter_cons_of_neg (by simp)]
      have ht : t.filter (fun j => !decide (j = k)) = t := by
        rw [List.filter_eq_self]
        intro x hx
        simp only [Bool.not_eq_true', decide_eq_false_iff_not]
        intro he
        exact hat (he ▸ hx)
      rw [ht]
      simp
    · have hka : a ≠ k := by
        intro he
        exact (List.nodup_cons.mp hnd).1 (he ▸ h)
      rw [List.filter_cons_of_pos (by simp [hka])]
      simp only [List.length_cons]
      rw [ih (List.nodup_cons.mp hnd).2 h]

theorem belowP_of_dropLast {q : List String} {x : FKey} (hne : x.segs ≠ [])
    (hdl : x.segs.dropLast = q) : belowP q x := by
  refine ⟨?_, ?_⟩
  · rw [← hdl]
    exact segPrefix_dropLast _ hne
  · intro he
    have := segs_length_of_dropLast hne hdl
    rw [he] at this
    omega

/-- Popping a leaf worklist member: coverage loses exactly that key. -/
theorem covers_tail {k : FKey} {ws' : List FKey} (hkn : k.isNode = false)
    (hW2n : ∀ a ∈ k :: ws', a.isNode = true → ∀ b ∈ k :: ws', ¬ belowP a.segs b)
    (hnd : (k :: ws').Nodup) :
    ∀ j, covers ws' j ↔ (covers (k :: ws') j ∧ j ≠ k) := by
  intro j
  constructor
  · rintro (h | ⟨w, hw, h1, h2⟩)
    · refine ⟨Or.inl (List.mem_cons_of_mem _ h), ?_⟩
      intro he
      exact (List.nodup_cons.mp hnd).1 (he ▸ h)
    · refine ⟨Or.inr ⟨w, List.mem_cons_of_mem _ hw, h1, h2⟩, ?_⟩
      intro he
      subst he
      exact hW2n w (List.mem_cons_of_mem _ hw) h1 j (List.mem_cons_self _ _) h2
  · rintro ⟨h | ⟨w, hw, h1, h2⟩, hjk⟩
    · rcases List.mem_cons.mp h with h | h
      · exact absurd h hjk
      · exact Or.inl h
    · rcases List.mem_cons.mp hw with hwk | hwk
      · subst hwk
        rw [hkn] at h1
        cases h1
      · exact Or.inr ⟨w, hwk, h1, h2⟩

/-- Popping a node worklist member and pushing its child set: coverage
loses exactly that key. -/
theorem covers_expand {d : FMap α} (hinv : Inv d) {q : List String}
    {s ws' : List FKey} (hm : (FKey.node q, FVal.setV s) ∈ d)
    (hW2n : ∀ a ∈ FKey.node q :: ws', a.isNode = true →
      ∀ b ∈ FKey.node q :: ws', ¬ belowP a.segs b)
    (hnd : (FKey.node q :: ws').Nodup) :
    ∀ j, d.hasKey j = true →
      (covers (s ++ ws') j ↔
        (covers (FKey.node q :: ws') j ∧ j ≠ FKey.node q)) := by
  have hqk : FKey.node q ∈ (FKey.node q :: ws') := List.mem_cons_self _ _
  have hchild : ∀ x ∈ s, x.segs ≠ [] ∧ x.segs.dropLast = q := by
    intro x hx
    obtain ⟨_, h2, h3⟩ := hinv.memSub q s hm x hx
    exact ⟨h2, h3⟩
  have hbelow_s : ∀ x ∈ s, belowP q x := by
    intro x hx
    obtain ⟨h2, h3⟩ := hchild x hx
    exact belowP_of_dropLast h2 h3
  intro j hj
  constructor
  · rintro (h | ⟨w, hw, h1, h2⟩)
    · rcases List.mem_append.mp h with h | h
      · -- a child of q: covered strictly below the popped node
        refine ⟨Or.inr ⟨FKey.node q, hqk, rfl, hbelow_s j h⟩, ?_⟩
        intro he
        have hl1 := belowP_length_lt (hbelow_s j h)
        rw [he] at hl1
        have hl2 : (FKey.node q).segs.length = q.length := rfl
        omega
      · refine ⟨Or.inl (List.mem_cons_of_mem _ h), ?_⟩
        intro he
        exact (List.nodup_cons.mp hnd).1 (he ▸ h)
    · rcases List.mem_append.mp hw with hws | hws
      · -- below a pushed child: strictly below the popped node
        have hbp : belowP q j := belowP_of_above (hbelow_s w hws).1 h2
        refine ⟨Or.inr ⟨FKey.node q, hqk, rfl, hbp⟩, ?_⟩
        intro he
        have hl1 := belowP_length_lt hbp
        rw [he] at hl1
        have hl2 : (FKey.node q).segs.length = q.length := rfl
        omega
      · refine ⟨Or.inr ⟨w, List.mem_cons_of_mem _ hws, h1, h2⟩, ?_⟩
        intro he
        subst he
        exact hW2n w (List.mem_cons_of_mem _ hws) h1 _ hqk h2
  · rintro ⟨h | ⟨w, hw, h1, h2⟩, hjq⟩
    · rcases List.mem_cons.mp h with h | h
      · exact absurd h hjq
      · exact Or.inl (List.mem_append_right _ h)
    · rcases List.mem_cons.mp hw with hwk | hwk
      · -- below the popped node itself: find the child-level cover
        subst hwk
        have hjne : j.segs ≠ [] :=
          hinv.nonem j ((mem_keysList_iff_hasKey d j).mpr hj)
        have hlen : q.length < j.segs.length := belowP_length_lt h2
        rcases Nat.lt_or_ge (q.length + 1) j.segs.length with hdeep | hchild2
        · have hmk := hinv.anc j ((mem_keysList_iff_hasKey d j).mpr hj)
            (List.not_mem_nil j) (fun x hx => absurd hx (List.not_mem_nil x))
            (q.length + 1) (by omega) hdeep
          obtain ⟨hdl, hne, hsp⟩ := take_succ_of_below h2.1 hlen
          have hcs : FKey.node (j.segs.take (q.length + 1)) ∈ s :=
            hinv.memSup q s hm _ hmk hne hdl (List.not_mem_nil _)
          refine Or.inr ⟨_, List.mem_append_left _ hcs, rfl, hsp, ?_⟩
          intro he
          have h4 : (j.segs.take (q.length + 1)).length = q.length + 1 :=
            take_length_of_le (by omega)
          have h5 : j.segs.length = (j.segs.take (q.length + 1)).length :=
            congrArg List.length he
          omega
        · have hdl : j.segs.dropLast = q :=
            (dropLast_child_iff hjne).mpr ⟨h2.1, by omega⟩
          exact Or.inl (List.mem_append_left _
            (hinv.memSup q s hm j hj hjne hdl (List.not_mem_nil j)))
      · exact Or.inr ⟨w, List.mem_append_right _ hwk, h1, h2⟩

/-- Full characterization of the fastview worklist collection under the
invariant: it emits exactly the covered present keys, without
duplicates, parents before children. -/
theorem fvCollect_spec {d : FMap α} (hinv : Inv d) :
    ∀ (fuel : Nat) (ws : List FKey),
      (∀ k ∈ ws, d.hasKey k = true) →
      ws.Nodup →
      (∀ a ∈ ws, a.isNode = true → ∀ b ∈ ws, ¬ belowP a.segs b) →
      (d.keysList.filter (fun j => coversB ws j)).length + 1 ≤ fuel →
      (∀ k, k ∈ fvCollect d fuel ws ↔ (d.hasKey k = true ∧ covers ws k)) ∧
      (fvCollect d fuel ws).Nodup ∧
      (∀ done kk rest, fvCollect d fuel ws = done ++ kk :: rest →
        kk ∈ ws ∨ (FKey.node kk.segs.dropLast) ∈ done) := by
  intro fuel
  induction fuel with
  | zero =>
    intro ws _ _ _ hfuel
    omega
  | succ fuel ih =>
    intro ws hWp hWnd hW2n hfuel
    cases ws with
    | nil =>
      refine ⟨?_, ?_, ?_⟩
      · intro k
        show k ∈ ([] : List FKey) ↔ _
        simp only [List.not_mem_nil, false_iff]
        rintro ⟨_, h | ⟨w, hw, _⟩⟩
        · exact List.not_mem_nil k h
        · exact List.not_mem_nil w hw
      · exact List.nodup_nil
      · intro done kk rest h
        exfalso
        have : ([] : List FKey) = done ++ kk :: rest := h
        cases done with
        | nil => cases this
        | cons a t => cases this
    | cons k ws' =>
      have hkp : d.hasKey k = true := hWp k (List.mem_cons_self _ _)
      -- the key's presence and the step equality used in both branches
      have hstep_len : ∀ (nws : List FKey),
          (∀ j ∈ d.keysList, coversB nws j =
            (!decide (j = k) && coversB (k :: ws') j)) →
          (d.keysList.filter (fun j => coversB nws j)).length + 1 ≤ fuel := by
        intro nws hpt
        have h1 : d.keysList.filter (fun j => coversB nws j) =
            d.keysList.filter (fun j => !decide (j = k) && coversB (k :: ws') j) :=
          List.filter_congr hpt
        have h2 : d.keysList.filter
            (fun j => !decide (j = k) && coversB (k :: ws') j) =
            (d.keysList.filter (fun j => coversB (k :: ws') j)).filter
              (fun j => !decide (j = k)) := (List.filter_filter _ _).symm
        have hkmem : k ∈ d.keysList.filter (fun j => coversB (k :: ws') j) :=
          List.mem_filter.mpr ⟨(mem_keysList_iff_hasKey d k).mpr hkp,
            (coversB_iff _ _).mpr (Or.inl (List.mem_cons_self _ _))⟩
        have h3 := filter_not_self_length (hinv.nodup.filter _) hkmem
        rw [h1, h2]
        omega
      cases hkn : k.isNode with
      | false =>
        -- leaf member: emit and continue with the tail
        have hout : fvCollect d (fuel + 1) (k :: ws') =
            k :: fvCollect d fuel ws' := by
          simp only [fvCollect, hkn, Bool.false_eq_true, if_false]
        have hiffj : ∀ j, covers ws' j ↔ (covers (k :: ws') j ∧ j ≠ k) :=
          covers_tail hkn hW2n hWnd
        have hpt : ∀ j ∈ d.keysList, coversB ws' j =
            (!decide (j = k) && coversB (k :: ws') j) := by
          intro j _
          rw [Bool.eq_iff_iff, coversB_iff, Bool.and_eq_true, coversB_iff,
            Bool.not_eq_true', decide_eq_false_iff_not]
          exact (hiffj j).trans and_comm
        obtain ⟨ihO1, ihO2, ihO3⟩ := ih ws'
          (fun x hx => hWp x (List.mem_cons_of_mem _ hx))
          (List.nodup_cons.mp hWnd).2
          (fun a ha han b hb => hW2n a (List.mem_cons_of_mem _ ha) han b
            (List.mem_cons_of_mem _ hb))
          (hstep_len ws' hpt)
        rw [hout]
        refine ⟨?_, ?_, ?_⟩
        · intro j
          rw [List.mem_cons, ihO1]
          constructor
          · rintro (h | ⟨h1, h2⟩)
            · exact ⟨h ▸ hkp, Or.inl (h ▸ List.mem_cons_self _ _)⟩
            · exact ⟨h1, ((hiffj j).mp h2).1⟩
          · rintro ⟨h1, h2⟩
            by_cases hjk : j = k
            · exact Or.inl hjk
            · exact Or.inr ⟨h1, (hiffj j).mpr ⟨h2, hjk⟩⟩
        · rw [List.nodup_cons]
          refine ⟨?_, ihO2⟩
          intro hc
          have := ((hiffj k).mp ((ihO1 k).mp hc).2).2
          exact this rfl
        · intro done kk rest h
          cases done with
          | nil =>
            have h2 := h
            rw [List.nil_append] at h2
            injection h2 with h3 _
            exact Or.inl (h3 ▸ List.mem_cons_self _ _)
          | cons a t =>
            rw [List.cons_append] at h
            injection h with h3 h4
            rcases ihO3 t kk rest h4 with h5 | h5
            · exact Or.inl (List.mem_cons_of_mem _ h5)
            · exact Or.inr (List.mem_cons_of_mem _ h5)
      | true =>
        -- node member: its entry is a child set; emit and expand
        obtain ⟨q, hq⟩ : ∃ q, k = FKey.node q := by
          cases k with
          | leaf p => simp [FKey.isNode] at hkn
          | node p => exact ⟨p, rfl⟩
        subst hq
        obtain ⟨v, hv⟩ := Option.isSome_iff_exists.mp hkp
        obtain ⟨s, hs, hsnd⟩ := hinv.marker q v (FMap.mem_of_get? hv)
        subst hs
        have hm : (FKey.node q, FVal.setV s) ∈ d := FMap.mem_of_get? hv
        have hout : fvCollect d (fuel + 1) (FKey.node q :: ws') =
            FKey.node q :: fvCollect d fuel (s ++ ws') := by
          simp only [fvCollect, hkn, if_true, hv]
        have hchild : ∀ x ∈ s, d.hasKey x = true ∧ x.segs ≠ [] ∧
            x.segs.dropLast = q := fun x hx => hinv.memSub q s hm x hx
        have hbelow_s : ∀ x ∈ s, belowP q x := fun x hx =>
          belowP_of_dropLast (hchild x hx).2.1 (hchild x hx).2.2
        have hdisj : ∀ x ∈ s, x ∉ ws' := by
          intro x hx hxw
          exact hW2n (FKey.node q) (List.mem_cons_self _ _) rfl x
            (List.mem_cons_of_mem _ hxw) (hbelow_s x hx)
        have hiffj : ∀ j, d.hasKey j = true →
            (covers (s ++ ws') j ↔
              (covers (FKey.node q :: ws') j ∧ j ≠ FKey.node q)) :=
          covers_expand hinv hm hW2n hWnd
        have hpt : ∀ j ∈ d.keysList, coversB (s ++ ws') j =
            (!decide (j = FKey.node q) && coversB (FKey.node q :: ws') j) := by
          intro j hj
          rw [Bool.eq_iff_iff, coversB_iff, Bool.and_eq_true, coversB_iff,
            Bool.not_eq_true', decide_eq_false_iff_not]
          exact (hiffj j ((mem_keysList_iff_hasKey d j).mp hj)).trans and_comm
        have hWp' : ∀ x ∈ s ++ ws', d.hasKey x = true := by
          intro x hx
          rcases List.mem_append.mp hx with h | h
          · exact (hchild x h).1
          · exact hWp x (List.mem_cons_of_mem _ h)
        have hWnd' : (s ++ ws').Nodup := by
          rw [List.nodup_append]
          exact ⟨hsnd, (List.nodup_cons.mp hWnd).2, fun x hx hxw => hdisj x hx hxw⟩
        have hW2n' : ∀ a ∈ s ++ ws', a.isNode = true → ∀ b ∈ s ++ ws',
            ¬ belowP a.segs b := by
          intro a ha han b hb hab
          rcases List.mem_append.mp ha with has | haw
          · rcases List.mem_append.mp hb with hbs | hbw
            · -- two children of q: equal length, no strict prefix
              have h1 := segs_length_of_dropLast (hchild a has).2.1 (hchild a has).2.2
              have h2 := segs_length_of_dropLast (hchild b hbs).2.1 (hchild b hbs).2.2
              exact not_belowP_shorter (by omega) hab
            · -- a pushed child above an old member: the popped node is too
              exact hW2n (FKey.node q) (List.mem_cons_self _ _) rfl b
                (List.mem_cons_of_mem _ hbw)
                (belowP_of_above (hbelow_s a has).1 hab)
          · rcases List.mem_append.mp hb with hbs | hbw
            · -- an old node member above a pushed child
              have hlenb := segs_length_of_dropLast (hchild b hbs).2.1
                (hchild b hbs).2.2
              have hlab := belowP_length_lt hab
              have hle : a.segs.length ≤ q.length := by omega
              have htake : b.segs.take a.segs.length = a.segs :=
                take_of_segPrefix hab.1
              have htq : b.segs.take q.length = q := by
                conv_rhs => rw [← (hchild b hbs).2.2, dropLast_eq_take, hlenb,
                  Nat.add_sub_cancel]
              have hqa : q.take a.segs.length = a.segs := by
                rw [← htq, take_take_of_le _ hle, htake]
              by_cases haq : a.segs = q
              · -- then a is the popped node itself, impossible in the tail
                have haeq : a = FKey.node q := by
                  cases a with
                  | leaf p =>
                    simp [FKey.isNode] at han
                  | node p =>
                    have hpq : p = q := haq
                    rw [hpq]
                exact (List.nodup_cons.mp hWnd).1 (haeq ▸ haw)
              · refine hW2n a (List.mem_cons_of_mem _ haw) han (FKey.node q)
                  (List.mem_cons_self _ _) ⟨?_, ?_⟩
                · rw [← hqa]
                  exact segPrefix_take _ _
                · intro he
                  exact haq (he.symm)
            · exact hW2n a (List.mem_cons_of_mem _ haw) han b
                (List.mem_cons_of_mem _ hbw) hab
        obtain ⟨ihO1, ihO2, ihO3⟩ := ih (s ++ ws') hWp' hWnd' hW2n'
          (hstep_len (s ++ ws') hpt)
        rw [hout]
        refine ⟨?_, ?_, ?_⟩
        · intro j
          rw [List.mem_cons, ihO1]
          constructor
          · rintro (h | ⟨h1, h2⟩)
            · exact ⟨h ▸ hkp, Or.inl (h ▸ List.mem_cons_self _ _)⟩
            · exact ⟨h1, ((hiffj j h1).mp h2).1⟩
          · rintro ⟨h1, h2⟩
            by_cases hjk : j = FKey.node q
            · exact Or.inl hjk
            · exact Or.inr ⟨h1, (hiffj j h1).mpr ⟨h2, hjk⟩⟩
        · rw [List.nodup_cons]
          refine ⟨?_, ihO2⟩
          intro hc
          obtain ⟨hc1, hc2⟩ := (ihO1 _).mp hc
          exact ((hiffj _ hc1).mp hc2).2 rfl
        · intro done kk rest h
          cases done with
          | nil =>
            have h2 := h
            rw [List.nil_append] at h2
            injection h2 with h3 _
            exact Or.inl (h3 ▸ List.mem_cons_self _ _)
          | cons a t =>
            rw [List.cons_append] at h
            injection h with h3 h4
            rcases ihO3 t kk rest h4 with h5 | h5
            · rcases List.mem_append.mp h5 with h6 | h6
              · -- a pushed child: its parent is the popped node, at the
                -- head of `done`
                refine Or.inr ?_
                rw [(hchild kk h6).2.2, ← h3]
                exact List.mem_cons_self _ _
              · exact Or.inl (List.mem_cons_of_mem _ h6)
            · exact Or.inr (List.mem_cons_of_mem _ h5)

/-- The final deletion loop of the subtree branch: erase the collected
keys in order (parents first); the invariant survives and no `KeyError`
is raised. -/
theorem eraseAllChecked_inv :
    ∀ (td : List FKey) (dd : FMap α) (X : List FKey),
      InvX dd (td ++ X) →
      (∀ k ∈ td, dd.hasKey k = true) →
      (∀ k ∈ td, k ∉ X) →
      td.Nodup →
      (∀ done k rest, td = done ++ k :: rest →
        dd.hasKey (.node k.segs.dropLast) = false ∨
          (FKey.node k.segs.dropLast) ∈ done) →
      (∀ j, dd.hasKey j = true → ∀ x ∈ td ++ X, belowP x.segs j →
        j ∈ td ++ X) →
      (∀ x ∈ X, dd.hasKey x = true) →
      (eraseAllChecked dd td).2 = false ∧
      InvX (eraseAllChecked dd td).1 X ∧
      (∀ x ∈ X, (eraseAllChecked dd td).1.hasKey x = true) ∧
      (∀ j, (eraseAllChecked dd td).1.hasKey j = true → dd.hasKey j = true) ∧
      (∀ k ∈ td, (eraseAllChecked dd td).1.hasKey k = false) := by
  intro td
  induction td with
  | nil =>
    intro dd X hinv _ _ _ _ _ hXK
    refine ⟨rfl, hinv, hXK, fun j hj => hj, ?_⟩
    intro k hk
    exact absurd hk (List.not_mem_nil k)
  | cons k rest ih =>
    intro dd X hinv hTp hTX hTnd hTP hTB hXK
    have hkp : dd.hasKey k = true := hTp k (List.mem_cons_self _ _)
    have hout : eraseAllChecked dd (k :: rest) =
        eraseAllChecked (dd.erase k) rest := by
      simp only [eraseAllChecked, hkp, if_true]
    have hinv0 : InvX dd (k :: (rest ++ X)) := hinv
    have hbelow_mem : ∀ j, dd.hasKey j = true → belowP k.segs j →
        j ∈ rest ++ X := by
      intro j hj hb
      have h1 := hTB j hj k (List.mem_cons_self _ _) hb
      rcases List.mem_cons.mp h1 with h | h
      · exfalso
        exact hb.2 (by rw [h])
      · exact h
    have hinv' : InvX (dd.erase k) (rest ++ X) := by
      refine invX_erase_pending hinv0 ?_ ?_ ?_
      · intro q s hm hks
        obtain ⟨h1, _, h3⟩ := hinv0.memSub q s hm k hks
        rcases hTP [] k rest rfl with h4 | h4
        · rw [h3] at h4
          have h5 : dd.hasKey (FKey.node q) = true :=
            (mem_keysList_iff_hasKey dd _).mp (List.mem_map_of_mem Prod.fst hm)
          rw [h5] at h4
          cases h4
        · exact List.not_mem_nil _ h4
      · intro j hj hb hjX _
        exact absurd (hbelow_mem j hj hb) hjX
      · intro _ j hj hb
        exact Or.inl (hbelow_mem j hj hb)
    have hshrink : ∀ j, (dd.erase k).hasKey j = true → dd.hasKey j = true :=
      fun j hj => hasKey_of_hasKey_erase hj
    have hknd := hinv0.nodup
    obtain ⟨h1, h2, h3, h4, h5⟩ := ih (dd.erase k) X hinv'
      (by
        intro k' hk'
        have hne : k' ≠ k := by
          intro he
          exact (List.nodup_cons.mp hTnd).1 (he ▸ hk')
        rw [FMap.hasKey_erase_ne dd hne]
        exact hTp k' (List.mem_cons_of_mem _ hk'))
      (fun k' hk' => hTX k' (List.mem_cons_of_mem _ hk'))
      (List.nodup_cons.mp hTnd).2
      (by
        intro done kk rest' he
        rcases hTP (k :: done) kk rest' (by rw [he, List.cons_append]) with h | h
        · refine Or.inl ?_
          cases hc : (dd.erase k).hasKey (FKey.node kk.segs.dropLast) with
          | false => rfl
          | true =>
            rw [hshrink _ hc] at h
            cases h
        · rcases List.mem_cons.mp h with h | h
          · refine Or.inl ?_
            rw [h]
            exact hasKey_erase_self_of_nodup k hknd
          · exact Or.inr h)
      (by
        intro j hj x hx hb
        have h1 := hTB j (hshrink j hj) x (List.mem_cons_of_mem _ hx) hb
        rcases List.mem_cons.mp h1 with h | h
        · exfalso
          subst h
          rw [hasKey_erase_self_of_nodup j hknd] at hj
          cases hj
        · exact h)
      (by
        intro x hx
        have hne : x ≠ k := by
          intro he
          exact hTX k (List.mem_cons_self _ _) (he ▸ hx)
        rw [FMap.hasKey_erase_ne dd hne]
        exact hXK x hx)
    rw [hout]
    refine ⟨h1, h2, h3, ?_, ?_⟩
    · intro j hj
      exact hshrink j (h4 j hj)
    · intro k' hk'
      rcases List.mem_cons.mp hk' with h | h
      · subst h
        cases hc : (eraseAllChecked (dd.erase k') rest).1.hasKey k' with
        | false => rfl
        | true =>
          have := h4 k' hc
          rw [hasKey_erase_self_of_nodup k' hknd] at this
          cases this
      · exact h5 k' h

theorem parentOf_none {s : List String} (h : parentOf s = none) :
    s.dropLast = [] := by
  by_cases he : s.dropLast.isEmpty
  · exact List.isEmpty_iff.mp he
  · rw [parentOf, if_neg he] at h
    cases h

/-- Under the invariant, when the marker at `P` itself is absent, every
stored key strictly below `P` is pending. -/
theorem below_subset_pending_absent {d : FMap α} {X : List FKey}
    {P : List String} (hinv : InvX d X) (hPne : P ≠ [])
    (hXB : ∀ j, d.hasKey j = true → (∃ x ∈ X, belowP x.segs j) → j ∈ X)
    (hmt : d.hasKey (.node P) = false) :
    ∀ j, d.hasKey j = true → belowP P j → j ∈ X := by
  intro j hj hb
  by_cases hjX : j ∈ X
  · exact hjX
  by_cases hbX : ∃ x ∈ X, belowP x.segs j
  · exact hXB j hj hbX
  exfalso
  have hnbX : ∀ x ∈ X, ¬(segPrefix x.segs j.segs = true ∧ j.segs ≠ x.segs) :=
    fun x hx hc => hbX ⟨x, hx, hc.1, hc.2⟩
  have hP0 : 0 < P.length := List.length_pos.mpr hPne
  have hlen := belowP_length_lt hb
  have hmk := hinv.anc j ((mem_keysList_iff_hasKey d j).mpr hj) hjX hnbX
    P.length hP0 hlen
  rw [take_of_segPrefix hb.1] at hmk
  rw [hmt] at hmk
  cases hmk

/-- For a stored key, coverage by a marker's child set is exactly being
strictly below the marker's path (full invariant, no pending keys). -/
theorem covers_children_iff {d : FMap α} (hinv : Inv d) {q : List String}
    {s : List FKey} (hm : (FKey.node q, FVal.setV s) ∈ d) :
    ∀ j, d.hasKey j = true → (covers s j ↔ belowP q j) := by
  have hchild : ∀ x ∈ s, d.hasKey x = true ∧ x.segs ≠ [] ∧
      x.segs.dropLast = q := fun x hx => hinv.memSub q s hm x hx
  have hbelow_s : ∀ x ∈ s, belowP q x := fun x hx =>
    belowP_of_dropLast (hchild x hx).2.1 (hchild x hx).2.2
  intro j hj
  constructor
  · rintro (h | ⟨w, hw, _, h2⟩)
    · exact hbelow_s j h
    · exact belowP_of_above (hbelow_s w hw).1 h2
  · intro hb
    have hjne : j.segs ≠ [] :=
      hinv.nonem j ((mem_keysList_iff_hasKey d j).mpr hj)
    have hlen := belowP_length_lt hb
    rcases Nat.lt_or_ge (q.length + 1) j.segs.length with hdeep | hchild2
    · have hmk := hinv.anc j ((mem_keysList_iff_hasKey d j).mpr hj)
        (List.not_mem_nil j) (fun x hx => absurd hx (List.not_mem_nil x))
        (q.length + 1) (by omega) hdeep
      obtain ⟨hdl, hne, hsp⟩ := take_succ_of_below hb.1 (by omega)
      have hcs : FKey.node (j.segs.take (q.length + 1)) ∈ s :=
        hinv.memSup q s hm _ hmk hne hdl (List.not_mem_nil _)
      refine Or.inr ⟨_, hcs, rfl, hsp, ?_⟩
      intro he
      have h4 : (j.segs.take (q.length + 1)).length = q.length + 1 :=
        take_length_of_le (by omega)
      have h5 : j.segs.length = (j.segs.take (q.length + 1)).length :=
        congrArg List.length he
      omega
    · have hdl : j.segs.dropLast = q :=
        (dropLast_child_iff hjne).mpr ⟨hb.1, by omega⟩
      exact Or.inl (hinv.memSup q s hm j hj hjne hdl (List.not_mem_nil j))

/-- `erase` and `setk` on distinct keys commute. -/
theorem erase_setk_comm {a b : FKey} (h : a ≠ b) :
    ∀ (d : FMap α) (v : FVal α), (d.erase a).setk b v = (d.setk b v).erase a := by
  intro d v
  induction d with
  | nil =>
    show FMap.setk ([] : FMap α) b v = FMap.erase [(b, v)] a
    show [(b, v)] = (if b = a then [] else (b, v) :: FMap.erase [] a)
    rw [if_neg (fun hh => h hh.symm)]
    rfl
  | cons kw t ih =>
    obtain ⟨k', w'⟩ := kw
    by_cases hka : k' = a
    · subst hka
      simp [FMap.erase, FMap.setk, h]
    · by_cases hkb : k' = b
      · subst hkb
        simp [FMap.erase, FMap.setk, hka]
      · simp [FMap.erase, FMap.setk, hka, hkb, ih]

theorem segs_isEmpty_false {s : List String} (h : s ≠ []) :
    s.isEmpty = false := by
  cases s with
  | nil => exact absurd rfl h
  | cons a t => rfl

/-- The key list collected by the subtree branch of `__delitem__`:
with `fullpath=True` and `nodes=True` it is exactly the raw collect
output on the marker's child set. -/
theorem toDel_eq_fvCollect {d : FMap α} {P : List String} {s : List FKey}
    (hPne : P ≠ []) (hg : d.get? (.node P) = some (.setV s)) :
    fViewKeys confFv d true true (some P) = fvCollect d (d.size + 1) s := by
  rw [fViewKeys]
  simp only [Option.getD_some, segs_isEmpty_false hPne, Bool.false_eq_true,
    if_false, confFv, if_true, hg]
  rw [List.filter_eq_self.mpr (fun a _ => by simp)]
  have hmap : ∀ L : List FKey, L.map (FKey.dropSegs 0) = L := by
    intro L
    induction L with
    | nil => rfl
    | cons a t ih => rw [List.map_cons, dropSegs_zero, ih]
  exact hmap _

/-- Precondition bundle for the deletion body `fDelGoF` on a fastview
store: the invariant holds with a pending chain `X` of keys awaiting
erasure by the callers (each strictly below the current target, present,
and closed downward), and empty-marker side facts for the cascade. -/
structure DelPre (d : FMap α) (full : FKey) (X : List FKey) : Prop where
  fne : full.segs ≠ []
  fX : full ∉ X
  inv : InvX d X
  xk : ∀ x ∈ X, d.hasKey x = true
  xnd : X.Nodup
  xl : ∀ x ∈ X, full.segs.length < x.segs.length
  xu : ∀ x ∈ X, segPrefix full.segs x.segs = true
  xb : ∀ j, d.hasKey j = true → (∃ x ∈ X, belowP x.segs j) → j ∈ X
  xe : d.hasKey full = false → X ≠ [] →
    d.get? (.node full.segs) = some (.setV ([] : List FKey))
  hf : full.isNode = true → d.get? full = some (.setV ([] : List FKey))

/-- Postcondition bundle: a raising run leaves the store untouched (and
only happens when neither form of the key is stored); a successful run
keeps the invariant modulo the pending keys, removes the target, keeps
the pending keys, only ever removes entries, and stays closed below the
pending keys. -/
def DelPost (d : FMap α) (full : FKey) (X : List FKey)
    (r : FMap α × Bool) : Prop :=
  (r.2 = true → r.1 = d ∧ d.hasKey full = false ∧
    d.hasKey (.node full.segs) = false) ∧
  (r.2 = false →
    InvX r.1 X ∧
    r.1.hasKey full = false ∧
    (∀ x ∈ X, r.1.hasKey x = true) ∧
    (∀ j, r.1.hasKey j = true → d.hasKey j = true) ∧
    (∀ j, r.1.hasKey j = true → (∃ x ∈ X, belowP x.segs j) → j ∈ X))

theorem InvX.ancP {d : FMap α} {X : List FKey} (h : InvX d X) :
    ∀ k ∈ d.keysList, k ∉ X → (∀ x ∈ X, ¬ belowP x.segs k) →
    ∀ i, 0 < i → i < k.segs.length → d.hasKey (.node (k.segs.take i)) = true :=
  fun k hk h1 h2 i => h.anc k hk h1 (fun x hx hc => h2 x hx ⟨hc.1, hc.2⟩) i

theorem fvCollect_nil_ws (d : FMap α) (n : Nat) :
    fvCollect d (n + 1) ([] : List FKey) = [] := rfl

theorem not_belowP_of_ge {p : List String} {X : List FKey}
    (hxl : ∀ x ∈ X, p.length < x.segs.length) :
    ∀ x ∈ X, ¬ belowP x.segs (FKey.node p) := by
  intro x hx hb
  have h1 := belowP_length_lt hb
  have h2 := hxl x hx
  have h3 : (FKey.node p).segs.length = p.length := rfl
  omega

/-- The direct-hit branch of the deletion body preserves the bundle. -/
theorem delStepA (fuel : Nat)
    (ih : ∀ (d : FMap α) (full : FKey) (X : List FKey),
      full.segs.length + 1 ≤ fuel → DelPre d full X →
      DelPost d full X (fDelGoF fuel confFv d full))
    (d : FMap α) (full : FKey) (X : List FKey)
    (hfuel : full.segs.length + 1 ≤ fuel + 1)
    (hpre : DelPre d full X) (hhit : d.hasKey full = true) :
    DelPost d full X (fDelGoF (fuel + 1) confFv d full) := by
  have hnbXfull : ∀ x ∈ X, ¬ belowP x.segs full := by
    intro x hx hb
    have h1 := belowP_length_lt hb
    have h2 := hpre.xl x hx
    omega
  have hfullmem : full ∈ d.keysList := (mem_keysList_iff_hasKey d full).mpr hhit
  have hXne : ∀ x ∈ X, x ≠ full := by
    intro x hx he
    exact hpre.fX (he ▸ hx)
  have hbelow_node : full.isNode = true →
      ∀ j, d.hasKey j = true → belowP full.segs j → j ∈ X := by
    intro hfn
    have hmt : d.get? (.node full.segs) = some (.setV ([] : List FKey)) := by
      cases full with
      | leaf p => simp [FKey.isNode] at hfn
      | node p => exact hpre.hf hfn
    exact below_subset_pending hpre.inv hpre.xb hmt
  cases hpo : parentOf full.segs with
  | none =>
    have hres : fDelGoF (fuel + 1) confFv d full = (d.erase full, false) := by
      simp only [fDelGoF]
      rw [if_pos hhit, if_pos (show confFv.fastview = true from rfl), hpo]
    rw [hres]
    refine ⟨fun h => absurd h (by simp), fun _ => ?_⟩
    have hdl0 : full.segs.dropLast = [] := parentOf_none hpo
    have hinv' : InvX (d.erase full) X := by
      refine invX_erase_pending
        (InvX_mono (fun x hx => List.mem_cons_of_mem _ hx) hpre.inv) ?_ ?_ ?_
      · intro q sq hm hfs
        obtain ⟨_, _, h3⟩ := hpre.inv.memSub q sq hm full hfs
        rw [hdl0] at h3
        have hmkq : (FKey.node q) ∈ d.keysList :=
          List.mem_map_of_mem Prod.fst hm
        exact hpre.inv.nonem _ hmkq (by rw [← h3]; rfl)
      · intro j hj hb hjX hjnb i hi0 hilen
        exact hpre.inv.ancP j ((mem_keysList_iff_hasKey d j).mpr hj) hjX hjnb
          i hi0 hilen
      · intro hfn j hj hb
        exact Or.inl (hbelow_node hfn j hj hb)
    refine ⟨hinv', hasKey_erase_self_of_nodup full hpre.inv.nodup, ?_, ?_, ?_⟩
    · intro x hx
      rw [FMap.hasKey_erase_ne d (hXne x hx)]
      exact hpre.xk x hx
    · exact fun j hj => hasKey_of_hasKey_erase hj
    · intro j hj hex
      exact hpre.xb j (hasKey_of_hasKey_erase hj) hex
  | some p =>
    obtain ⟨hpd, hsne, hpne⟩ := parentOf_some hpo
    have hflen : full.segs.length = p.length + 1 :=
      segs_length_of_dropLast hpre.fne hpd.symm
    have hp0 : 0 < p.length := List.length_pos.mpr hpne
    have hmk : d.hasKey (.node p) = true := by
      have h1 := hpre.inv.ancP full hfullmem hpre.fX hnbXfull p.length hp0
        (by omega)
      have htake : full.segs.take p.length = p := by
        conv_rhs => rw [hpd, dropLast_eq_take, hflen, Nat.add_sub_cancel]
      rwa [htake] at h1
    obtain ⟨v, hv⟩ := Option.isSome_iff_exists.mp hmk
    obtain ⟨s, hs, hsnd⟩ := hpre.inv.marker p v (FMap.mem_of_get? hv)
    subst hs
    have hm0 : (FKey.node p, FVal.setV s) ∈ d := FMap.mem_of_get? hv
    have hmem : full ∈ s :=
      hpre.inv.memSup p s hm0 full hhit hpre.fne hpd.symm hpre.fX
    have hhk1 : ∀ j, (d.setk (.node p) (.setV (s.erase full))).hasKey j = true ↔
        d.hasKey j = true := by
      intro j
      rw [hasKey_setk]
      by_cases hj : j = FKey.node p
      · subst hj
        simp [hmk]
      · simp [hj]
    have hinv1 : InvX (d.setk (.node p) (.setV (s.erase full))) (full :: X) := by
      have hg' : d.get? (.node full.segs.dropLast) = some (.setV s) := by
        rw [← hpd]
        exact hv
      have h1 := invX_unlink
        (InvX_mono (fun x hx => List.mem_cons_of_mem _ hx) hpre.inv) hg'
      rw [← hpd] at h1
      exact h1
    have hku1 : ∀ q sq, (FKey.node q, FVal.setV sq) ∈
        (d.setk (.node p) (.setV (s.erase full))) → full ∉ sq := by
      intro q sq hm hfs
      rcases mem_setk_cases hpre.inv.nodup hm with ⟨hqp, hvq⟩ | ⟨hm', hne'⟩
      · have hsq : sq = s.erase full := FVal.setV.inj hvq
        subst hsq
        exact (List.Nodup.not_mem_erase hsnd) hfs
      · obtain ⟨_, _, h3⟩ := hpre.inv.memSub q sq hm' full hfs
        exact hne' (by rw [← h3, hpd])
    have hanc2d : ∀ j, d.hasKey j = true → j ∉ X →
        (∀ x ∈ X, ¬ belowP x.segs j) →
        ∀ i, 0 < i → i < j.segs.length →
          d.hasKey (.node (j.segs.take i)) = true :=
      fun j hj hjX hjnb i =>
        hpre.inv.ancP j ((mem_keysList_iff_hasKey d j).mpr hj) hjX hjnb i
    cases hemp : (s.erase full).isEmpty with
    | true =>
      have hsenil : s.erase full = [] := List.isEmpty_iff.mp hemp
      have hbelow_all : ∀ j, d.hasKey j = true → belowP full.segs j → j ∈ X := by
        cases hfn : full.isNode with
        | true => exact hbelow_node hfn
        | false =>
          cases htw : d.hasKey (.node full.segs) with
          | false =>
            exact below_subset_pending_absent hpre.inv hpre.fne hpre.xb htw
          | true =>
            exfalso
            have htwX : FKey.node full.segs ∉ X := by
              intro hc
              have h1 := hpre.xl _ hc
              have h2 : (FKey.node full.segs).segs.length = full.segs.length := rfl
              omega
            have htws : FKey.node full.segs ∈ s :=
              hpre.inv.memSup p s hm0 _ htw hpre.fne hpd.symm htwX
            have htwe : FKey.node full.segs ∈ s.erase full :=
              (List.Nodup.mem_erase_iff hsnd).mpr ⟨by
                intro he
                cases full with
                | leaf q => cases he
                | node q => simp [FKey.isNode] at hfn, htws⟩
            rw [hsenil] at htwe
            exact List.not_mem_nil _ htwe
      have hppre : segPrefix p full.segs = true := by
        rw [hpd]
        exact segPrefix_dropLast _ hpre.fne
      have hpre1 : DelPre (d.setk (.node p) (.setV (s.erase full)))
          (.node p) (full :: X) := by
        refine ⟨hpne, ?_, hinv1, ?_, ?_, ?_, ?_, ?_, ?_, ?_⟩
        · intro hc
          rcases List.mem_cons.mp hc with h | h
          · have h2 : p.length = full.segs.length :=
              congrArg (fun k : FKey => k.segs.length) h
            omega
          · have h1 := hpre.xl _ h
            have h2 : (FKey.node p).segs.length = p.length := rfl
            omega
        · intro x hx
          rcases List.mem_cons.mp hx with h | h
          · subst h
            exact (hhk1 x).mpr hhit
          · exact (hhk1 x).mpr (hpre.xk x h)
        · exact List.nodup_cons.mpr ⟨hpre.fX, hpre.xnd⟩
        · intro x hx
          have h3 : (FKey.node p).segs.length = p.length := rfl
          rcases List.mem_cons.mp hx with h | h
          · have h2 : x.segs.length = full.segs.length := by rw [h]
            omega
          · have h1 := hpre.xl x h
            omega
        · intro x hx
          rcases List.mem_cons.mp hx with h | h
          · subst h
            exact hppre
          · exact segPrefix_trans hppre (hpre.xu x h)
        · intro j hj hex
          have hjd : d.hasKey j = true := (hhk1 j).mp hj
          obtain ⟨x, hx, hbx⟩ := hex
          rcases List.mem_cons.mp hx with h | h
          · subst h
            exact List.mem_cons_of_mem _ (hbelow_all j hjd hbx)
          · exact List.mem_cons_of_mem _ (hpre.xb j hjd ⟨x, h, hbx⟩)
        · intro habs _
          exfalso
          have h1 := (hhk1 (FKey.node p)).mpr hmk
          rw [habs] at h1
          cases h1
        · intro _
          show (d.setk (.node p) (.setV (s.erase full))).get? (.node p) = _
          rw [FMap.get?_setk_self, hsenil]
      have hr := ih _ (.node p) (full :: X)
        (by show p.length + 1 ≤ fuel; omega) hpre1
      have hr2false : (fDelGoF fuel confFv
          (d.setk (.node p) (.setV (s.erase full))) (.node p)).2 = false := by
        cases hc : (fDelGoF fuel confFv
            (d.setk (.node p) (.setV (s.erase full))) (.node p)).2 with
        | false => rfl
        | true =>
          exfalso
          obtain ⟨_, h2, _⟩ := hr.1 hc
          have h1 := (hhk1 (FKey.node p)).mpr hmk
          rw [h2] at h1
          cases h1
      obtain ⟨hrinv, hrfull, hrx, hrshrink, hrxb⟩ := hr.2 hr2false
      have hres : fDelGoF (fuel + 1) confFv d full =
          ((fDelGoF fuel confFv (d.setk (.node p) (.setV (s.erase full)))
            (.node p)).1.erase full, false) := by
        simp only [fDelGoF]
        rw [if_pos hhit, if_pos (show confFv.fastview = true from rfl), hpo]
        dsimp only
        rw [hv]
        dsimp only
        rw [if_pos hmem, if_pos hemp]
        rw [if_neg (by intro hc; rw [hr2false] at hc; cases hc)]
      rw [hres]
      refine ⟨fun h => absurd h (by simp), fun _ => ?_⟩
      have hrinv' : InvX ((fDelGoF fuel confFv
          (d.setk (.node p) (.setV (s.erase full))) (.node p)).1.erase full) X := by
        refine invX_erase_pending hrinv ?_ ?_ ?_
        · intro q sq hm hfs
          obtain ⟨_, _, h3⟩ := hrinv.memSub q sq hm full hfs
          have hqk : (fDelGoF fuel confFv
              (d.setk (.node p) (.setV (s.erase full)))
              (.node p)).1.hasKey (FKey.node q) = true :=
            (mem_keysList_iff_hasKey _ _).mp (List.mem_map_of_mem Prod.fst hm)
          rw [show FKey.node q = FKey.node p from by rw [← h3, hpd]] at hqk
          rw [hrfull] at hqk
          cases hqk
        · intro j hj hb hjX hjnb i hi0 hilen
          exfalso
          have h1 := hrxb j hj ⟨full, List.mem_cons_self _ _, hb⟩
          rcases List.mem_cons.mp h1 with h | h
          · exact hb.2 (by rw [h])
          · exact hjX h
        · intro hfn j hj hb
          have h1 := hrxb j hj ⟨full, List.mem_cons_self _ _, hb⟩
          rcases List.mem_cons.mp h1 with h | h
          · exfalso
            exact hb.2 (by rw [h])
          · exact Or.inl h
      refine ⟨hrinv', hasKey_erase_self_of_nodup full hrinv.nodup, ?_, ?_, ?_⟩
      · intro x hx
        rw [FMap.hasKey_erase_ne _ (hXne x hx)]
        exact hrx x (List.mem_cons_of_mem _ hx)
      · intro j hj
        exact (hhk1 j).mp (hrshrink j (hasKey_of_hasKey_erase hj))
      · intro j hj hex
        have hj1 := hasKey_of_hasKey_erase hj
        obtain ⟨x, hx, hbx⟩ := hex
        have h1 := hrxb j hj1 ⟨x, List.mem_cons_of_mem _ hx, hbx⟩
        rcases List.mem_cons.mp h1 with h | h
        · exfalso
          subst h
          rw [hasKey_erase_self_of_nodup j hrinv.nodup] at hj
          cases hj
        · exact h
    | false =>
      have hres : fDelGoF (fuel + 1) confFv d full =
          ((d.setk (.node p) (.setV (s.erase full))).erase full, false) := by
        simp only [fDelGoF]
        rw [if_pos hhit, if_pos (show confFv.fastview = true from rfl), hpo]
        dsimp only
        rw [hv]
        dsimp only
        rw [if_pos hmem, if_neg (by intro hc; rw [hemp] at hc; cases hc)]
      rw [hres]
      refine ⟨fun h => absurd h (by simp), fun _ => ?_⟩
      have hinv' : InvX ((d.setk (.node p) (.setV (s.erase full))).erase full) X := by
        refine invX_erase_pending hinv1 hku1 ?_ ?_
        · intro j hj hb hjX hjnb i hi0 hilen
          exact (hhk1 _).mpr (hanc2d j ((hhk1 j).mp hj) hjX hjnb i hi0 hilen)
        · intro hfn j hj hb
          exact Or.inl (hbelow_node hfn j ((hhk1 j).mp hj) hb)
      refine ⟨hinv', hasKey_erase_self_of_nodup full hinv1.nodup, ?_, ?_, ?_⟩
      · intro x hx
        rw [FMap.hasKey_erase_ne _ (hXne x hx)]
        exact (hhk1 x).mpr (hpre.xk x hx)
      · intro j hj
        exact (hhk1 j).mp (hasKey_of_hasKey_erase hj)
      · intro j hj hex
        exact hpre.xb j ((hhk1 j).mp (hasKey_of_hasKey_erase hj)) hex

/-- The subtree branch of the deletion body preserves the bundle. -/
theorem delStepB (fuel : Nat)
    (ih : ∀ (d : FMap α) (full : FKey) (X : List FKey),
      full.segs.length + 1 ≤ fuel → DelPre d full X →
      DelPost d full X (fDelGoF fuel confFv d full))
    (d : FMap α) (full : FKey) (X : List FKey)
    (hfuel : full.segs.length + 1 ≤ fuel + 1)
    (hpre : DelPre d full X) (hhit : d.hasKey full = false) :
    DelPost d full X (fDelGoF (fuel + 1) confFv d full) := by
  cases hdir : d.hasKey (.node full.segs) with
  | false =>
    have hres : fDelGoF (fuel + 1) confFv d full = (d, true) := by
      simp only [fDelGoF]
      rw [if_neg (by intro hc; rw [hhit] at hc; cases hc),
        if_pos (show confFv.fastview = true from rfl)]
      rw [hdir]
      rfl
    rw [hres]
    exact ⟨fun _ => ⟨rfl, hhit, hdir⟩, fun h => absurd h (by simp)⟩
  | true =>
    obtain ⟨v, hv⟩ := Option.isSome_iff_exists.mp hdir
    obtain ⟨sdir, hsv, hsdnd⟩ := hpre.inv.marker full.segs v (FMap.mem_of_get? hv)
    subst hsv
    have hm0d : (FKey.node full.segs, FVal.setV sdir) ∈ d := FMap.mem_of_get? hv
    have hdirX : FKey.node full.segs ∉ X := by
      intro hc
      have h1 := hpre.xl _ hc
      have h2 : (FKey.node full.segs).segs.length = full.segs.length := rfl
      omega
    have hnbXdir : ∀ x ∈ X, ¬ belowP x.segs (FKey.node full.segs) :=
      not_belowP_of_ge hpre.xl
    have hdirmem : FKey.node full.segs ∈ d.keysList :=
      (mem_keysList_iff_hasKey d _).mpr hdir
    have hkeyslen : d.keysList.length = d.size := by
      simp [FMap.keysList, FMap.size]
    -- the collected key bundle
    have hbundle :
        (∀ k ∈ fvCollect d (d.size + 1) sdir,
          d.hasKey k = true ∧ belowP full.segs k) ∧
        (fvCollect d (d.size + 1) sdir).Nodup ∧
        (∀ done k rest, fvCollect d (d.size + 1) sdir = done ++ k :: rest →
          k.segs.dropLast = full.segs ∨ (FKey.node k.segs.dropLast) ∈ done) ∧
        (∀ j, d.hasKey j = true → belowP full.segs j →
          j ∈ fvCollect d (d.size + 1) sdir ++ X) ∧
        (∀ k ∈ fvCollect d (d.size + 1) sdir, k ∉ X) := by
      by_cases hXnil : X = []
      · subst hXnil
        have hinv0 : Inv d := hpre.inv
        obtain ⟨hO1, hO2, hO3⟩ := fvCollect_spec hinv0 (d.size + 1) sdir
          (fun k hk => (hinv0.memSub full.segs sdir hm0d k hk).1)
          hsdnd
          (by
            intro a ha _ b hb hab
            have h1 := segs_length_of_dropLast
              (hinv0.memSub full.segs sdir hm0d a ha).2.1
              (hinv0.memSub full.segs sdir hm0d a ha).2.2
            have h2 := segs_length_of_dropLast
              (hinv0.memSub full.segs sdir hm0d b hb).2.1
              (hinv0.memSub full.segs sdir hm0d b hb).2.2
            exact not_belowP_shorter (by omega) hab)
          (by
            have := List.length_filter_le (fun j => coversB sdir j) d.keysList
            omega)
        have hcov := covers_children_iff hinv0 hm0d
        refine ⟨?_, hO2, ?_, ?_, ?_⟩
        · intro k hk
          obtain ⟨h1, h2⟩ := (hO1 k).mp hk
          exact ⟨h1, (hcov k h1).mp h2⟩
        · intro done k rest he
          rcases hO3 done k rest he with h | h
          · exact Or.inl (hinv0.memSub full.segs sdir hm0d k h).2.2
          · exact Or.inr h
        · intro j hj hb
          exact List.mem_append_left _ ((hO1 j).mpr ⟨hj, (hcov j hj).mpr hb⟩)
        · intro k _ hc
          exact List.not_mem_nil k hc
      · have hmt := hpre.xe hhit hXnil
        have hsnil : sdir = [] := by
          have := hv.symm.trans hmt
          exact FVal.setV.inj (Option.some.inj this)
        subst hsnil
        rw [fvCollect_nil_ws]
        refine ⟨?_, List.nodup_nil, ?_, ?_, ?_⟩
        · intro k hk
          exact absurd hk (List.not_mem_nil k)
        · intro done k rest he
          exfalso
          cases done with
          | nil => cases he
          | cons a t => cases he
        · intro j hj hb
          rw [List.nil_append]
          exact below_subset_pending hpre.inv hpre.xb hmt j hj hb
        · intro k hk
          exact absurd hk (List.not_mem_nil k)
    obtain ⟨hTD1, hTD2, hTD3, hTC, hTDX⟩ := hbundle
    have hTDdir : ∀ k ∈ fvCollect d (d.size + 1) sdir, k ≠ FKey.node full.segs := by
      intro k hk he
      have h1 := belowP_length_lt (hTD1 k hk).2
      have h2 : k.segs.length = (FKey.node full.segs).segs.length :=
        congrArg (fun kk : FKey => kk.segs.length) he
      have h3 : (FKey.node full.segs).segs.length = full.segs.length := rfl
      omega
    have hTDlen : ∀ k ∈ fvCollect d (d.size + 1) sdir,
        full.segs.length < k.segs.length :=
      fun k hk => belowP_length_lt (hTD1 k hk).2
    have htoDel : fViewKeys confFv d true true (some full.segs) =
        fvCollect d (d.size + 1) sdir := toDel_eq_fvCollect hpre.fne hv
    have hfullTD : ∀ dd : FMap α, (∀ j, dd.hasKey j = true → d.hasKey j = true) →
        dd.hasKey full = false := by
      intro dd hsh
      cases hc : dd.hasKey full with
      | false => rfl
      | true =>
        have := hsh full hc
        rw [hhit] at this
        cases this
    cases hpo : parentOf full.segs with
    | none =>
      have hdl0 : full.segs.dropLast = [] := parentOf_none hpo
      have hres : fDelGoF (fuel + 1) confFv d full =
          eraseAllChecked (d.erase (.node full.segs))
            (fvCollect d (d.size + 1) sdir) := by
        simp only [fDelGoF]
        rw [if_neg (by intro hc; rw [hhit] at hc; cases hc),
          if_pos (show confFv.fastview = true from rfl)]
        rw [hdir]
        rw [if_neg (by simp), hpo]
        dsimp only
        rw [if_neg (by simp), htoDel]
      have hinv1 : InvX (d.erase (.node full.segs))
          (fvCollect d (d.size + 1) sdir ++ X) := by
        refine invX_erase_pending
          (InvX_mono (fun x hx => List.mem_cons_of_mem _
            (List.mem_append_right _ hx)) hpre.inv) ?_ ?_ ?_
        · intro q sq hm hfs
          obtain ⟨_, _, h3⟩ := hpre.inv.memSub q sq hm _ hfs
          have h4 : (FKey.node full.segs).segs.dropLast = q := h3
          rw [show (FKey.node full.segs).segs = full.segs from rfl, hdl0] at h4
          have hmkq : (FKey.node q) ∈ d.keysList :=
            List.mem_map_of_mem Prod.fst hm
          exact hpre.inv.nonem _ hmkq (by rw [← h4]; rfl)
        · intro j hj hb hjX _
          exact absurd (hTC j hj hb) hjX
        · intro _ j hj hb
          exact Or.inl (hTC j hj hb)
      have hdis := eraseAllChecked_inv (fvCollect d (d.size + 1) sdir)
        (d.erase (.node full.segs)) X hinv1
        (by
          intro k hk
          rw [FMap.hasKey_erase_ne d (hTDdir k hk)]
          exact (hTD1 k hk).1)
        hTDX hTD2
        (by
          intro done k rest he
          rcases hTD3 done k rest he with h | h
          · refine Or.inl ?_
            rw [h]
            exact hasKey_erase_self_of_nodup _ hpre.inv.nodup
          · exact Or.inr h)
        (by
          intro j hj x hx hb
          have hjd : d.hasKey j = true := hasKey_of_hasKey_erase hj
          rcases List.mem_append.mp hx with h | h
          · exact hTC j hjd (belowP_of_above (hTD1 x h).2.1 hb)
          · exact List.mem_append_right _ (hpre.xb j hjd ⟨x, h, hb⟩))
        (by
          intro x hx
          rw [FMap.hasKey_erase_ne d (by
            intro he
            exact hdirX (he ▸ hx))]
          exact hpre.xk x hx)
      obtain ⟨hd1, hd2i, hd3, hd4, hd5⟩ := hdis
      rw [hres]
      refine ⟨?_, fun _ => ?_⟩
      · intro h
        rw [hd1] at h
        cases h
      refine ⟨hd2i, ?_, hd3, ?_, ?_⟩
      · exact hfullTD _ (fun j hj => hasKey_of_hasKey_erase (hd4 j hj))
      · exact fun j hj => hasKey_of_hasKey_erase (hd4 j hj)
      · intro j hj hex
        have hjd : d.hasKey j = true := hasKey_of_hasKey_erase (hd4 j hj)
        exact hpre.xb j hjd hex
    | some p =>
      obtain ⟨hpd, hsne, hpne⟩ := parentOf_some hpo
      have hflen : full.segs.length = p.length + 1 :=
        segs_length_of_dropLast hpre.fne hpd.symm
      have hp0 : 0 < p.length := List.length_pos.mpr hpne
      have hnedirp : FKey.node full.segs ≠ FKey.node p := by
        intro he
        have h2 : full.segs.length = p.length :=
          congrArg (fun k : FKey => k.segs.length) he
        omega
      have hmkp : d.hasKey (.node p) = true := by
        have h1 := hpre.inv.ancP _ hdirmem hdirX hnbXdir p.length hp0
          (by
            have h2 : (FKey.node full.segs).segs.length = full.segs.length := rfl
            omega)
        have htake : (FKey.node full.segs).segs.take p.length = p := by
          show full.segs.take p.length = p
          conv_rhs => rw [hpd, dropLast_eq_take, hflen, Nat.add_sub_cancel]
        rwa [htake] at h1
      obtain ⟨v2, hv2⟩ := Option.isSome_iff_exists.mp hmkp
      obtain ⟨s2, hs2, hs2nd⟩ := hpre.inv.marker p v2 (FMap.mem_of_get? hv2)
      subst hs2
      have hm0p : (FKey.node p, FVal.setV s2) ∈ d := FMap.mem_of_get? hv2
      have hmem2 : FKey.node full.segs ∈ s2 :=
        hpre.inv.memSup p s2 hm0p _ hdir hpre.fne hpd.symm hdirX
      have hv2d1 : (d.erase (.node full.segs)).get? (.node p) =
          some (.setV s2) := by
        rw [FMap.get?_erase_ne d (fun he => hnedirp he.symm)]
        exact hv2
      -- the mutated store, in commuted form
      have hcomm : (d.erase (.node full.segs)).setk (.node p)
          (.setV (s2.erase (.node full.segs))) =
          (d.setk (.node p) (.setV (s2.erase (.node full.segs)))).erase
            (.node full.segs) := erase_setk_comm hnedirp d _
      have hhkA : ∀ j, (d.setk (.node p)
          (.setV (s2.erase (.node full.segs)))).hasKey j = true ↔
          d.hasKey j = true := by
        intro j
        rw [hasKey_setk]
        by_cases hj : j = FKey.node p
        · subst hj
          simp [hmkp]
        · simp [hj]
      have hinvA : InvX (d.setk (.node p) (.setV (s2.erase (.node full.segs))))
          (FKey.node full.segs :: (fvCollect d (d.size + 1) sdir ++ X)) := by
        have hg' : d.get? (.node (FKey.node full.segs).segs.dropLast) =
            some (.setV s2) := by
          show d.get? (.node full.segs.dropLast) = some (.setV s2)
          rw [← hpd]
          exact hv2
        have h1 : InvX (d.setk (.node (FKey.node full.segs).segs.dropLast)
            (.setV (s2.erase (.node full.segs))))
            (FKey.node full.segs :: (fvCollect d (d.size + 1) sdir ++ X)) :=
          invX_unlink (InvX_mono (fun x hx => List.mem_cons_of_mem _
            (List.mem_append_right _ hx)) hpre.inv) hg'
        have h2 : (FKey.node full.segs).segs.dropLast = p := by
          show full.segs.dropLast = p
          rw [← hpd]
        rw [h2] at h1
        exact h1
      have hinv2 : InvX ((d.erase (.node full.segs)).setk (.node p)
          (.setV (s2.erase (.node full.segs))))
          (fvCollect d (d.size + 1) sdir ++ X) := by
        rw [hcomm]
        refine invX_erase_pending hinvA ?_ ?_ ?_
        · intro q sq hm hfs
          rcases mem_setk_cases hpre.inv.nodup hm with ⟨hqp, hvq⟩ | ⟨hm', hne'⟩
          · have hsq : sq = s2.erase (.node full.segs) := FVal.setV.inj hvq
            subst hsq
            exact (List.Nodup.not_mem_erase hs2nd) hfs
          · obtain ⟨_, _, h3⟩ := hpre.inv.memSub q sq hm' _ hfs
            have h4 : full.segs.dropLast = q := h3
            exact hne' (by rw [← h4, hpd])
        · intro j hj hb hjX _
          exact absurd (hTC j ((hhkA j).mp hj) hb) hjX
        · intro _ j hj hb
          exact Or.inl (hTC j ((hhkA j).mp hj) hb)
      have hhk2 : ∀ j, ((d.erase (.node full.segs)).setk (.node p)
          (.setV (s2.erase (.node full.segs)))).hasKey j = true ↔
          (d.hasKey j = true ∧ j ≠ FKey.node full.segs) := by
        intro j
        rw [hcomm]
        constructor
        · intro hj
          have hjne : j ≠ FKey.node full.segs := by
            intro he
            subst he
            rw [hasKey_erase_self_of_nodup _ hinvA.nodup] at hj
            cases hj
          refine ⟨?_, hjne⟩
          have h1 := hasKey_of_hasKey_erase hj
          exact (hhkA j).mp h1
        · rintro ⟨h1, h2⟩
          rw [FMap.hasKey_erase_ne _ h2]
          exact (hhkA j).mpr h1
      have hget2p : ((d.erase (.node full.segs)).setk (.node p)
          (.setV (s2.erase (.node full.segs)))).get? (.node p) =
          some (.setV (s2.erase (.node full.segs))) := by
        rw [FMap.get?_setk_self]
      -- shared discharge for both unlink outcomes
      have hfinish : ∀ dd : FMap α,
          InvX dd (fvCollect d (d.size + 1) sdir ++ X) →
          (∀ k ∈ fvCollect d (d.size + 1) sdir, dd.hasKey k = true) →
          (∀ x ∈ X, dd.hasKey x = true) →
          (∀ j, dd.hasKey j = true → d.hasKey j = true) →
          (dd.hasKey (.node full.segs) = false) →
          (∀ j, dd.hasKey j = true →
            ∀ x ∈ fvCollect d (d.size + 1) sdir ++ X, belowP x.segs j →
            j ∈ fvCollect d (d.size + 1) sdir ++ X) →
          DelPost d full X (eraseAllChecked dd (fvCollect d (d.size + 1) sdir)) := by
        intro dd hddinv hddTD hddX hddsh hdddir hddTB
        have hdis := eraseAllChecked_inv (fvCollect d (d.size + 1) sdir)
          dd X hddinv hddTD hTDX hTD2
          (by
            intro done k rest he
            rcases hTD3 done k rest he with h | h
            · refine Or.inl ?_
              rw [h]
              exact hdddir
            · exact Or.inr h)
          hddTB hddX
        obtain ⟨hd1, hd2i, hd3, hd4, hd5⟩ := hdis
        refine ⟨?_, fun _ => ?_⟩
        · intro h
          rw [hd1] at h
          cases h
        refine ⟨hd2i, ?_, hd3, ?_, ?_⟩
        · exact hfullTD _ (fun j hj => hddsh j (hd4 j hj))
        · exact fun j hj => hddsh j (hd4 j hj)
        · intro j hj hex
          exact hpre.xb j (hddsh j (hd4 j hj)) hex
      cases hemp2 : (s2.erase (.node full.segs)).isEmpty with
      | false =>
        have hres : fDelGoF (fuel + 1) confFv d full =
            eraseAllChecked ((d.erase (.node full.segs)).setk (.node p)
              (.setV (s2.erase (.node full.segs))))
              (fvCollect d (d.size + 1) sdir) := by
          simp only [fDelGoF]
          rw [if_neg (by intro hc; rw [hhit] at hc; cases hc),
            if_pos (show confFv.fastview = true from rfl)]
          rw [hdir]
          rw [if_neg (by simp), hpo]
          dsimp only
          rw [hv2d1]
          dsimp only
          rw [if_pos hmem2, if_neg (by intro hc; rw [hemp2] at hc; cases hc)]
          rw [if_neg (by
            simp
            constructor
            · intro he
              rw [he] at hmem2
              exact List.not_mem_nil _ hmem2
            · intro he
              rw [he] at hemp2
              simp at hemp2), htoDel]
        rw [hres]
        refine hfinish _ hinv2 ?_ ?_ ?_ ?_ ?_
        · intro k hk
          exact (hhk2 k).mpr ⟨(hTD1 k hk).1, hTDdir k hk⟩
        · intro x hx
          refine (hhk2 x).mpr ⟨hpre.xk x hx, ?_⟩
          intro he
          exact hdirX (he ▸ hx)
        · exact fun j hj => ((hhk2 j).mp hj).1
        · cases hc : ((d.erase (.node full.segs)).setk (.node p)
              (.setV (s2.erase (.node full.segs)))).hasKey
              (.node full.segs) with
          | false => rfl
          | true =>
            exfalso
            exact ((hhk2 _).mp hc).2 rfl
        · intro j hj x hx hbx
          have hjd : d.hasKey j = true := ((hhk2 j).mp hj).1
          rcases List.mem_append.mp hx with h | h
          · exact hTC j hjd (belowP_of_above (hTD1 x h).2.1 hbx)
          · exact List.mem_append_right _ (hpre.xb j hjd ⟨x, h, hbx⟩)
      | true =>
        have hse2 : s2.erase (.node full.segs) = [] := List.isEmpty_iff.mp hemp2
        have hpre2 : DelPre ((d.erase (.node full.segs)).setk (.node p)
            (.setV (s2.erase (.node full.segs)))) (.leaf p)
            (fvCollect d (d.size + 1) sdir ++ X) := by
          have hppre : segPrefix p full.segs = true := by
            rw [hpd]
            exact segPrefix_dropLast _ hpre.fne
          refine ⟨hpne, ?_, hinv2, ?_, ?_, ?_, ?_, ?_, ?_, ?_⟩
          · intro hc
            rcases List.mem_append.mp hc with h | h
            · have h1 := hTDlen _ h
              have h2 : (FKey.leaf p).segs.length = p.length := rfl
              omega
            · have h1 := hpre.xl _ h
              have h2 : (FKey.leaf p).segs.length = p.length := rfl
              omega
          · intro x hx
            rcases List.mem_append.mp hx with h | h
            · exact (hhk2 x).mpr ⟨(hTD1 x h).1, hTDdir x h⟩
            · refine (hhk2 x).mpr ⟨hpre.xk x h, ?_⟩
              intro he
              exact hdirX (he ▸ h)
          · rw [List.nodup_append]
            exact ⟨hTD2, hpre.xnd, fun k hk hkX => hTDX k hk hkX⟩
          · intro x hx
            have h3 : (FKey.leaf p).segs.length = p.length := rfl
            rcases List.mem_append.mp hx with h | h
            · have h1 := hTDlen _ h
              omega
            · have h1 := hpre.xl _ h
              omega
          · intro x hx
            show segPrefix p x.segs = true
            rcases List.mem_append.mp hx with h | h
            · exact segPrefix_trans hppre (hTD1 x h).2.1
            · exact segPrefix_trans hppre (hpre.xu x h)
          · intro j hj hex
            have hjd : d.hasKey j = true := ((hhk2 j).mp hj).1
            obtain ⟨x, hx, hbx⟩ := hex
            rcases List.mem_append.mp hx with h | h
            · exact hTC j hjd (belowP_of_above (hTD1 x h).2.1 hbx)
            · exact List.mem_append_right _ (hpre.xb j hjd ⟨x, h, hbx⟩)
          · intro _ _
            show ((d.erase (.node full.segs)).setk (.node p)
              (.setV (s2.erase (.node full.segs)))).get? (.node (FKey.leaf p).segs) =
              some (.setV ([] : List FKey))
            show _ = some (.setV ([] : List FKey))
            rw [show FKey.node (FKey.leaf p).segs = FKey.node p from rfl,
              hget2p, hse2]
          · intro hc
            simp [FKey.isNode] at hc
        have hrec := ih _ (.leaf p) (fvCollect d (d.size + 1) sdir ++ X)
          (by
            show p.length + 1 ≤ fuel
            omega) hpre2
        have hr2false : (fDelGoF fuel confFv
            ((d.erase (.node full.segs)).setk (.node p)
              (.setV (s2.erase (.node full.segs)))) (.leaf p)).2 = false := by
          cases hc : (fDelGoF fuel confFv _ (.leaf p)).2 with
          | false => rfl
          | true =>
            exfalso
            obtain ⟨_, _, h3⟩ := hrec.1 hc
            have h4 : ((d.erase (.node full.segs)).setk (.node p)
                (.setV (s2.erase (.node full.segs)))).hasKey
                (.node (FKey.leaf p).segs) = true := by
              show FMap.hasKey _ (.node p) = true
              rw [FMap.hasKey, hget2p]
              rfl
            rw [h3] at h4
            cases h4
        obtain ⟨hrinv, hrfull, hrx, hrsh, hrxb⟩ := hrec.2 hr2false
        have hres : fDelGoF (fuel + 1) confFv d full =
            eraseAllChecked (fDelGoF fuel confFv
              ((d.erase (.node full.segs)).setk (.node p)
                (.setV (s2.erase (.node full.segs)))) (.leaf p)).1
              (fvCollect d (d.size + 1) sdir) := by
          simp only [fDelGoF]
          rw [if_neg (by intro hc; rw [hhit] at hc; cases hc),
            if_pos (show confFv.fastview = true from rfl)]
          rw [hdir]
          rw [if_neg (by simp), hpo]
          dsimp only
          rw [hv2d1]
          dsimp only
          rw [if_pos hmem2, if_pos hemp2]
          rw [if_neg (by intro hc; rw [hr2false] at hc; cases hc), htoDel]
        rw [hres]
        refine hfinish _ hrinv ?_ ?_ ?_ ?_ ?_
        · intro k hk
          exact hrx k (List.mem_append_left _ hk)
        · intro x hx
          exact hrx x (List.mem_append_right _ hx)
        · intro j hj
          exact ((hhk2 j).mp (hrsh j hj)).1
        · cases hc : (fDelGoF fuel confFv
              ((d.erase (.node full.segs)).setk (.node p)
                (.setV (s2.erase (.node full.segs)))) (.leaf p)).1.hasKey
              (.node full.segs) with
          | false => rfl
          | true =>
            exfalso
            exact ((hhk2 _).mp (hrsh _ hc)).2 rfl
        · intro j hj x hx hb
          exact hrxb j hj ⟨x, hx, hb⟩

/-- Master invariant preservation of the deletion body, by fuel
induction over the cascade. -/
theorem fDelGoF_inv :
    ∀ (fuel : Nat) (d : FMap α) (full : FKey) (X : List FKey),
      full.segs.length + 1 ≤ fuel → DelPre d full X →
      DelPost d full X (fDelGoF fuel confFv d full) := by
  intro fuel
  induction fuel with
  | zero =>
    intro d full X hfuel _
    omega
  | succ fuel ih =>
    intro d full X hfuel hpre
    cases hhit : d.hasKey full with
    | true => exact delStepA fuel ih d full X hfuel hpre hhit
    | false => exact delStepB fuel ih d full X hfuel hpre hhit

/-- `__delitem__` at root scope on a leaf-form key preserves the
fastview invariant, whether or not it raises. -/
theorem fDel_inv {d : FMap α} (hinv : Inv d) (key : FKey)
    (hk : key.segs ≠ []) (hkl : key.isNode = false) :
    Inv (fDel confFv d key false).1 ∧
    (∀ j, (fDel confFv d key false).1.hasKey j = true → d.hasKey j = true) := by
  have hpre : DelPre d key [] := by
    refine ⟨hk, List.not_mem_nil key, hinv,
      fun x hx => absurd hx (List.not_mem_nil x), List.nodup_nil,
      fun x hx => absurd hx (List.not_mem_nil x),
      fun x hx => absurd hx (List.not_mem_nil x), ?_,
      fun _ hne => absurd rfl hne, ?_⟩
    · intro j _ hex
      obtain ⟨x, hx, _⟩ := hex
      exact absurd hx (List.not_mem_nil x)
    · intro hfn
      rw [hkl] at hfn
      cases hfn
  have hpost := fDelGoF_inv (key.segs.length + 1) d key [] (le_refl _) hpre
  have hred : fDel confFv d key false =
      fDelGoF (key.segs.length + 1) confFv d key := by
    rw [fDel, if_neg (by intro hc; cases hc)]
    rw [show (if false = true then key else key.addRoot confFv.root) =
      key.addRoot confFv.root from rfl]
    rw [show confFv.root = ([] : List String) from rfl, addRoot_nil]
    rfl
  rw [hred]
  cases hc2 : (fDelGoF (key.segs.length + 1) confFv d key).2 with
  | true =>
    obtain ⟨h1, _, _⟩ := hpost.1 hc2
    rw [h1]
    exact ⟨hinv, fun j hj => hj⟩
  | false =>
    obtain ⟨h1, _, _, h4, _⟩ := hpost.2 hc2
    exact ⟨h1, h4⟩

theorem parentNodes_mem_ne_nil {s q : List String}
    (h : q ∈ parentNodes s) : q ≠ [] := by
  obtain ⟨i, hi0, hilen, hq⟩ :=
    (mem_parentNodes s.length s (le_refl _)).mp h
  subst hq
  exact take_ne_nil_of_pos hi0 (by omega)

/-- The ancestor-singleton deletion loop of the leaf branch of
`__setitem__` preserves the invariant and only removes entries. -/
theorem delAncestorSingletons_inv :
    ∀ (ps : List (List String)) (d : FMap α), Inv d →
      (∀ p ∈ ps, p ≠ []) →
      Inv (delAncestorSingletons confFv d ps).1 ∧
      (∀ j, (delAncestorSingletons confFv d ps).1.hasKey j = true →
        d.hasKey j = true) := by
  intro ps
  induction ps with
  | nil =>
    intro d hinv _
    exact ⟨hinv, fun j hj => hj⟩
  | cons p ps ih =>
    intro d hinv hne
    simp only [delAncestorSingletons]
    cases hp : d.hasKey (.leaf p) with
    | false =>
      rw [if_neg (by intro hc; cases hc)]
      exact ih d hinv (fun q hq => hne q (List.mem_cons_of_mem _ hq))
    | true =>
      rw [if_pos rfl]
      obtain ⟨hinv1, hsh1⟩ := fDel_inv hinv (.leaf p)
        (hne p (List.mem_cons_self _ _)) rfl
      cases hr : (fDel confFv d (.leaf p) false).2 with
      | true =>
        rw [if_pos rfl]
        exact ⟨hinv1, hsh1⟩
      | false =>
        rw [if_neg (by intro hc; cases hc)]
        obtain ⟨h1, h2⟩ := ih _ hinv1
          (fun q hq => hne q (List.mem_cons_of_mem _ hq))
        exact ⟨h1, fun j hj => hsh1 j (h2 j hj)⟩

/-- The non-mapping branch of `__setitem__` at root scope preserves the
fastview invariant. -/
theorem fSet_leaf_inv {d : FMap α} (hinv : Inv d) (key : List String)
    (hk : key ≠ []) (a : α) :
    Inv (fSet confFv d key (.leaf a)).1 := by
  have hfullne : confFv.root ++ key ≠ [] := by
    intro hcc
    rw [List.append_eq_nil] at hcc
    exact hk hcc.2
  simp only [fSet]
  rw [if_pos (show confFv.fastview = true from rfl)]
  have hr1 : Inv (if d.hasKey (.node (confFv.root ++ key)) = true
      then fDel confFv d (.leaf key) false else (d, false)).1 := by
    cases hc : d.hasKey (.node (confFv.root ++ key)) with
    | true =>
      rw [if_pos rfl]
      exact (fDel_inv hinv (.leaf key) hk rfl).1
    | false =>
      rw [if_neg (by intro hcc; cases hcc)]
      exact hinv
  cases hr2c : (if d.hasKey (.node (confFv.root ++ key)) = true
      then fDel confFv d (.leaf key) false else (d, false)).2 with
  | true =>
    rw [if_pos rfl]
    exact hr1
  | false =>
    rw [if_neg (by intro hcc; cases hcc)]
    obtain ⟨hinv2, _⟩ := delAncestorSingletons_inv
      (parentNodes (confFv.root ++ key)) _ hr1
      (fun p hp => parentNodes_mem_ne_nil hp)
    cases hr3c : (delAncestorSingletons confFv
        (if d.hasKey (.node (confFv.root ++ key)) = true
          then fDel confFv d (.leaf key) false else (d, false)).1
        (parentNodes (confFv.root ++ key))).2 with
    | true =>
      rw [if_pos rfl]
      exact hinv2
    | false =>
      rw [if_neg (by intro hcc; cases hcc)]
      exact buildMeta1_setk_inv hinv2 rfl hfullne

/-- The mapping branch of `__setitem__` at root scope preserves the
fastview invariant. -/
theorem fSet_dict_inv {d : FMap α} (hinv : Inv d) (key : List String)
    (hk : key ≠ []) (m : NDict α) (hwf : m.wfB = true) :
    Inv (fSet confFv d key (.dict m)).1 := by
  simp only [fSet]
  rw [if_neg (show ¬((!confFv.fastview) = true) by decide)]
  have hr1 : Inv (if fContains confFv d key = true
      then fDel confFv d (.leaf key) false else (d, false)).1 := by
    cases hc : fContains confFv d key with
    | true =>
      rw [if_pos rfl]
      exact (fDel_inv hinv (.leaf key) hk rfl).1
    | false =>
      rw [if_neg (by intro hcc; cases hcc)]
      exact hinv
  cases hr1c : (if fContains confFv d key = true
      then fDel confFv d (.leaf key) false else (d, false)).2 with
  | true =>
    rw [if_pos rfl]
    exact hr1
  | false =>
    rw [if_neg (by intro hcc; cases hcc)]
    cases m with
    | nil => exact hr1
    | cons k0 v0 r0 =>
      rw [if_pos (show confFv.fastview = true from rfl)]
      exact setDictMerge_inv hr1 hwf

theorem Inv_nil : Inv ([] : FMap α) := by
  refine ⟨List.nodup_nil, ?_, ?_, ?_, ?_, ?_⟩
  · intro k hk
    exact absurd hk (List.not_mem_nil k)
  · intro p v hm
    exact absurd hm (List.not_mem_nil _)
  · intro p sq hm
    exact absurd hm (List.not_mem_nil _)
  · intro p sq hm
    exact absurd hm (List.not_mem_nil _)
  · intro k hk
    exact absurd hk (List.not_mem_nil k)

/-- Stores reachable from an empty fastview-mode store by the public
set and delete operations at root scope (keys are nonempty paths, and a
mapping value is recursively well-formed, as every Python dict is). -/
inductive Reach : FMap α → Prop where
  | empty : Reach []
  | setLeaf (d : FMap α) (key : List String) (a : α) (hk : key ≠ [])
      (h : Reach d) : Reach (fSet confFv d key (.leaf a)).1
  | setDict (d : FMap α) (key : List String) (m : NDict α) (hk : key ≠ [])
      (hwf : m.wfB = true) (h : Reach d) :
      Reach (fSet confFv d key (.dict m)).1
  | del (d : FMap α) (key : List String) (hk : key ≠ [])
      (h : Reach d) : Reach (fDel confFv d (.leaf key) false).1

/-- Every reachable fastview store satisfies the structural invariant. -/
theorem reach_inv {d : FMap α} (h : Reach d) : Inv d := by
  induction h with
  | empty => exact Inv_nil
  | setLeaf d key a hk _ ih => exact fSet_leaf_inv ih key hk a
  | setDict d key m hk hwf _ ih => exact fSet_dict_inv ih key hk m hwf
  | del d key hk _ ih => exact (fDel_inv ih (.leaf key) hk rfl).1

/-- **C2.** Fastview invariant: in every store reachable from an empty
fastview-mode store by any sequence of set and delete operations, every
ancestor of every stored leaf has a node-marker entry, and every
materialized node marker's child set equals exactly the set of stored
full paths (leaves and sub-nodes alike) whose direct parent is that
node. -/
theorem fastviewInvariant {d : FMap α} (h : Reach d) :
    (∀ k, d.hasKey k = true → k.isNode = false →
      ∀ i, 0 < i → i < k.segs.length →
        d.hasKey (.node (k.segs.take i)) = true) ∧
    (∀ p v, (FKey.node p, v) ∈ d → ∃ s, v = FVal.setV s ∧
      ∀ k, k ∈ s ↔ (d.hasKey k = true ∧ k.segs ≠ [] ∧
        k.segs.dropLast = p)) := by
  have hinv : Inv d := reach_inv h
  constructor
  · intro k hk _ i hi0 hilen
    exact hinv.anc k ((mem_keysList_iff_hasKey d k).mpr hk)
      (List.not_mem_nil k) (fun x hx => absurd hx (List.not_mem_nil x))
      i hi0 hilen
  · intro p v hm
    obtain ⟨s, hs, _⟩ := hinv.marker p v hm
    subst hs
    refine ⟨s, rfl, ?_⟩
    intro k
    constructor
    · exact fun hks => hinv.memSub p s hm k hks
    · rintro ⟨h1, h2, h3⟩
      exact hinv.memSup p s hm k h1 h2 h3 (List.not_mem_nil k)

/-- Witness for C2: the store built by `f = fdict(fastview=True);
f['a'] = 1; f['a/b'] = 2; del f['a']` satisfies both conjuncts. -/
theorem fastviewInvariantWitness :
    (∀ k, (fDel confFv (fSet confFv
        (fSet confFv ([] : FMap Nat) ["a"] (.leaf 1)).1
        ["a", "b"] (.leaf 2)).1 (.leaf ["a"]) false).1.hasKey k = true →
      k.isNode = false →
      ∀ i, 0 < i → i < k.segs.length →
        (fDel confFv (fSet confFv
          (fSet confFv ([] : FMap Nat) ["a"] (.leaf 1)).1
          ["a", "b"] (.leaf 2)).1 (.leaf ["a"]) false).1.hasKey
          (.node (k.segs.take i)) = true) ∧
    (∀ p v, (FKey.node p, v) ∈ (fDel confFv (fSet confFv
        (fSet confFv ([] : FMap Nat) ["a"] (.leaf 1)).1
        ["a", "b"] (.leaf 2)).1 (.leaf ["a"]) false).1 →
      ∃ s, v = FVal.setV s ∧
      ∀ k, k ∈ s ↔ ((fDel confFv (fSet confFv
        (fSet confFv ([] : FMap Nat) ["a"] (.leaf 1)).1
        ["a", "b"] (.leaf 2)).1 (.leaf ["a"]) false).1.hasKey k = true ∧
        k.segs ≠ [] ∧ k.segs.dropLast = p)) :=
  fastviewInvariant
    (Reach.del _ ["a"] (by decide)
      (Reach.setLeaf _ ["a", "b"] 2 (by decide)
        (Reach.setLeaf _ ["a"] 1 (by decide) Reach.empty)))

end Fdict